import Mathlib

/-!
# Chang–Roberts leader election on a ring (`lcr/main.go`)

A shallow embedding of `lcr/main.go`.

* `NewRing` is embedded as a function of the node count and of the successive
  results of `rand.Intn(MaxUID)`.
* `ElectLeader` and the `Receive` goroutines are embedded as a labelled
  transition system.  Every goroutine is an actor with its own program
  counter; one transition is one channel operation (or one `go` statement)
  together with the goroutine-local statements that follow it up to the next
  channel operation.  An interleaving of the goroutines is a list of actions.
* Pointers to nodes are positions in `Ring.Nodes`.
* The statement `totalMessagesSent++` of `Send` (line 42) is a read and a write
  of a package-level `int`, done without synchronisation by `ElectLeader` and
  by every `Receive` goroutine.  It is not part of the transition of the
  channel operation: `move` extends the transition system with the variable
  and with one transition for the read and one for the write of every
  goroutine.  The states of `step` record the sends themselves, in `sent` and
  in the history.
-/

namespace LCR

/-! ## Constants and data types (`main.go` lines 12-36, 97-101) -/

/-- Constant `DefaultNumNodes`. -/
def DefaultNumNodes : Nat := 10

/-- Constant `MaxUID`. -/
def MaxUID : Nat := 1000

/-- Capacity of every node channel: `make(chan *Message, 10)`. -/
def ChanCap : Nat := 10

/-- Type `MessageType` with its two constants. -/
inductive MessageType where
  | Participate
  | Leader
deriving DecidableEq, Repr

/-- Struct `Message`. -/
structure Message where
  NodeUID : Int
  MsgType : MessageType
deriving DecidableEq, Repr

/-- Struct `Node`, without its channel (which is run-time state, see `State.Ch`)
and its back pointer to the ring.  `ClockwiseNeighbor` is the position in
`Ring.Nodes` of the node pointed to. -/
structure Node where
  UID : Int
  ClockwiseNeighbor : Nat
deriving DecidableEq, Repr

/-- Struct `Ring`: the static part (the nodes).  The wait group and the leader
field are run-time state, see `State`. -/
structure Ring where
  Nodes : List Node
deriving DecidableEq, Repr

/-- Number of nodes, `len(r.Nodes)`. -/
def Ring.N (r : Ring) : Nat := r.Nodes.length

/-- Field `r.Nodes[i].UID`. -/
def Ring.uid (r : Ring) (i : Nat) : Int := (r.Nodes.getD i ⟨0, 0⟩).UID

/-- Field `r.Nodes[i].ClockwiseNeighbor`, as a position. -/
def Ring.nbr (r : Ring) (i : Nat) : Nat := (r.Nodes.getD i ⟨0, 0⟩).ClockwiseNeighbor

/-! ## `NewRing` (lines 104-141) -/

/-- Inner loop of `NewRing` (lines 119-126): draw until a value is not in
`mapUID`; gives the value and the draws that remain, or `none` when the draws
are used up before a fresh value is found. -/
def sampleUID (mapUID : List Nat) : List Nat → Option (Nat × List Nat)
  | [] => none
  | d :: ds => if d ∈ mapUID then sampleUID mapUID ds else some (d, ds)

/-- Outer loop of `NewRing` (lines 117-133), `n` iterations: the UIDs of the
nodes created, in position order. -/
def createNodes : Nat → List Nat → List Nat → Option (List Nat)
  | 0, _, _ => some []
  | n + 1, mapUID, draws =>
    match sampleUID mapUID draws with
    | none => none
    | some (u, rest) =>
      match createNodes n (u :: mapUID) rest with
      | none => none
      | some us => some (u :: us)

/-- Second loop of `NewRing` (lines 136-138): node `i` is linked to node
`(i+1) % N`. -/
def connect (N : Nat) (uids : List Nat) : List Node :=
  (List.range N).map fun i => ⟨((uids.getD i 0 : Nat) : Int), (i + 1) % N⟩

/-- Function `NewRing`: `draws` are the successive results of
`rand.Intn(MaxUID)`; `none` when they run out before `N` nodes have a UID. -/
def NewRing (N : Nat) (draws : List Nat) : Option Ring :=
  match createNodes N [] draws with
  | none => none
  | some uids => some ⟨connect N uids⟩

/-! ## Run-time state -/

/-- Program counter of the goroutine running `Receive` for one node. -/
inductive NodePC where
  /-- The statement `go node.Receive()` has not run for this node. -/
  | notStarted
  /-- At `msg := <-n.Ch` (line 47). -/
  | receiving
  /-- Inside `n.ClockwiseNeighbor.Send(msg)`, before `n.Ch <- msg`; `halt`
  tells whether `Wg.Done(); return` follows (line 84) or the loop goes on
  (lines 62, 72). -/
  | sending (msg : Message) (halt : Bool)
  /-- After `return` (line 92). -/
  | halted
deriving DecidableEq, Repr

/-- Program counter of the goroutine running `ElectLeader`. -/
inductive MainPC where
  /-- Before `r.Wg.Add(len(r.Nodes))`. -/
  | start
  /-- In iteration `i` of the loop of lines 148-158; `spawned` tells whether
  `go node.Receive()` of this iteration has run. -/
  | loop (i : Nat) (spawned : Bool)
  /-- At `r.Wg.Wait()`. -/
  | wait
  /-- After `ElectLeader` has returned. -/
  | returned
deriving DecidableEq, Repr

/-- What the program has done so far, newest first.  The transitions only add
to it and never read it. -/
inductive Event where
  /-- The initial send of iteration `i` of `ElectLeader` is completed (line 154). -/
  | initSend (i : Nat)
  /-- Node `i` took `msg` from its channel (line 47). -/
  | recv (i : Nat) (msg : Message)
  /-- Node `i` executed `n.Ring.Leader = n` (line 59). -/
  | setLeader (i : Nat)
  /-- Node `i` dropped `msg` (line 76). -/
  | dropped (i : Nat) (msg : Message)
  /-- Node `i` completed `n.ClockwiseNeighbor.Send(msg)`; `halt` is true for
  the send of line 84 (a Leader message forwarded, the node halts next) and
  false for those of lines 62 and 72. -/
  | nodeSend (i : Nat) (msg : Message) (halt : Bool)
  /-- Node `i` executed `n.Ring.Wg.Done()` (line 90). -/
  | done (i : Nat)
deriving DecidableEq, Repr

/-- Global state of one run of `ElectLeader`. -/
structure State where
  /-- Program counter of `ElectLeader`. -/
  main : MainPC
  /-- Program counter of the `Receive` goroutine of each node. -/
  pc : Nat → NodePC
  /-- Contents of each node channel `Ch`, oldest message first. -/
  Ch : Nat → List Message
  /-- Field `Ring.Leader` (`none` is `nil`), as a position. -/
  Leader : Option Nat
  /-- Counter of `Ring.Wg`. -/
  Wg : Int
  /-- Number of channel operations `n.Ch <- msg` of `Send` completed so far.
  This is not the variable `totalMessagesSent`, which is `Exec.totalMessagesSent`. -/
  sent : Nat
  /-- History of events, newest first. -/
  hist : List Event

/-- State when `ElectLeader` is called on a ring fresh from construction. -/
def State.init : State where
  main := .start
  pc := fun _ => .notStarted
  Ch := fun _ => []
  Leader := none
  Wg := 0
  sent := 0
  hist := []

/-- The actors' moves. -/
inductive Action where
  /-- Statement `r.Wg.Add(len(r.Nodes))` (line 144). -/
  | mainAdd
  /-- Statement `go node.Receive()` (line 150). -/
  | mainSpawn
  /-- Statement `node.ClockwiseNeighbor.Send(...)` (line 154). -/
  | mainSend
  /-- Leaving the loop of line 148. -/
  | mainExit
  /-- Statement `r.Wg.Wait()` returning (line 161). -/
  | mainWait
  /-- Node `i`: `msg := <-n.Ch` and the handling of `msg` up to the next send. -/
  | recv (i : Nat)
  /-- Node `i`: completion of the pending `Send`, and what follows it. -/
  | send (i : Nat)
deriving DecidableEq, Repr

/-- Method `Send` (lines 38-43) on node `dst`: possible only while the channel
has room; appends the message and records one more completed send.  The
increment of line 42 comes after, in transitions of its own, see `move`. -/
def Send (dst : Nat) (msg : Message) (s : State) : Option State :=
  if (s.Ch dst).length < ChanCap then
    some { s with
      Ch := Function.update s.Ch dst (s.Ch dst ++ [msg])
      sent := s.sent + 1 }
  else none

/-- Body of the loop of `Receive` (lines 47-93) for node `i` on message `msg`,
already taken from the channel, up to the next `Send`. -/
def handle (r : Ring) (i : Nat) (msg : Message) (s : State) : State :=
  match msg.MsgType with
  | .Participate =>
    if r.uid i = msg.NodeUID then
      { s with
        Leader := some i
        pc := Function.update s.pc i (.sending ⟨r.uid i, .Leader⟩ false)
        hist := .setLeader i :: s.hist }
    else if r.uid i < msg.NodeUID then
      { s with pc := Function.update s.pc i (.sending msg false) }
    else
      { s with hist := .dropped i msg :: s.hist }
  | .Leader =>
    if r.uid i ≠ msg.NodeUID then
      { s with pc := Function.update s.pc i (.sending msg true) }
    else
      { s with
        Wg := s.Wg - 1
        pc := Function.update s.pc i .halted
        hist := .done i :: s.hist }

/-- One transition of the system, `none` when the action is not enabled. -/
def step (r : Ring) (s : State) : Action → Option State
  | .mainAdd =>
    match s.main with
    | .start => some { s with Wg := s.Wg + r.N, main := .loop 0 false }
    | _ => none
  | .mainSpawn =>
    match s.main with
    | .loop i false =>
      if i < r.N then
        some { s with pc := Function.update s.pc i .receiving, main := .loop i true }
      else none
    | _ => none
  | .mainSend =>
    match s.main with
    | .loop i true =>
      match Send (r.nbr i) ⟨r.uid i, .Participate⟩ s with
      | some t => some { t with main := .loop (i + 1) false, hist := .initSend i :: t.hist }
      | none => none
    | _ => none
  | .mainExit =>
    match s.main with
    | .loop i false => if r.N ≤ i then some { s with main := .wait } else none
    | _ => none
  | .mainWait =>
    match s.main with
    | .wait => if s.Wg = 0 then some { s with main := .returned } else none
    | _ => none
  | .recv i =>
    match s.pc i, s.Ch i with
    | .receiving, msg :: rest =>
      some (handle r i msg
        { s with Ch := Function.update s.Ch i rest, hist := .recv i msg :: s.hist })
    | _, _ => none
  | .send i =>
    match s.pc i with
    | .sending msg halt =>
      match Send (r.nbr i) msg s with
      | some t =>
        if halt then
          some { t with
            Wg := t.Wg - 1
            pc := Function.update t.pc i .halted
            hist := .done i :: .nodeSend i msg true :: t.hist }
        else
          some { t with
            pc := Function.update t.pc i .receiving
            hist := .nodeSend i msg false :: t.hist }
      | none => none
    | _ => none

/-- Execute a list of actions from `s`; `none` if one of them is not enabled. -/
def runFrom (r : Ring) (s : State) : List Action → Option State
  | [] => some s
  | a :: as =>
    match step r s a with
    | some t => runFrom r t as
    | none => none

/-- Execute a list of actions from the initial state. -/
def run (r : Ring) (acts : List Action) : Option State := runFrom r State.init acts

/-- States that some interleaving of the goroutines reaches. -/
inductive Reachable (r : Ring) : State → Prop where
  | init : Reachable r State.init
  | step {s t : State} (a : Action) : Reachable r s → step r s a = some t → Reachable r t

/-! ## Hypotheses on rings -/

/-- No two positions hold the same UID. -/
def DistinctUIDs (r : Ring) : Prop :=
  ∀ i, i < r.N → ∀ j, j < r.N → r.uid i = r.uid j → i = j

/-- The `ClockwiseNeighbor` links form one cycle through all `N` nodes: links
stay inside the ring, and the walk from any node comes back to it after `N`
steps and not before. -/
def SingleCycle (r : Ring) : Prop :=
  (∀ i, i < r.N → r.nbr i < r.N) ∧
  (∀ i, i < r.N → r.nbr^[r.N] i = i) ∧
  (∀ i, i < r.N → ∀ k, k < r.N → 0 < k → r.nbr^[k] i ≠ i)

instance (r : Ring) : Decidable (DistinctUIDs r) := by
  unfold DistinctUIDs; infer_instance

instance (r : Ring) : Decidable (SingleCycle r) := by
  unfold SingleCycle; infer_instance

/-- Every node has returned from `Receive`. -/
def AllHalted (r : Ring) (s : State) : Prop := ∀ i, i < r.N → s.pc i = .halted

instance (r : Ring) (s : State) : Decidable (AllHalted r s) := by
  unfold AllHalted; infer_instance

/-- The ring `5 -> 3 -> 8 -> 1 -> 5` of the specification. -/
def ring5381 : Ring := ⟨[⟨5, 1⟩, ⟨3, 2⟩, ⟨8, 3⟩, ⟨1, 0⟩]⟩

/-! ## Transitions as a relation

`Step r s t` lists the twelve ways in which `step` produces a state: five for
`ElectLeader`, one for each branch of the `switch` of `Receive`, and two for
the completion of a pending send. -/

/-- Participate message carrying `u`. -/
abbrev pMsg (u : Int) : Message := ⟨u, .Participate⟩

/-- Leader message carrying `u`. -/
abbrev lMsg (u : Int) : Message := ⟨u, .Leader⟩

open Function in
/-- The transitions of `step`, one constructor per branch. -/
inductive Step (r : Ring) (s : State) : State → Prop where
  | mainAdd (h : s.main = .start) :
    Step r s { s with Wg := s.Wg + r.N, main := .loop 0 false }
  | mainSpawn (i : Nat) (h : s.main = .loop i false) (hi : i < r.N) :
    Step r s { s with pc := update s.pc i .receiving, main := .loop i true }
  | mainSend (i : Nat) (h : s.main = .loop i true)
      (hc : (s.Ch (r.nbr i)).length < ChanCap) :
    Step r s { s with
      Ch := update s.Ch (r.nbr i) (s.Ch (r.nbr i) ++ [pMsg (r.uid i)])
      sent := s.sent + 1
      main := .loop (i + 1) false
      hist := .initSend i :: s.hist }
  | mainExit (i : Nat) (h : s.main = .loop i false) (hi : r.N ≤ i) :
    Step r s { s with main := .wait }
  | mainWait (h : s.main = .wait) (hw : s.Wg = 0) :
    Step r s { s with main := .returned }
  | recvOwn (i : Nat) (u : Int) (rest : List Message) (hpc : s.pc i = .receiving)
      (hch : s.Ch i = pMsg u :: rest) (hu : r.uid i = u) :
    Step r s { s with
      Ch := update s.Ch i rest
      Leader := some i
      pc := update s.pc i (.sending (lMsg (r.uid i)) false)
      hist := .setLeader i :: .recv i (pMsg u) :: s.hist }
  | recvFwd (i : Nat) (u : Int) (rest : List Message) (hpc : s.pc i = .receiving)
      (hch : s.Ch i = pMsg u :: rest) (hu : r.uid i < u) :
    Step r s { s with
      Ch := update s.Ch i rest
      pc := update s.pc i (.sending (pMsg u) false)
      hist := .recv i (pMsg u) :: s.hist }
  | recvDrop (i : Nat) (u : Int) (rest : List Message) (hpc : s.pc i = .receiving)
      (hch : s.Ch i = pMsg u :: rest) (hu : u < r.uid i) :
    Step r s { s with
      Ch := update s.Ch i rest
      hist := .dropped i (pMsg u) :: .recv i (pMsg u) :: s.hist }
  | recvLeaderFwd (i : Nat) (u : Int) (rest : List Message) (hpc : s.pc i = .receiving)
      (hch : s.Ch i = lMsg u :: rest) (hu : r.uid i ≠ u) :
    Step r s { s with
      Ch := update s.Ch i rest
      pc := update s.pc i (.sending (lMsg u) true)
      hist := .recv i (lMsg u) :: s.hist }
  | recvLeaderOwn (i : Nat) (u : Int) (rest : List Message) (hpc : s.pc i = .receiving)
      (hch : s.Ch i = lMsg u :: rest) (hu : r.uid i = u) :
    Step r s { s with
      Ch := update s.Ch i rest
      Wg := s.Wg - 1
      pc := update s.pc i .halted
      hist := .done i :: .recv i (lMsg u) :: s.hist }
  | sendCont (i : Nat) (m : Message) (hpc : s.pc i = .sending m false)
      (hc : (s.Ch (r.nbr i)).length < ChanCap) :
    Step r s { s with
      Ch := update s.Ch (r.nbr i) (s.Ch (r.nbr i) ++ [m])
      sent := s.sent + 1
      pc := update s.pc i .receiving
      hist := .nodeSend i m false :: s.hist }
  | sendHalt (i : Nat) (m : Message) (hpc : s.pc i = .sending m true)
      (hc : (s.Ch (r.nbr i)).length < ChanCap) :
    Step r s { s with
      Ch := update s.Ch (r.nbr i) (s.Ch (r.nbr i) ++ [m])
      sent := s.sent + 1
      Wg := s.Wg - 1
      pc := update s.pc i .halted
      hist := .done i :: .nodeSend i m true :: s.hist }

/-! ## Invariants of the election: candidacies and the leader -/

/-- Number of `Receive` goroutines that `ElectLeader` has started. -/
def spawnCount (r : Ring) (s : State) : Nat :=
  match s.main with
  | .start => 0
  | .loop i b => if b then i + 1 else i
  | .wait => r.N
  | .returned => r.N

/-- Number of initial sends that `ElectLeader` has completed. -/
def sentInit (r : Ring) (s : State) : Nat :=
  match s.main with
  | .start => 0
  | .loop i _ => i
  | .wait => r.N
  | .returned => r.N

/-- The first `d - 1` nodes after `o` on the ring all have a UID below that of
`o` and have all been started. -/
def Travelled (r : Ring) (s : State) (o d : Nat) : Prop :=
  ∀ k, 0 < k → k < d → r.uid (r.nbr^[k] o) < r.uid o ∧ s.pc (r.nbr^[k] o) ≠ .notStarted

/-- A candidacy carrying `u` that has reached node `j`: it is the UID of a node
`o` whose initial send is done, `j` is `d` steps after `o` with `0 < d <= N`,
and every node strictly between was started and has a smaller UID. -/
def Arrived (r : Ring) (s : State) (u : Int) (j : Nat) : Prop :=
  ∃ o d, o < sentInit r s ∧ u = r.uid o ∧ 0 < d ∧ d ≤ r.N ∧ r.nbr^[d] o = j ∧ Travelled r s o d

/-- First invariant: which goroutines run, where Participate messages come
from, and what a Leader message or a halted node implies. -/
structure InvA (r : Ring) (s : State) : Prop where
  spawn : ∀ k, s.pc k ≠ .notStarted ↔ k < spawnCount r s
  spawn_le : spawnCount r s ≤ r.N
  sent_le : sentInit r s ≤ spawnCount r s
  part_ch : ∀ j, j < r.N → ∀ m ∈ s.Ch j, m.MsgType = .Participate → Arrived r s m.NodeUID j
  part_pc : ∀ p m h, s.pc p = .sending m h → m.MsgType = .Participate →
    h = false ∧ r.uid p < m.NodeUID ∧ Arrived r s m.NodeUID p
  leader : ∀ o, s.Leader = some o →
    o < r.N ∧ (∀ j, j < r.N → r.uid j ≤ r.uid o) ∧ r.N ≤ spawnCount r s ∧ o < sentInit r s
  lead_ch : ∀ j, j < r.N → ∀ m ∈ s.Ch j, m.MsgType = .Leader →
    ∃ o, s.Leader = some o ∧ m.NodeUID = r.uid o
  lead_pc : ∀ p m h, s.pc p = .sending m h → m.MsgType = .Leader →
    ∃ o, s.Leader = some o ∧ m.NodeUID = r.uid o ∧ (h = false ↔ p = o)
  halted : ∀ p, s.pc p = .halted → s.Leader ≠ none

/-! ## Counting: messages in flight and events in the history -/

/-- One if the goroutine is blocked in a `Send` of `m`, zero otherwise. -/
def holds (m : Message) : NodePC → Nat
  | .sending m1 _ => if m1 = m then 1 else 0
  | _ => 0

/-- Number of copies of `m` in the channels of the ring. -/
def chSum (r : Ring) (s : State) (m : Message) : Nat :=
  ∑ i in Finset.range r.N, (s.Ch i).count m

/-- Number of nodes blocked in a `Send` of `m`. -/
def pcSum (r : Ring) (s : State) (m : Message) : Nat :=
  ∑ i in Finset.range r.N, holds m (s.pc i)

/-- One if the initial send of node `o` is still to come, zero otherwise. -/
def pendingInit (r : Ring) (s : State) (o : Nat) : Nat :=
  if sentInit r s ≤ o then 1 else 0

/-- One for a halted goroutine, zero otherwise. -/
def haltedInd : NodePC → Nat
  | .halted => 1
  | _ => 0

/-- Number of nodes of the ring whose goroutine has halted. -/
def haltedCount (r : Ring) (s : State) : Nat :=
  ∑ i in Finset.range r.N, haltedInd (s.pc i)

/-- Event `Wg.Done()`. -/
@[simp]
def Event.isDone : Event → Bool
  | .done _ => true
  | _ => false

/-- Event `Ring.Leader = n`. -/
@[simp]
def Event.isSetLeader : Event → Bool
  | .setLeader _ => true
  | _ => false

/-- Event: message `m` dropped (by any node). -/
@[simp]
def Event.isDropOf (m : Message) : Event → Bool
  | .dropped _ m1 => decide (m1 = m)
  | _ => false

/-- Event: a completed `Send`, by `ElectLeader` or by a node. -/
@[simp]
def Event.isSend : Event → Bool
  | .initSend _ => true
  | .nodeSend _ _ _ => true
  | _ => false

/-- Event: a completed `Send` of a Leader message. -/
@[simp]
def Event.isLeaderSend : Event → Bool
  | .nodeSend _ m _ => decide (m.MsgType = .Leader)
  | _ => false

/-- Event: node `i` forwarded a Leader message (the send of line 84). -/
@[simp]
def Event.isLeaderFwd (i : Nat) : Event → Bool
  | .nodeSend j m true => decide (j = i ∧ m.MsgType = .Leader)
  | _ => false

/-- Event: node `i` announced itself (the send of line 62). -/
@[simp]
def Event.isAnnounce (i : Nat) : Event → Bool
  | .nodeSend j m false => decide (j = i ∧ m.MsgType = .Leader)
  | _ => false

/-- Value registered on the wait group so far. -/
def wgAdded (r : Ring) (s : State) : Int :=
  match s.main with
  | .start => 0
  | _ => r.N

/-- Second invariant: every candidacy is in exactly one place, and the history
agrees with the program counters. -/
structure InvB (r : Ring) (s : State) : Prop where
  tok : ∀ o, o < r.N →
    chSum r s (pMsg (r.uid o)) + pcSum r s (pMsg (r.uid o)) + pendingInit r s o
      + s.hist.count (.setLeader o) + s.hist.countP (Event.isDropOf (pMsg (r.uid o))) = 1
  wg : s.Wg + (haltedCount r s : Int) = wgAdded r s
  done_by : ∀ i, s.hist.count (.done i) = haltedInd (s.pc i)
  done_total : s.hist.countP Event.isDone = haltedCount r s
  recv_own : ∀ i, s.hist.count (.recv i (pMsg (r.uid i))) = s.hist.count (.setLeader i)
  set_by : ∀ i, s.hist.count (.setLeader i) = if s.Leader = some i then 1 else 0
  set_total : s.hist.countP Event.isSetLeader = if s.Leader = none then 0 else 1
  fwd_by : ∀ i, s.hist.countP (Event.isLeaderFwd i) =
    if s.pc i = .halted ∧ s.Leader ≠ some i then 1 else 0
  ann_by : ∀ i, s.hist.countP (Event.isAnnounce i) =
    if s.Leader = some i ∧ s.pc i ≠ .sending (lMsg (r.uid i)) false then 1 else 0
  lsend : ∀ i m h, Event.nodeSend i m h ∈ s.hist →
    i < r.N ∧ (m.MsgType = .Leader → ∃ o, s.Leader = some o ∧ m.NodeUID = r.uid o)
  total : s.sent = s.hist.countP Event.isSend

/-! ## The example ring of the specification -/

/-- An interleaving on the ring `5 -> 3 -> 8 -> 1 -> 5`: `ElectLeader` does all
its sends first, then the nodes take turns until all have halted. -/
def sched5381 : List Action :=
  [.mainAdd, .mainSpawn, .mainSend, .mainSpawn, .mainSend, .mainSpawn, .mainSend,
   .mainSpawn, .mainSend, .mainExit,
   .recv 0, .recv 1, .send 1, .recv 2, .recv 2, .recv 3, .send 3, .recv 0, .send 0,
   .recv 1, .send 1, .recv 2, .send 2, .recv 3, .send 3, .recv 0, .send 0,
   .recv 1, .send 1, .recv 2, .mainWait]

/-- The state that `sched5381` ends in. -/
def final5381 : State := (run ring5381 sched5381).getD State.init

/-! ## States for the single-message claims -/

/-- A state of the ring `5 -> 3 -> 8 -> 1 -> 5` in which all nodes are receiving
and the node holding 3 has three Participate messages waiting: one with a
UID above its own, one with its own, one with a UID below its own. -/
def busy5381 : State where
  main := .wait
  pc := fun _ => .receiving
  Ch := fun j => if j = 1 then [pMsg 5, pMsg 3, pMsg 1] else []
  Leader := none
  Wg := 4
  sent := 0
  hist := []

/-- A state of the ring `5 -> 3 -> 8 -> 1 -> 5` in which the node holding 3 has
a Leader message of the node holding 8 waiting, followed by another message. -/
def lead5381 : State where
  main := .wait
  pc := fun _ => .receiving
  Ch := fun j => if j = 1 then [lMsg 8, pMsg 1] else []
  Leader := some 2
  Wg := 4
  sent := 0
  hist := []

/-! ## Invariant on what follows a Leader message in a channel -/

/-- The one message that `ElectLeader` can still put into the channel of node
`j` after the Leader message: the candidacy of the last node `Nodes[N-1]`, if
`j` is its clockwise neighbor. -/
def Late (r : Ring) (j : Nat) (m : Message) : Prop :=
  m = pMsg (r.uid (r.N - 1)) ∧ r.nbr (r.N - 1) = j

/-- Node `j` has been sent a Leader message: one is in its channel, or it has
taken one (it is blocked forwarding it, or it has halted). -/
def Closed (s : State) (j : Nat) : Prop :=
  (∃ m ∈ s.Ch j, m.MsgType = .Leader) ∨ (∃ m, s.pc j = .sending m true) ∨ s.pc j = .halted

/-- Third invariant: once a node has been sent a Leader message its
predecessor sends nothing more, so that only the last initial send of
`ElectLeader` can follow a Leader message in a channel. -/
structure InvC (r : Ring) (s : State) : Prop where
  pred : ∀ p, p < r.N → Closed s (r.nbr p) →
    s.pc p = .halted ∨ (s.Leader = some p ∧ s.pc p = .receiving)
  queue : ∀ j, j < r.N → (s.Ch j).Pairwise (fun a b => a.MsgType = .Leader → Late r j b)
  rest : ∀ j, j < r.N → ((∃ m, s.pc j = .sending m true) ∨ s.pc j = .halted) →
    ∀ m ∈ s.Ch j, Late r j m

/-- An interleaving on the ring `5 -> 3 -> 8 -> 1 -> 5` in which `ElectLeader`
is held up before its last initial send until all the nodes have halted. -/
def lateSched5381 : List Action :=
  [.mainAdd, .mainSpawn, .mainSend, .mainSpawn, .mainSend, .mainSpawn, .mainSend, .mainSpawn,
   .recv 3, .send 3, .recv 0, .send 0, .recv 1, .send 1, .recv 1, .send 1,
   .recv 2, .recv 2, .recv 2, .send 2, .recv 3, .send 3, .recv 0, .send 0,
   .recv 1, .send 1, .recv 2, .mainSend, .mainExit, .mainWait]

/-- The state that `lateSched5381` ends in. -/
def lateFinal5381 : State := (run ring5381 lateSched5381).getD State.init

/-! ## Definitions for the claims on `ElectLeader` itself and on the counts -/

/-- The positions of the initial sends recorded in a history, newest first. -/
def initSends (h : List Event) : List Nat :=
  h.filterMap fun e =>
    match e with
    | .initSend i => some i
    | _ => none

/-- How `main` begins (lines 166-174): either the fatal error of line 171, or
the call `NewRing(*N)` with what it gives (`none`: it does not return). -/
inductive MainStart where
  | fatal
  | newRing (result : Option Ring)
deriving DecidableEq, Repr

/-- Lines 167-174 of `main`: `N` is the value of the flag `nodes`, `draws` the
successive results of `rand.Intn(MaxUID)`. -/
def mainStart (N : Int) (draws : List Nat) : MainStart :=
  if N < 2 then .fatal else .newRing (NewRing N.toNat draws)

/-- A ring of four nodes whose links form two disjoint cycles, `1 -> 2 -> 1`
and `3 -> 4 -> 3`. -/
def ringTwoCycles : Ring := ⟨[⟨1, 1⟩, ⟨2, 0⟩, ⟨3, 3⟩, ⟨4, 2⟩]⟩

/-- An interleaving on `ringTwoCycles`: the cycle `3 -> 4 -> 3` finishes its
election first, the cycle `1 -> 2 -> 1` after it. -/
def schedTwoCycles : List Action :=
  [.mainAdd, .mainSpawn, .mainSend, .mainSpawn, .mainSend, .mainSpawn, .mainSend,
   .mainSpawn, .mainSend, .mainExit,
   .recv 3, .recv 2, .send 2, .recv 3, .send 3, .recv 2, .send 2, .recv 3,
   .recv 1, .recv 0, .send 0, .recv 1, .send 1, .recv 0, .send 0, .recv 1,
   .mainWait]

/-- The state that `schedTwoCycles` ends in. -/
def finalTwoCycles : State := (run ringTwoCycles schedTwoCycles).getD State.init

/-- A ring of three nodes in which the node at position 0 is nobody's
neighbor. -/
def ringTail : Ring := ⟨[⟨1, 1⟩, ⟨2, 2⟩, ⟨3, 1⟩]⟩

/-- A prefix of a run on `ringTail`: `ElectLeader` has done its initial sends. -/
def schedTail : List Action :=
  [.mainAdd, .mainSpawn, .mainSend, .mainSpawn, .mainSend, .mainSpawn, .mainSend, .mainExit]

/-- The state that `schedTail` ends in. -/
def stateTail : State := (run ringTail schedTail).getD State.init

/-- One for a goroutine blocked in a `Send`, zero otherwise. -/
def sendingInd : NodePC → Nat
  | .sending _ _ => 1
  | _ => 0

/-- Number of messages in the channels of the ring. -/
def chTotal (r : Ring) (s : State) : Nat :=
  ∑ j in Finset.range r.N, (s.Ch j).length

/-- Number of nodes blocked in a `Send`. -/
def sendingCount (r : Ring) (s : State) : Nat :=
  ∑ p in Finset.range r.N, sendingInd (s.pc p)

/-- One if the node `L` points to has halted, zero otherwise (also when `L`
is `nil`). -/
def haltedAt (pc : Nat → NodePC) : Option Nat → Nat
  | some o => haltedInd (pc o)
  | none => 0

/-- One if the node `Ring.Leader` points to has halted, zero otherwise. -/
def leaderHalted (s : State) : Nat := haltedAt s.pc s.Leader

/-- Event: a message dropped. -/
@[simp]
def Event.isDropped : Event → Bool
  | .dropped _ _ => true
  | _ => false

/-- The messages that exist: every initial send made one; each is in a channel,
or held by a node blocked in a send, or was dropped, or was the Leader message
taken by the leader when it halted. -/
def Flight (r : Ring) (s : State) : Prop :=
  chTotal r s + sendingCount r s + s.hist.countP Event.isDropped + leaderHalted s
    = sentInit r s

/-! ## A ring of twelve nodes on which a run deadlocks -/

/-- The ring that `NewRing(12)` builds from the draws 11, 10, ..., 0: the UIDs
decrease along the ring. -/
def ringDec12 : Ring :=
  ⟨[⟨11, 1⟩, ⟨10, 2⟩, ⟨9, 3⟩, ⟨8, 4⟩, ⟨7, 5⟩, ⟨6, 6⟩, ⟨5, 7⟩, ⟨4, 8⟩, ⟨3, 9⟩, ⟨2, 10⟩,
    ⟨1, 11⟩, ⟨0, 0⟩]⟩

/-- Node `i` takes a message and forwards it, `k` times. -/
def forwardAll (i : Nat) : Nat → List Action
  | 0 => []
  | k + 1 => .recv i :: .send i :: forwardAll i k

/-- An interleaving on `ringDec12`: in each of the iterations 0 to 10 of
`ElectLeader`, the node just started forwards the `i` messages waiting in its
channel before `ElectLeader` does the initial send of the iteration; the run
stops before the initial send of iteration 10. -/
def schedDec12 : List Action :=
  .mainAdd :: (List.range 11).flatMap fun i =>
    .mainSpawn :: (forwardAll i i ++ if i < 10 then [.mainSend] else [])

/-- The state that `schedDec12` ends in. -/
def dead12 : State := (run ringDec12 schedDec12).getD State.init

/-- No action of `ElectLeader` and no action of a node of the ring is enabled. -/
def noMove (r : Ring) (s : State) : Bool :=
  [Action.mainAdd, .mainSpawn, .mainSend, .mainExit, .mainWait].all
      (fun a => (step r s a).isNone) &&
    (List.range r.N).all
      (fun i => (step r s (.recv i)).isNone && (step r s (.send i)).isNone)

/-! ## Counting the sends of each candidacy -/

/-- Event: a node completed a `Send` of `m`. -/
@[simp]
def Event.isSendOf (m : Message) : Event → Bool
  | .nodeSend _ m1 _ => decide (m1 = m)
  | _ => false

/-- Event: an initial send of `ElectLeader`. -/
@[simp]
def Event.isInitSend : Event → Bool
  | .initSend _ => true
  | _ => false

/-- Number of sends of the candidacy of node `o` so far: the initial send of
`ElectLeader`, if done, and the forwards by nodes. -/
def sendsOf (r : Ring) (s : State) (o : Nat) : Nat :=
  (if o < sentInit r s then 1 else 0) + s.hist.countP (Event.isSendOf (pMsg (r.uid o)))

/-- Fourth invariant: the number of sends of a candidacy is the number of
links it has travelled; the nodes it has passed have smaller UIDs; it is
dropped by a node with a larger UID, and it makes its node the leader after `N`
sends. -/
structure InvD (r : Ring) (s : State) : Prop where
  pend : ∀ o, o < r.N → sentInit r s ≤ o → sendsOf r s o = 0
  at_ch : ∀ o, o < r.N → ∀ j, j < r.N → pMsg (r.uid o) ∈ s.Ch j →
    r.nbr^[sendsOf r s o] o = j ∧ 0 < sendsOf r s o
  at_pc : ∀ o, o < r.N → ∀ p h, s.pc p = .sending (pMsg (r.uid o)) h →
    r.nbr^[sendsOf r s o] o = p ∧ 0 < sendsOf r s o
  trav : ∀ o, o < r.N → sendsOf r s o ≤ r.N ∧
    ∀ k, 0 < k → k < sendsOf r s o → r.uid (r.nbr^[k] o) < r.uid o
  drop_at : ∀ o, o < r.N → 0 < s.hist.countP (Event.isDropOf (pMsg (r.uid o))) →
    r.uid o < r.uid (r.nbr^[sendsOf r s o] o) ∧ 0 < sendsOf r s o
  lead_at : ∀ o, o < r.N → 0 < s.hist.count (.setLeader o) → sendsOf r s o = r.N
  psend : ∀ i m h, Event.nodeSend i m h ∈ s.hist → m.MsgType = .Participate →
    ∃ o, o < r.N ∧ m = pMsg (r.uid o)

/-- Event: a completed `Send` of a Participate message, by `ElectLeader` or by
a node. -/
@[simp]
def Event.isParticipateSend : Event → Bool
  | .initSend _ => true
  | .nodeSend _ m _ => decide (m.MsgType = .Participate)
  | _ => false

/-- The candidacy of node `o` stops after `d` links: the nodes before have
smaller UIDs, the node reached has not (it is `o` itself when `d = N`). -/
def StopAt (r : Ring) (o d : Nat) : Prop :=
  0 < d ∧ d ≤ r.N ∧ (∀ k, k < d → 0 < k → r.uid (r.nbr^[k] o) < r.uid o) ∧
    r.uid o ≤ r.uid (r.nbr^[d] o)

instance (r : Ring) (o d : Nat) : Decidable (StopAt r o d) := by
  unfold StopAt; infer_instance

/-- No message is in a channel of the ring. -/
def Quiet (r : Ring) (s : State) : Prop := ∀ j, j < r.N → s.Ch j = []

instance (r : Ring) (s : State) : Decidable (Quiet r s) := by
  unfold Quiet; infer_instance

/-- Number of nodes with a UID below that of node `o`. -/
def rank (r : Ring) (o : Nat) : Nat :=
  ((Finset.range r.N).filter fun j => r.uid j < r.uid o).card

/-! ## Length of a run -/

/-- Number of transitions `ElectLeader` has made when at a program counter. -/
def mainSteps (r : Ring) : MainPC → Nat
  | .start => 0
  | .loop i b => 1 + 2 * i + if b then 1 else 0
  | .wait => 2 * r.N + 2
  | .returned => 2 * r.N + 3

/-- Event: a node took a message from its channel. -/
@[simp]
def Event.isRecv : Event → Bool
  | .recv _ _ => true
  | _ => false

/-- Event: a node completed a `Send`. -/
@[simp]
def Event.isNodeSend : Event → Bool
  | .nodeSend _ _ _ => true
  | _ => false

/-- Number of transitions made to reach a state: those of `ElectLeader`, the
receives and the sends of the nodes. -/
def stepsDone (r : Ring) (s : State) : Nat :=
  mainSteps r s.main + s.hist.countP Event.isRecv + s.hist.countP Event.isNodeSend

/-! ## Rings and runs for the claims on the number of messages -/

/-- The ring of two nodes holding 1 and 2, `Nodes[0]` holding 1. -/
def ring12 : Ring := ⟨[⟨1, 1⟩, ⟨2, 0⟩]⟩

/-- The ring of two nodes holding 1 and 2, `Nodes[0]` holding 2. -/
def ring21 : Ring := ⟨[⟨2, 1⟩, ⟨1, 0⟩]⟩

/-- A complete interleaving on `ring12`. -/
def sched12 : List Action :=
  [.mainAdd, .mainSpawn, .mainSend, .mainSpawn, .mainSend, .mainExit,
   .recv 1, .recv 0, .send 0, .recv 1, .send 1, .recv 0, .send 0, .recv 1, .mainWait]

/-- The state that `sched12` ends in. -/
def final12 : State := (run ring12 sched12).getD State.init

/-- The ring `1 -> 3 -> 2 -> 1`, in this order in `Ring.Nodes`. -/
def ring132 : Ring := ⟨[⟨1, 1⟩, ⟨3, 2⟩, ⟨2, 0⟩]⟩

/-- A complete interleaving on `ring132` in which every message is handled. -/
def sched132 : List Action :=
  [.mainAdd, .mainSpawn, .mainSend, .mainSpawn, .mainSend, .mainSpawn, .mainSend, .mainExit,
   .recv 1, .recv 2, .send 2, .recv 0, .send 0, .recv 0, .send 0, .recv 1, .recv 1, .send 1,
   .recv 2, .send 2, .recv 0, .send 0, .recv 1, .mainWait]

/-- The state that `sched132` ends in. -/
def final132 : State := (run ring132 sched132).getD State.init

/-- A complete interleaving on `ring132` in which `ElectLeader` is held up
before its last initial send until all the nodes have halted. -/
def lateSched132 : List Action :=
  [.mainAdd, .mainSpawn, .mainSend, .mainSpawn, .mainSend, .mainSpawn,
   .recv 1, .recv 2, .send 2, .recv 0, .send 0, .recv 1, .send 1,
   .recv 2, .send 2, .recv 0, .send 0, .recv 1, .mainSend, .mainExit, .mainWait]

/-- The state that `lateSched132` ends in. -/
def lateFinal132 : State := (run ring132 lateSched132).getD State.init

/-- The ring `1 -> 2 -> 3 -> 1`: UIDs in increasing order around the ring. -/
def ring123 : Ring := ⟨[⟨1, 1⟩, ⟨2, 2⟩, ⟨3, 0⟩]⟩

/-- A complete interleaving on `ring123` in which every message is handled. -/
def sched123 : List Action :=
  [.mainAdd, .mainSpawn, .mainSend, .mainSpawn, .mainSend, .mainSpawn, .mainSend, .mainExit,
   .recv 1, .recv 2, .recv 0, .send 0, .recv 1, .send 1, .recv 2, .send 2,
   .recv 0, .send 0, .recv 1, .send 1, .recv 2, .mainWait]

/-- The state that `sched123` ends in. -/
def final123 : State := (run ring123 sched123).getD State.init

/-- The ring `3 -> 2 -> 1 -> 3`: UIDs in decreasing order around the ring. -/
def ring321 : Ring := ⟨[⟨3, 1⟩, ⟨2, 2⟩, ⟨1, 0⟩]⟩

/-- A complete interleaving on `ring321` in which every message is handled. -/
def sched321 : List Action :=
  [.mainAdd, .mainSpawn, .mainSend, .mainSpawn, .mainSend, .mainSpawn, .mainSend, .mainExit,
   .recv 1, .send 1, .recv 2, .send 2, .recv 2, .send 2, .recv 0, .recv 0, .recv 0, .send 0,
   .recv 1, .send 1, .recv 2, .send 2, .recv 0, .mainWait]

/-- The state that `sched321` ends in. -/
def final321 : State := (run ring321 sched321).getD State.init

/-- UIDs in increasing order around the ring: every node holds a smaller UID
than its clockwise neighbor, except the node holding the maximum. -/
def Increasing (r : Ring) : Prop :=
  ∀ i, i < r.N → r.uid i < r.uid (r.nbr i) ∨ ∀ j, j < r.N → r.uid j ≤ r.uid i

instance (r : Ring) : Decidable (Increasing r) := by
  unfold Increasing; infer_instance

/-- UIDs in decreasing order around the ring: every node holds a larger UID
than its clockwise neighbor, except the node whose neighbor holds the maximum. -/
def Decreasing (r : Ring) : Prop :=
  ∀ i, i < r.N → r.uid (r.nbr i) < r.uid i ∨ ∀ j, j < r.N → r.uid j ≤ r.uid (r.nbr i)

instance (r : Ring) : Decidable (Decreasing r) := by
  unfold Decreasing; infer_instance

/-! ## The variable `totalMessagesSent` (lines 41-42 and 164)

`Send` ends with `totalMessagesSent++` on a package-level `int`.  The statement
is executed by `ElectLeader` (through line 154) and by every `Receive`
goroutine (through lines 62, 72 and 84) with no lock and no atomic operation:
it is a read of the variable followed by a write of the value read plus one,
and the goroutines interleave between the two.  The values stay far below the
range of `int`, so they are natural numbers here. -/

/-- A goroutine: `ElectLeader`, or `Receive` of the node at a position. -/
inductive Actor where
  | main
  | node (i : Nat)
deriving DecidableEq, Repr

/-- Where a goroutine stands in the statement `totalMessagesSent++` of line 42:
not in it, about to read the variable, or about to write the value `v` it has
read, plus one. -/
inductive IncPC where
  | idle
  | load
  | store (v : Nat)
deriving DecidableEq, Repr

/-- State of a run, with the variable `totalMessagesSent`. -/
structure Exec where
  /-- Channels, program counters, leader, wait group and history. -/
  st : State
  /-- Global `totalMessagesSent` (line 164). -/
  totalMessagesSent : Nat
  /-- Place of every goroutine in its increment of `totalMessagesSent`. -/
  inc : Actor → IncPC

/-- State when `ElectLeader` is called: the variable is zero (line 164). -/
def Exec.init : Exec where
  st := State.init
  totalMessagesSent := 0
  inc := fun _ => .idle

/-- The goroutine that takes an action. -/
def Action.actor : Action → Actor
  | .recv i => .node i
  | .send i => .node i
  | _ => .main

/-- The actions that are the channel operation of a `Send` (line 39). -/
def Action.isSend : Action → Bool
  | .mainSend => true
  | .send _ => true
  | _ => false

/-- No `Receive` goroutine of the ring is inside an increment. -/
def nodesIdle (r : Ring) (c : Exec) : Prop := ∀ i, i < r.N → c.inc (.node i) = .idle

instance (r : Ring) (c : Exec) : Decidable (nodesIdle r c) := by
  unfold nodesIdle; infer_instance

/-- The moves of a run: an action of `step`, or the read or the write of the
increment of a goroutine. -/
inductive Move where
  | act (a : Action)
  | load (a : Actor)
  | store (a : Actor)
deriving DecidableEq, Repr

/-- One transition of the system with the variable, `none` when the move is not
enabled.

* A goroutine takes an action of `step` only when it is not inside an
  increment; the channel operation of a `Send` puts it at the read of line 42.
* `step` makes `Wg.Done()` (line 90) part of the transition of the last send of
  a node, while in `Receive` it follows the increment of that send; so
  `Wg.Wait()` returns only when no node is inside an increment.
* The read records the value of the variable; the write stores that value plus
  one, whatever the variable holds by then. -/
def move (r : Ring) (c : Exec) : Move → Option Exec
  | .act a =>
    if c.inc a.actor = .idle ∧ (a = .mainWait → nodesIdle r c) then
      match step r c.st a with
      | some t =>
        some { c with
          st := t
          inc := if a.isSend then Function.update c.inc a.actor .load else c.inc }
      | none => none
    else none
  | .load a =>
    match c.inc a with
    | .load => some { c with inc := Function.update c.inc a (.store c.totalMessagesSent) }
    | _ => none
  | .store a =>
    match c.inc a with
    | .store v =>
      some { c with totalMessagesSent := v + 1, inc := Function.update c.inc a .idle }
    | _ => none

/-- Execute a list of moves from `c`; `none` if one of them is not enabled. -/
def execFrom (r : Ring) (c : Exec) : List Move → Option Exec
  | [] => some c
  | m :: ms =>
    match move r c m with
    | some d => execFrom r d ms
    | none => none

/-- Execute a list of moves from the initial state. -/
def exec (r : Ring) (ms : List Move) : Option Exec := execFrom r Exec.init ms

/-- States with the variable that some interleaving of the goroutines reaches. -/
inductive ExecReachable (r : Ring) : Exec → Prop where
  | init : ExecReachable r Exec.init
  | move {c d : Exec} (m : Move) : ExecReachable r c → move r c m = some d → ExecReachable r d

/-- One for a goroutine inside an increment, zero otherwise. -/
def incInd : IncPC → Nat
  | .idle => 0
  | _ => 1

/-- Number of goroutines inside an increment: sends whose channel operation is
completed and whose write to the variable is still to come. -/
def pendingIncs (r : Ring) (c : Exec) : Nat :=
  incInd (c.inc .main) + ∑ i in Finset.range r.N, incInd (c.inc (.node i))

/-- The moves of an interleaving in which every goroutine does the read and the
write of its increment right after the channel operation. -/
def liftAction (a : Action) : List Move :=
  if a.isSend then [.act a, .load a.actor, .store a.actor] else [.act a]

/-- An interleaving on the ring of two nodes holding 1 and 2 in which
`ElectLeader` reads the variable for its second increment, the nodes then send
and count three messages, and `ElectLeader` writes last. -/
def lostSched12 : List Move :=
  [.act .mainAdd, .act .mainSpawn, .act .mainSend, .load .main, .store .main,
   .act .mainSpawn, .act .mainSend, .load .main,
   .act (.recv 1), .act (.recv 0), .act (.send 0), .load (.node 0), .store (.node 0),
   .act (.recv 1), .act (.send 1), .load (.node 1), .store (.node 1),
   .act (.recv 0), .act (.send 0), .load (.node 0), .store (.node 0),
   .act (.recv 1),
   .store .main, .act .mainExit, .act .mainWait]

/-- The state that `lostSched12` ends in. -/
def lost12 : Exec := (exec ring12 lostSched12).getD Exec.init

/-- The state of the run `lostSched12` just before the write of `ElectLeader`. -/
def preLost12 : Exec := (exec ring12 (lostSched12.take 22)).getD Exec.init
/-- Invariant of the variable: no position outside the ring is inside an
increment; the variable, and every value read and still to be written back,
is at most the number of sends completed minus the increments pending. -/
structure CountInv (r : Ring) (c : Exec) : Prop where
  out : ∀ i, r.N ≤ i → c.inc (.node i) = .idle
  le : c.totalMessagesSent + pendingIncs r c ≤ c.st.sent
  held : ∀ a v, c.inc a = .store v → v + pendingIncs r c ≤ c.st.sent

/-! # Proofs -/

/-- Every transition of `step` is one of the twelve of `Step`. -/
theorem Step.of_step {r : Ring} {s t : State} {a : Action} (h : step r s a = some t) :
    Step r s t := by
  cases a with
  | mainAdd =>
    simp only [step] at h
    split at h
    · next hm => cases h; exact Step.mainAdd hm
    · cases h
  | mainSpawn =>
    simp only [step] at h
    split at h
    · next i hm =>
      split at h
      · next hi => cases h; exact Step.mainSpawn i hm hi
      · cases h
    · cases h
  | mainSend =>
    simp only [step, Send] at h
    split at h
    · next i hm =>
      split at h
      · next t heq =>
        split at heq
        · next hc => cases heq; cases h; exact Step.mainSend i hm hc
        · cases heq
      · cases h
    · cases h
  | mainExit =>
    simp only [step] at h
    split at h
    · next i hm =>
      split at h
      · next hi => cases h; exact Step.mainExit i hm hi
      · cases h
    · cases h
  | mainWait =>
    simp only [step] at h
    split at h
    · next hm =>
      split at h
      · next hw => cases h; exact Step.mainWait hm hw
      · cases h
    · cases h
  | recv i =>
    simp only [step] at h
    split at h
    · next msg rest hpc hch =>
      cases h
      obtain ⟨u, ty⟩ := msg
      cases ty with
      | Participate =>
        simp only [handle]
        split
        · next hu => exact Step.recvOwn i u rest hpc hch hu
        · next hu =>
          split
          · next hlt => exact Step.recvFwd i u rest hpc hch hlt
          · next hge =>
            exact Step.recvDrop i u rest hpc hch
              (lt_of_le_of_ne (not_lt.mp hge) (fun e => hu e.symm))
      | Leader =>
        simp only [handle]
        split
        · next hu => exact Step.recvLeaderFwd i u rest hpc hch hu
        · next hu => exact Step.recvLeaderOwn i u rest hpc hch (not_not.mp hu)
    · cases h
  | send i =>
    simp only [step, Send] at h
    split at h
    · next msg halt hpc =>
      split at h
      · next t heq =>
        split at heq
        · next hc =>
          cases heq
          cases halt with
          | true => simp only [if_true] at h; cases h; exact Step.sendHalt i msg hpc hc
          | false =>
            simp only [Bool.false_eq_true, if_false] at h
            cases h; exact Step.sendCont i msg hpc hc
        · cases heq
      · cases h
    · cases h

/-! ## Facts on rings -/

theorem nbr_iter_lt {r : Ring} (hc : SingleCycle r) {i : Nat} (hi : i < r.N) (k : Nat) :
    r.nbr^[k] i < r.N := by
  induction k with
  | zero => simpa using hi
  | succ k ih => rw [Function.iterate_succ_apply']; exact hc.1 _ ih

theorem nbr_iter_inj_aux {r : Ring} (hc : SingleCycle r) {i : Nat} (hi : i < r.N) {a b : Nat}
    (hab : a < b) (hb : b < r.N) : r.nbr^[a] i ≠ r.nbr^[b] i := by
  intro h
  have e : b = (b - a) + a := by omega
  rw [e, Function.iterate_add_apply] at h
  exact hc.2.2 _ (nbr_iter_lt hc hi a) (b - a) (by omega) (by omega) h.symm

theorem nbr_iter_inj {r : Ring} (hc : SingleCycle r) {i : Nat} (hi : i < r.N) {a b : Nat}
    (ha : a < r.N) (hb : b < r.N) (h : r.nbr^[a] i = r.nbr^[b] i) : a = b := by
  rcases Nat.lt_trichotomy a b with hlt | heq | hgt
  · exact absurd h (nbr_iter_inj_aux hc hi hlt hb)
  · exact heq
  · exact absurd h.symm (nbr_iter_inj_aux hc hi hgt ha)

/-- On a single cycle every node is reached from every node in fewer than `N` steps. -/
theorem cycle_surj {r : Ring} (hc : SingleCycle r) {i j : Nat} (hi : i < r.N) (hj : j < r.N) :
    ∃ k, k < r.N ∧ r.nbr^[k] i = j := by
  have hsub : (Finset.range r.N).image (fun k => r.nbr^[k] i) ⊆ Finset.range r.N := by
    intro x hx
    obtain ⟨k, -, rfl⟩ := Finset.mem_image.mp hx
    exact Finset.mem_range.mpr (nbr_iter_lt hc hi k)
  have hcard : ((Finset.range r.N).image (fun k => r.nbr^[k] i)).card = r.N := by
    rw [Finset.card_image_of_injOn, Finset.card_range]
    intro a ha b hb hab
    exact nbr_iter_inj hc hi (Finset.mem_range.mp ha) (Finset.mem_range.mp hb) hab
  have heq := Finset.eq_of_subset_of_card_le hsub (by rw [hcard, Finset.card_range])
  have hmem : j ∈ (Finset.range r.N).image (fun k => r.nbr^[k] i) := by
    rw [heq]; exact Finset.mem_range.mpr hj
  obtain ⟨k, hk, rfl⟩ := Finset.mem_image.mp hmem
  exact ⟨k, Finset.mem_range.mp hk, rfl⟩

theorem nbr_inj {r : Ring} (hc : SingleCycle r) {a b : Nat} (ha : a < r.N) (hb : b < r.N)
    (h : r.nbr a = r.nbr b) : a = b := by
  have hN : 0 < r.N := by omega
  have e : r.N = (r.N - 1) + 1 := by omega
  have h1 := hc.2.1 a ha
  have h2 := hc.2.1 b hb
  rw [e, Function.iterate_succ_apply] at h1 h2
  rw [← h1, ← h2, h]

/-- A walk that comes back to its start after `d` steps, `0 < d <= N`, has `d = N`. -/
theorem cycle_len {r : Ring} (hc : SingleCycle r) {i d : Nat} (hi : i < r.N) (h0 : 0 < d)
    (hd : d ≤ r.N) (h : r.nbr^[d] i = i) : d = r.N := by
  by_contra hne
  exact hc.2.2 i hi d (by omega) h0 h

/-! ## The first invariant is inductive -/

theorem InvA.lt_of_started {r : Ring} {s : State} (inv : InvA r s) {k : Nat}
    (h : s.pc k ≠ .notStarted) : k < r.N :=
  lt_of_lt_of_le ((inv.spawn k).mp h) inv.spawn_le

theorem Arrived.mono {r : Ring} {s t : State} {u : Int} {j : Nat}
    (hpc : ∀ k, s.pc k ≠ .notStarted → t.pc k ≠ .notStarted)
    (hs : sentInit r s ≤ sentInit r t) (h : Arrived r s u j) : Arrived r t u j := by
  obtain ⟨o, d, ho, hu, h0, hd, hj, htr⟩ := h
  exact ⟨o, d, lt_of_lt_of_le ho hs, hu, h0, hd, hj,
    fun k hk0 hkd => ⟨(htr k hk0 hkd).1, hpc _ (htr k hk0 hkd).2⟩⟩

theorem pc_update_started {pc : Nat → NodePC} {i : Nat} {v : NodePC} (hv : v ≠ .notStarted) :
    ∀ k, pc k ≠ .notStarted → Function.update pc i v k ≠ .notStarted := by
  intro k hk
  by_cases h : k = i
  · subst h; simpa using hv
  · simpa [Function.update_noteq h] using hk

theorem InvA.initA (r : Ring) : InvA r State.init where
  spawn := by intro k; simp [State.init, spawnCount]
  spawn_le := by simp [State.init, spawnCount]
  sent_le := by simp [State.init, spawnCount, sentInit]
  part_ch := by intro j _ m hm; simp [State.init] at hm
  part_pc := by intro p m h hp; simp [State.init] at hp
  leader := by intro o ho; simp [State.init] at ho
  lead_ch := by intro j _ m hm; simp [State.init] at hm
  lead_pc := by intro p m h hp; simp [State.init] at hp
  halted := by intro p hp; simp [State.init] at hp

/-- The goroutines started are those of the positions below `spawnCount`; a
transition keeps it so and stops none. -/
theorem step_spawn_aux {r : Ring} {s t : State}
    (h1 : ∀ k, s.pc k ≠ .notStarted ↔ k < spawnCount r s) (h2 : spawnCount r s ≤ r.N)
    (h3 : sentInit r s ≤ spawnCount r s) (h : Step r s t) :
    (∀ k, t.pc k ≠ .notStarted ↔ k < spawnCount r t) ∧ spawnCount r t ≤ r.N ∧
      sentInit r t ≤ spawnCount r t ∧ sentInit r s ≤ sentInit r t ∧
      spawnCount r s ≤ spawnCount r t ∧
      (∀ k, s.pc k ≠ .notStarted → t.pc k ≠ .notStarted) := by
  cases h with
  | mainAdd hm =>
    simp only [spawnCount, sentInit, hm] at h1 h2 h3 ⊢
    simpa using h1
  | mainSpawn i hm hi =>
    simp only [spawnCount, sentInit, hm, Bool.false_eq_true, if_false, if_true] at h1 h2 h3 ⊢
    refine ⟨fun k => ?_, by simpa using hi, by simp, le_refl _, by simp,
      pc_update_started (by simp)⟩
    by_cases hk : k = i
    · subst hk; simp
    · rw [Function.update_noteq hk, h1 k]; omega
  | mainSend i hm hc =>
    simp only [spawnCount, sentInit, hm] at h1 h2 h3 ⊢
    simp at h1 h2 ⊢
    exact ⟨h1, h2⟩
  | mainExit i hm hi =>
    simp only [spawnCount, sentInit, hm] at h1 h2 h3 ⊢
    simp at h1 h2 ⊢
    have : i = r.N := le_antisymm h2 hi
    subst this
    exact ⟨h1, le_refl _⟩
  | mainWait hm hw =>
    simp only [spawnCount, sentInit, hm] at h1 h2 h3 ⊢
    simp at h1 ⊢
    exact h1
  | recvOwn i u rest hpc hch hu =>
    refine ⟨fun k => ?_, h2, h3, le_refl _, le_refl _, pc_update_started (by simp)⟩
    by_cases hk : k = i
    · subst hk; simp [spawnCount] at h1 ⊢; rw [← h1]; simp [hpc]
    · simpa [Function.update_noteq hk, spawnCount] using h1 k
  | recvFwd i u rest hpc hch hu =>
    refine ⟨fun k => ?_, h2, h3, le_refl _, le_refl _, pc_update_started (by simp)⟩
    by_cases hk : k = i
    · subst hk; simp [spawnCount] at h1 ⊢; rw [← h1]; simp [hpc]
    · simpa [Function.update_noteq hk, spawnCount] using h1 k
  | recvDrop i u rest hpc hch hu =>
    exact ⟨h1, h2, h3, le_refl _, le_refl _, fun _ hk => hk⟩
  | recvLeaderFwd i u rest hpc hch hu =>
    refine ⟨fun k => ?_, h2, h3, le_refl _, le_refl _, pc_update_started (by simp)⟩
    by_cases hk : k = i
    · subst hk; simp [spawnCount] at h1 ⊢; rw [← h1]; simp [hpc]
    · simpa [Function.update_noteq hk, spawnCount] using h1 k
  | recvLeaderOwn i u rest hpc hch hu =>
    refine ⟨fun k => ?_, h2, h3, le_refl _, le_refl _, pc_update_started (by simp)⟩
    by_cases hk : k = i
    · subst hk; simp [spawnCount] at h1 ⊢; rw [← h1]; simp [hpc]
    · simpa [Function.update_noteq hk, spawnCount] using h1 k
  | sendCont i m hpc hc =>
    refine ⟨fun k => ?_, h2, h3, le_refl _, le_refl _, pc_update_started (by simp)⟩
    by_cases hk : k = i
    · subst hk; simp [spawnCount] at h1 ⊢; rw [← h1]; simp [hpc]
    · simpa [Function.update_noteq hk, spawnCount] using h1 k
  | sendHalt i m hpc hc =>
    refine ⟨fun k => ?_, h2, h3, le_refl _, le_refl _, pc_update_started (by simp)⟩
    by_cases hk : k = i
    · subst hk; simp [spawnCount] at h1 ⊢; rw [← h1]; simp [hpc]
    · simpa [Function.update_noteq hk, spawnCount] using h1 k

theorem InvA.step_spawn {r : Ring} {s t : State} (inv : InvA r s) (h : Step r s t) :
    (∀ k, t.pc k ≠ .notStarted ↔ k < spawnCount r t) ∧ spawnCount r t ≤ r.N ∧
      sentInit r t ≤ spawnCount r t ∧ sentInit r s ≤ sentInit r t ∧
      spawnCount r s ≤ spawnCount r t ∧
      (∀ k, s.pc k ≠ .notStarted → t.pc k ≠ .notStarted) :=
  step_spawn_aux inv.spawn inv.spawn_le inv.sent_le h

/-- On any ring, in every reachable state the goroutines started are those of
the positions below `spawnCount`. -/
theorem spawn_of_reachable {r : Ring} {s : State} (h : Reachable r s) :
    (∀ k, s.pc k ≠ .notStarted ↔ k < spawnCount r s) ∧ spawnCount r s ≤ r.N ∧
      sentInit r s ≤ spawnCount r s := by
  induction h with
  | init => simp [State.init, spawnCount, sentInit]
  | step a _ hstep ih =>
    obtain ⟨h1, h2, h3, -⟩ := step_spawn_aux ih.1 ih.2.1 ih.2.2 (Step.of_step hstep)
    exact ⟨h1, h2, h3⟩

theorem mem_update_tail {Ch : Nat → List Message} {i j : Nat} {x m : Message}
    {rest : List Message} (hch : Ch i = x :: rest) (h : m ∈ Function.update Ch i rest j) :
    m ∈ Ch j := by
  by_cases hj : j = i
  · subst hj; rw [Function.update_same] at h; rw [hch]; exact List.mem_cons_of_mem _ h
  · rwa [Function.update_noteq hj] at h

theorem mem_update_append {Ch : Nat → List Message} {k j : Nat} {x m : Message}
    (h : m ∈ Function.update Ch k (Ch k ++ [x]) j) : m ∈ Ch j ∨ (j = k ∧ m = x) := by
  by_cases hj : j = k
  · subst hj
    rw [Function.update_same, List.mem_append, List.mem_singleton] at h
    rcases h with h | h
    · exact Or.inl h
    · exact Or.inr ⟨rfl, h⟩
  · rw [Function.update_noteq hj] at h; exact Or.inl h

theorem pc_update_eq {pc : Nat → NodePC} {i p : Nat} {v w : NodePC}
    (h : Function.update pc i v p = w) : (p = i ∧ v = w) ∨ (p ≠ i ∧ pc p = w) := by
  by_cases hp : p = i
  · subst hp; rw [Function.update_same] at h; exact Or.inl ⟨rfl, h⟩
  · rw [Function.update_noteq hp] at h; exact Or.inr ⟨hp, h⟩

/-- A candidacy that a started node with a smaller UID passes on reaches the
next node. -/
theorem Arrived.forward {r : Ring} {s : State} (hc : SingleCycle r) (inv : InvA r s)
    {u : Int} {i : Nat} (h : Arrived r s u i) (hu : r.uid i < u)
    (hi : s.pc i ≠ .notStarted) : Arrived r s u (r.nbr i) := by
  obtain ⟨o, d, ho, hu0, h0, hd, hj, htr⟩ := h
  have hoN : o < r.N := lt_of_lt_of_le ho (le_trans inv.sent_le inv.spawn_le)
  have hdN : d ≠ r.N := by
    intro e
    rw [e, hc.2.1 o hoN] at hj
    rw [hu0, hj] at hu
    exact lt_irrefl _ hu
  refine ⟨o, d + 1, ho, hu0, Nat.succ_pos _, by omega, ?_, ?_⟩
  · rw [Function.iterate_succ_apply', hj]
  · intro k hk0 hkd
    by_cases hk : k = d
    · subst hk; rw [hj]; exact ⟨hu0 ▸ hu, hi⟩
    · exact htr k hk0 (by omega)

/-- A candidacy that arrives at the node whose UID it carries has been round
the whole ring: that node holds the maximum, and every node was started. -/
theorem Arrived.self {r : Ring} {s : State} (hd : DistinctUIDs r) (hc : SingleCycle r)
    (inv : InvA r s) {i : Nat} (hi : s.pc i ≠ .notStarted) (h : Arrived r s (r.uid i) i) :
    (∀ j, j < r.N → r.uid j ≤ r.uid i) ∧ r.N ≤ spawnCount r s ∧ i < sentInit r s := by
  obtain ⟨o, d, ho, hu0, h0, hdN, hj, htr⟩ := h
  have hiN : i < r.N := inv.lt_of_started hi
  have hoN : o < r.N := lt_of_lt_of_le ho (le_trans inv.sent_le inv.spawn_le)
  have hoi : o = i := (hd i hiN o hoN hu0).symm
  subst hoi
  have hdd : d = r.N := cycle_len hc hoN h0 hdN hj
  subst hdd
  have key : ∀ j, j < r.N → r.uid j ≤ r.uid o ∧ s.pc j ≠ .notStarted := by
    intro j hjN
    obtain ⟨k, hk, rfl⟩ := cycle_surj hc hoN hjN
    rcases Nat.eq_zero_or_pos k with h0 | hpos
    · subst h0; exact ⟨le_refl _, hi⟩
    · exact ⟨le_of_lt (htr k hpos hk).1, (htr k hpos hk).2⟩
  refine ⟨fun j hjN => (key j hjN).1, ?_, ho⟩
  have := (inv.spawn (r.N - 1)).mp (key (r.N - 1) (by omega)).2
  omega

/-- Two nodes that both hold the maximum UID are the same node. -/
theorem max_unique {r : Ring} (hd : DistinctUIDs r) {a b : Nat} (ha : a < r.N) (hb : b < r.N)
    (hma : ∀ j, j < r.N → r.uid j ≤ r.uid a) (hmb : ∀ j, j < r.N → r.uid j ≤ r.uid b) :
    a = b :=
  hd a ha b hb (le_antisymm (hmb a ha) (hma b hb))

theorem InvA.stepA {r : Ring} {s t : State} (hd : DistinctUIDs r) (hc : SingleCycle r)
    (inv : InvA r s) (h : Step r s t) : InvA r t := by
  obtain ⟨hsp, hle, hsl, hms, hmp, hmpc⟩ := inv.step_spawn h
  have arr : ∀ {u j}, Arrived r s u j → Arrived r t u j := fun h => h.mono hmpc hms
  have lead : ∀ o, s.Leader = some o →
      o < r.N ∧ (∀ j, j < r.N → r.uid j ≤ r.uid o) ∧ r.N ≤ spawnCount r t ∧
        o < sentInit r t := fun o ho =>
    ⟨(inv.leader o ho).1, (inv.leader o ho).2.1, le_trans (inv.leader o ho).2.2.1 hmp,
      lt_of_lt_of_le (inv.leader o ho).2.2.2 hms⟩
  have ppc : ∀ p m h, s.pc p = .sending m h → m.MsgType = .Participate →
      h = false ∧ r.uid p < m.NodeUID ∧ Arrived r t m.NodeUID p := fun p m h hp ht =>
    ⟨(inv.part_pc p m h hp ht).1, (inv.part_pc p m h hp ht).2.1, arr (inv.part_pc p m h hp ht).2.2⟩
  cases h with
  | mainAdd hm =>
    exact ⟨hsp, hle, hsl, fun j hj m hm ht => arr (inv.part_ch j hj m hm ht), ppc, lead,
      inv.lead_ch, inv.lead_pc, inv.halted⟩
  | mainExit i hm hi =>
    exact ⟨hsp, hle, hsl, fun j hj m hm ht => arr (inv.part_ch j hj m hm ht), ppc, lead,
      inv.lead_ch, inv.lead_pc, inv.halted⟩
  | mainWait hm hw =>
    exact ⟨hsp, hle, hsl, fun j hj m hm ht => arr (inv.part_ch j hj m hm ht), ppc, lead,
      inv.lead_ch, inv.lead_pc, inv.halted⟩
  | mainSpawn i hm hi =>
    refine ⟨hsp, hle, hsl, fun j hj m hm ht => arr (inv.part_ch j hj m hm ht), ?_, lead,
      inv.lead_ch, ?_, ?_⟩
    · intro p m h hp ht
      rcases pc_update_eq hp with ⟨_, e⟩ | ⟨_, e⟩
      · cases e
      · exact ppc p m h e ht
    · intro p m h hp ht
      rcases pc_update_eq hp with ⟨_, e⟩ | ⟨_, e⟩
      · cases e
      · exact inv.lead_pc p m h e ht
    · intro p hp
      rcases pc_update_eq hp with ⟨_, e⟩ | ⟨_, e⟩
      · cases e
      · exact inv.halted p e
  | mainSend i hm hcap =>
    refine ⟨hsp, hle, hsl, ?_, ppc, lead, ?_, inv.lead_pc, inv.halted⟩
    · intro j hj m hmem ht
      rcases mem_update_append hmem with h1 | ⟨rfl, rfl⟩
      · exact arr (inv.part_ch j hj m h1 ht)
      · have hiN : i < r.N := by
          have := inv.spawn_le; simp [spawnCount, hm] at this; omega
        exact ⟨i, 1, by simp [sentInit], rfl, Nat.one_pos, by omega, rfl,
          fun k h0 h1 => by omega⟩
    · intro j hj m hmem ht
      rcases mem_update_append hmem with h1 | ⟨rfl, rfl⟩
      · exact inv.lead_ch j hj m h1 ht
      · cases ht
  | recvOwn i u rest hpc hch hu =>
    have hst : s.pc i ≠ .notStarted := by rw [hpc]; simp
    have hiN : i < r.N := inv.lt_of_started hst
    have harr : Arrived r s (r.uid i) i := by
      have := inv.part_ch i hiN (pMsg u) (by rw [hch]; exact List.mem_cons_self _ _) rfl
      rw [hu]; exact this
    obtain ⟨hmax, hall, hsent⟩ := Arrived.self hd hc inv hst harr
    have huniq : ∀ o, s.Leader = some o → o = i := fun o ho =>
      max_unique hd (inv.leader o ho).1 hiN (inv.leader o ho).2.1 hmax
    refine ⟨hsp, hle, hsl, ?_, ?_, ?_, ?_, ?_, ?_⟩
    · intro j hj m hmem ht
      exact arr (inv.part_ch j hj m (mem_update_tail hch hmem) ht)
    · intro p m h hp ht
      rcases pc_update_eq hp with ⟨_, e⟩ | ⟨_, e⟩
      · cases e; cases ht
      · exact ppc p m h e ht
    · intro o ho
      cases ho
      exact ⟨hiN, hmax, le_trans hall hmp, lt_of_lt_of_le hsent hms⟩
    · intro j hj m hmem ht
      obtain ⟨o, ho, hmo⟩ := inv.lead_ch j hj m (mem_update_tail hch hmem) ht
      exact ⟨i, rfl, by rw [hmo, huniq o ho]⟩
    · intro p m h hp ht
      rcases pc_update_eq hp with ⟨rfl, e⟩ | ⟨_, e⟩
      · cases e; exact ⟨p, rfl, rfl, by simp⟩
      · obtain ⟨o, ho, hmo, hiff⟩ := inv.lead_pc p m h e ht
        have := huniq o ho
        subst this
        exact ⟨o, rfl, hmo, hiff⟩
    · intro p _; simp
  | recvFwd i u rest hpc hch hu =>
    have hst : s.pc i ≠ .notStarted := by rw [hpc]; simp
    have hiN : i < r.N := inv.lt_of_started hst
    refine ⟨hsp, hle, hsl, ?_, ?_, lead, ?_, ?_, ?_⟩
    · intro j hj m hmem ht
      exact arr (inv.part_ch j hj m (mem_update_tail hch hmem) ht)
    · intro p m h hp ht
      rcases pc_update_eq hp with ⟨rfl, e⟩ | ⟨_, e⟩
      · cases e
        exact ⟨rfl, hu, arr (inv.part_ch p hiN (pMsg u)
          (by rw [hch]; exact List.mem_cons_self _ _) rfl)⟩
      · exact ppc p m h e ht
    · intro j hj m hmem ht
      exact inv.lead_ch j hj m (mem_update_tail hch hmem) ht
    · intro p m h hp ht
      rcases pc_update_eq hp with ⟨_, e⟩ | ⟨_, e⟩
      · cases e; cases ht
      · exact inv.lead_pc p m h e ht
    · intro p hp
      rcases pc_update_eq hp with ⟨_, e⟩ | ⟨_, e⟩
      · cases e
      · exact inv.halted p e
  | recvDrop i u rest hpc hch hu =>
    refine ⟨hsp, hle, hsl, ?_, ppc, lead, ?_, inv.lead_pc, inv.halted⟩
    · intro j hj m hmem ht
      exact arr (inv.part_ch j hj m (mem_update_tail hch hmem) ht)
    · intro j hj m hmem ht
      exact inv.lead_ch j hj m (mem_update_tail hch hmem) ht
  | recvLeaderFwd i u rest hpc hch hu =>
    have hst : s.pc i ≠ .notStarted := by rw [hpc]; simp
    have hiN : i < r.N := inv.lt_of_started hst
    refine ⟨hsp, hle, hsl, ?_, ?_, lead, ?_, ?_, ?_⟩
    · intro j hj m hmem ht
      exact arr (inv.part_ch j hj m (mem_update_tail hch hmem) ht)
    · intro p m h hp ht
      rcases pc_update_eq hp with ⟨_, e⟩ | ⟨_, e⟩
      · cases e; cases ht
      · exact ppc p m h e ht
    · intro j hj m hmem ht
      exact inv.lead_ch j hj m (mem_update_tail hch hmem) ht
    · intro p m h hp ht
      rcases pc_update_eq hp with ⟨rfl, e⟩ | ⟨_, e⟩
      · cases e
        obtain ⟨o, ho, hmo⟩ := inv.lead_ch p hiN (lMsg u)
          (by rw [hch]; exact List.mem_cons_self _ _) rfl
        refine ⟨o, ho, hmo, ?_⟩
        constructor
        · intro e; cases e
        · intro e; subst e; exact absurd hmo.symm hu
      · exact inv.lead_pc p m h e ht
    · intro p hp
      rcases pc_update_eq hp with ⟨_, e⟩ | ⟨_, e⟩
      · cases e
      · exact inv.halted p e
  | recvLeaderOwn i u rest hpc hch hu =>
    have hst : s.pc i ≠ .notStarted := by rw [hpc]; simp
    have hiN : i < r.N := inv.lt_of_started hst
    refine ⟨hsp, hle, hsl, ?_, ?_, lead, ?_, ?_, ?_⟩
    · intro j hj m hmem ht
      exact arr (inv.part_ch j hj m (mem_update_tail hch hmem) ht)
    · intro p m h hp ht
      rcases pc_update_eq hp with ⟨_, e⟩ | ⟨_, e⟩
      · cases e
      · exact ppc p m h e ht
    · intro j hj m hmem ht
      exact inv.lead_ch j hj m (mem_update_tail hch hmem) ht
    · intro p m h hp ht
      rcases pc_update_eq hp with ⟨_, e⟩ | ⟨_, e⟩
      · cases e
      · exact inv.lead_pc p m h e ht
    · intro p hp
      rcases pc_update_eq hp with ⟨rfl, _⟩ | ⟨_, e⟩
      · obtain ⟨o, ho, -⟩ := inv.lead_ch p hiN (lMsg u)
          (by rw [hch]; exact List.mem_cons_self _ _) rfl
        show s.Leader ≠ none
        rw [ho]; simp
      · exact inv.halted p e
  | sendCont i m hpc hcap =>
    have hst : s.pc i ≠ .notStarted := by rw [hpc]; simp
    have hiN : i < r.N := inv.lt_of_started hst
    refine ⟨hsp, hle, hsl, ?_, ?_, lead, ?_, ?_, ?_⟩
    · intro j hj m1 hmem ht
      rcases mem_update_append hmem with h1 | ⟨rfl, rfl⟩
      · exact arr (inv.part_ch j hj m1 h1 ht)
      · obtain ⟨-, hlt, ha⟩ := inv.part_pc i m1 false hpc ht
        exact arr (ha.forward hc inv hlt hst)
    · intro p m1 h hp ht
      rcases pc_update_eq hp with ⟨_, e⟩ | ⟨_, e⟩
      · cases e
      · exact ppc p m1 h e ht
    · intro j hj m1 hmem ht
      rcases mem_update_append hmem with h1 | ⟨rfl, rfl⟩
      · exact inv.lead_ch j hj m1 h1 ht
      · obtain ⟨o, ho, hmo, -⟩ := inv.lead_pc i m1 false hpc ht
        exact ⟨o, ho, hmo⟩
    · intro p m1 h hp ht
      rcases pc_update_eq hp with ⟨_, e⟩ | ⟨_, e⟩
      · cases e
      · exact inv.lead_pc p m1 h e ht
    · intro p hp
      rcases pc_update_eq hp with ⟨_, e⟩ | ⟨_, e⟩
      · cases e
      · exact inv.halted p e
  | sendHalt i m hpc hcap =>
    have hst : s.pc i ≠ .notStarted := by rw [hpc]; simp
    have hiN : i < r.N := inv.lt_of_started hst
    refine ⟨hsp, hle, hsl, ?_, ?_, lead, ?_, ?_, ?_⟩
    · intro j hj m1 hmem ht
      rcases mem_update_append hmem with h1 | ⟨rfl, rfl⟩
      · exact arr (inv.part_ch j hj m1 h1 ht)
      · obtain ⟨-, hlt, ha⟩ := inv.part_pc i m1 true hpc ht
        exact arr (ha.forward hc inv hlt hst)
    · intro p m1 h hp ht
      rcases pc_update_eq hp with ⟨_, e⟩ | ⟨_, e⟩
      · cases e
      · exact ppc p m1 h e ht
    · intro j hj m1 hmem ht
      rcases mem_update_append hmem with h1 | ⟨rfl, rfl⟩
      · exact inv.lead_ch j hj m1 h1 ht
      · obtain ⟨o, ho, hmo, -⟩ := inv.lead_pc i m1 true hpc ht
        exact ⟨o, ho, hmo⟩
    · intro p m1 h hp ht
      rcases pc_update_eq hp with ⟨_, e⟩ | ⟨_, e⟩
      · cases e
      · exact inv.lead_pc p m1 h e ht
    · intro p hp
      rcases pc_update_eq hp with ⟨rfl, _⟩ | ⟨_, e⟩
      · show s.Leader ≠ none
        cases hty : m.MsgType with
        | Participate => exact absurd (inv.part_pc p m true hpc hty).1 (by simp)
        | Leader =>
          obtain ⟨o, ho, -⟩ := inv.lead_pc p m true hpc hty
          rw [ho]; simp
      · exact inv.halted p e

/-- The first invariant holds in every reachable state. -/
theorem InvA.reachableA {r : Ring} {s : State} (hd : DistinctUIDs r) (hc : SingleCycle r)
    (h : Reachable r s) : InvA r s := by
  induction h with
  | init => exact InvA.initA r
  | step a _ hstep ih => exact ih.stepA hd hc (Step.of_step hstep)

/-! ## The second invariant is inductive -/

theorem sum_update_range {α : Type} (N : Nat) (f : Nat → α) (g : α → Nat) {j : Nat}
    (hj : j < N) (v : α) :
    (∑ i in Finset.range N, g (Function.update f j v i)) + g (f j)
      = (∑ i in Finset.range N, g (f i)) + g v := by
  have hmem : j ∈ Finset.range N := Finset.mem_range.mpr hj
  rw [← Finset.add_sum_erase _ _ hmem, ← Finset.add_sum_erase _ (fun i => g (f i)) hmem]
  have : ∑ i in (Finset.range N).erase j, g (Function.update f j v i)
      = ∑ i in (Finset.range N).erase j, g (f i) :=
    Finset.sum_congr rfl fun i hi => by rw [Function.update_noteq (Finset.ne_of_mem_erase hi)]
  rw [this, Function.update_same]
  omega

theorem chSum_update {r : Ring} {s : State} (m : Message) {j : Nat} (hj : j < r.N)
    (v : List Message) :
    (∑ i in Finset.range r.N, (Function.update s.Ch j v i).count m) + (s.Ch j).count m
      = chSum r s m + v.count m :=
  sum_update_range r.N s.Ch (fun l => l.count m) hj v

theorem pcSum_update {r : Ring} {s : State} (m : Message) {j : Nat} (hj : j < r.N)
    (v : NodePC) :
    (∑ i in Finset.range r.N, holds m (Function.update s.pc j v i)) + holds m (s.pc j)
      = pcSum r s m + holds m v :=
  sum_update_range r.N s.pc (holds m) hj v

theorem haltedCount_update {r : Ring} {s : State} {j : Nat} (hj : j < r.N) (v : NodePC) :
    (∑ i in Finset.range r.N, haltedInd (Function.update s.pc j v i)) + haltedInd (s.pc j)
      = haltedCount r s + haltedInd v :=
  sum_update_range r.N s.pc haltedInd hj v

theorem haltedCount_le (r : Ring) (s : State) : haltedCount r s ≤ r.N := by
  have : ∀ i ∈ Finset.range r.N, haltedInd (s.pc i) ≤ 1 := by
    intro i _; cases s.pc i <;> simp [haltedInd]
  simpa using Finset.sum_le_card_nsmul _ _ 1 this

theorem allHalted_of_count {r : Ring} {s : State} (h : haltedCount r s = r.N) :
    AllHalted r s := by
  intro i hi
  by_contra hne
  have h0 : haltedInd (s.pc i) = 0 := by
    cases hp : s.pc i <;> simp_all [haltedInd]
  have hle : ∑ k in (Finset.range r.N).erase i, haltedInd (s.pc k) ≤ r.N - 1 := by
    have : ∀ k ∈ (Finset.range r.N).erase i, haltedInd (s.pc k) ≤ 1 := by
      intro k _; cases s.pc k <;> simp [haltedInd]
    have := Finset.sum_le_card_nsmul _ _ 1 this
    simpa [Finset.card_erase_of_mem (Finset.mem_range.mpr hi)] using this
  have hsum : haltedInd (s.pc i) + ∑ k in (Finset.range r.N).erase i, haltedInd (s.pc k)
      = ∑ k in Finset.range r.N, haltedInd (s.pc k) :=
    Finset.add_sum_erase (Finset.range r.N) (fun k => haltedInd (s.pc k))
      (Finset.mem_range.mpr hi)
  unfold haltedCount at h
  omega

theorem count_of_allHalted {r : Ring} {s : State} (h : AllHalted r s) :
    haltedCount r s = r.N := by
  unfold haltedCount
  rw [Finset.sum_congr rfl (fun i hi => by rw [h i (Finset.mem_range.mp hi)]; rfl :
    ∀ i ∈ Finset.range r.N, haltedInd (s.pc i) = 1)]
  simp

theorem InvB.initB (r : Ring) : InvB r State.init := by
  refine ⟨?_, ?_, ?_, ?_, ?_, ?_, ?_, ?_, ?_, ?_, ?_⟩ <;>
    simp [State.init, chSum, pcSum, holds, pendingInit, sentInit, haltedCount, haltedInd,
      wgAdded]

@[simp]
theorem haltedInd_halted : haltedInd .halted = 1 := rfl
@[simp]
theorem haltedInd_receiving : haltedInd .receiving = 0 := rfl
@[simp]
theorem haltedInd_notStarted : haltedInd .notStarted = 0 := rfl
@[simp]
theorem haltedInd_sending (m : Message) (h : Bool) : haltedInd (.sending m h) = 0 := rfl
@[simp]
theorem holds_halted (m : Message) : holds m .halted = 0 := rfl
@[simp]
theorem holds_receiving (m : Message) : holds m .receiving = 0 := rfl
@[simp]
theorem holds_notStarted (m : Message) : holds m .notStarted = 0 := rfl
@[simp]
theorem holds_sending (m m1 : Message) (h : Bool) :
    holds m (.sending m1 h) = if m1 = m then 1 else 0 := rfl

theorem InvA.pc_of_loop_false {r : Ring} {s : State} (inv : InvA r s) {i : Nat}
    (hm : s.main = .loop i false) : s.pc i = .notStarted := by
  by_contra h
  have := (inv.spawn i).mp h
  simp [spawnCount, hm] at this

theorem InvB.step_done_by {r : Ring} {s t : State} (inv : InvA r s) (invB : InvB r s)
    (h : Step r s t) : ∀ i, t.hist.count (.done i) = haltedInd (t.pc i) := by
  intro k
  have := invB.done_by k
  cases h with
  | mainAdd hm => exact this
  | mainExit i hm hi => exact this
  | mainWait hm hw => exact this
  | mainSend i hm hc => simpa [List.count_cons] using this
  | recvDrop i u rest hpc hch hu => simpa [List.count_cons] using this
  | mainSpawn i hm hi =>
    rcases eq_or_ne k i with rfl | hk
    · simpa [inv.pc_of_loop_false hm] using this
    · simpa [Function.update_noteq hk] using this
  | recvOwn i u rest hpc hch hu =>
    rcases eq_or_ne k i with rfl | hk
    · simpa [List.count_cons, hpc] using this
    · simpa [List.count_cons, Function.update_noteq hk] using this
  | recvFwd i u rest hpc hch hu =>
    rcases eq_or_ne k i with rfl | hk
    · simpa [List.count_cons, hpc] using this
    · simpa [List.count_cons, Function.update_noteq hk] using this
  | recvLeaderFwd i u rest hpc hch hu =>
    rcases eq_or_ne k i with rfl | hk
    · simpa [List.count_cons, hpc] using this
    · simpa [List.count_cons, Function.update_noteq hk] using this
  | sendCont i m hpc hc =>
    rcases eq_or_ne k i with rfl | hk
    · simpa [List.count_cons, hpc] using this
    · simpa [List.count_cons, Function.update_noteq hk] using this
  | recvLeaderOwn i u rest hpc hch hu =>
    rcases eq_or_ne k i with rfl | hk
    · simpa [List.count_cons, hpc] using this
    · simpa [List.count_cons, Function.update_noteq hk, hk.symm] using this
  | sendHalt i m hpc hc =>
    rcases eq_or_ne k i with rfl | hk
    · simpa [List.count_cons, hpc] using this
    · simpa [List.count_cons, Function.update_noteq hk, hk.symm] using this

theorem InvB.step_done_total {r : Ring} {s t : State} (inv : InvA r s) (invB : InvB r s)
    (h : Step r s t) : t.hist.countP Event.isDone = haltedCount r t ∧
      t.Wg + (haltedCount r t : Int) = wgAdded r t := by
  have h1 := invB.done_total
  have h2 := invB.wg
  cases h with
  | mainAdd hm => 
    simp only [wgAdded, hm] at h2 ⊢
    exact ⟨h1, by simp only [haltedCount] at h2 ⊢; omega⟩
  | mainExit i hm hi => simp only [wgAdded, hm] at h2 ⊢; exact ⟨h1, h2⟩
  | mainWait hm hw => simp only [wgAdded, hm] at h2 ⊢; exact ⟨h1, h2⟩
  | mainSend i hm hc =>
    simp only [wgAdded, hm] at h2 ⊢
    exact ⟨by simpa [List.countP_cons] using h1, h2⟩
  | recvDrop i u rest hpc hch hu =>
    exact ⟨by simpa [List.countP_cons] using h1, h2⟩
  | mainSpawn i hm hi =>
    have := haltedCount_update (s := s) hi .receiving
    simp only [inv.pc_of_loop_false hm, haltedInd_notStarted, haltedInd_receiving] at this
    simp only [wgAdded, hm] at h2 ⊢
    simp only [haltedCount]
    exact ⟨by omega, by omega⟩
  | recvOwn i u rest hpc hch hu =>
    have hiN : i < r.N := inv.lt_of_started (by rw [hpc]; simp)
    have := haltedCount_update (s := s) hiN (.sending (lMsg (r.uid i)) false)
    simp only [hpc, haltedInd_sending, haltedInd_receiving] at this
    simp only [wgAdded] at h2 ⊢
    simp only [haltedCount]
    exact ⟨by simp [List.countP_cons]; omega, by omega⟩
  | recvFwd i u rest hpc hch hu =>
    have hiN : i < r.N := inv.lt_of_started (by rw [hpc]; simp)
    have := haltedCount_update (s := s) hiN (.sending (pMsg u) false)
    simp only [hpc, haltedInd_sending, haltedInd_receiving] at this
    simp only [wgAdded] at h2 ⊢
    simp only [haltedCount]
    exact ⟨by simp [List.countP_cons]; omega, by omega⟩
  | recvLeaderFwd i u rest hpc hch hu =>
    have hiN : i < r.N := inv.lt_of_started (by rw [hpc]; simp)
    have := haltedCount_update (s := s) hiN (.sending (lMsg u) true)
    simp only [hpc, haltedInd_sending, haltedInd_receiving] at this
    simp only [wgAdded] at h2 ⊢
    simp only [haltedCount]
    exact ⟨by simp [List.countP_cons]; omega, by omega⟩
  | sendCont i m hpc hc =>
    have hiN : i < r.N := inv.lt_of_started (by rw [hpc]; simp)
    have := haltedCount_update (s := s) hiN .receiving
    simp only [hpc, haltedInd_sending, haltedInd_receiving] at this
    simp only [wgAdded] at h2 ⊢
    simp only [haltedCount]
    exact ⟨by simp [List.countP_cons]; omega, by omega⟩
  | recvLeaderOwn i u rest hpc hch hu =>
    have hiN : i < r.N := inv.lt_of_started (by rw [hpc]; simp)
    have := haltedCount_update (s := s) hiN .halted
    simp only [hpc, haltedInd_halted, haltedInd_receiving] at this
    simp only [wgAdded] at h2 ⊢
    simp only [haltedCount]
    exact ⟨by simp [List.countP_cons]; omega, by omega⟩
  | sendHalt i m hpc hc =>
    have hiN : i < r.N := inv.lt_of_started (by rw [hpc]; simp)
    have := haltedCount_update (s := s) hiN .halted
    simp only [hpc, haltedInd_halted, haltedInd_sending] at this
    simp only [wgAdded] at h2 ⊢
    simp only [haltedCount]
    exact ⟨by simp [List.countP_cons]; omega, by omega⟩

theorem pMsg_eq_iff {r : Ring} (hd : DistinctUIDs r) {i o : Nat} (hi : i < r.N) (ho : o < r.N) :
    pMsg (r.uid i) = pMsg (r.uid o) ↔ i = o := by
  constructor
  · intro h; exact hd i hi o ho (by simpa using h)
  · rintro rfl; rfl

theorem InvB.step_tok {r : Ring} {s t : State} (hd : DistinctUIDs r) (hc : SingleCycle r)
    (inv : InvA r s) (invB : InvB r s) (h : Step r s t) : ∀ o, o < r.N →
    chSum r t (pMsg (r.uid o)) + pcSum r t (pMsg (r.uid o)) + pendingInit r t o
      + t.hist.count (.setLeader o) + t.hist.countP (Event.isDropOf (pMsg (r.uid o))) = 1 := by
  intro o ho
  have := invB.tok o ho
  cases h with
  | mainAdd hm => simpa [pendingInit, sentInit, hm, chSum, pcSum] using this
  | mainExit i hm hi =>
    have h2 := inv.spawn_le
    simp [spawnCount, hm] at h2
    have h3 : i = r.N := by omega
    subst h3
    simpa [pendingInit, sentInit, hm, chSum, pcSum] using this
  | mainWait hm hw => simpa [pendingInit, sentInit, hm, chSum, pcSum] using this
  | mainSpawn i hm hi =>
    have h1 := pcSum_update (s := s) (pMsg (r.uid o)) hi .receiving
    simp only [inv.pc_of_loop_false hm, holds_notStarted, holds_receiving] at h1
    simp only [pendingInit, sentInit, hm, chSum] at this ⊢
    simp only [pcSum]
    omega
  | mainSend i hm hcap =>
    have hiN : i < r.N := by
      have := inv.spawn_le; simp [spawnCount, hm] at this; omega
    have h1 := chSum_update (s := s) (pMsg (r.uid o)) (hc.1 i hiN)
      (s.Ch (r.nbr i) ++ [pMsg (r.uid i)])
    simp only [pendingInit, sentInit, hm, pcSum] at this ⊢
    simp only [chSum]
    rw [List.count_append, List.count_singleton] at h1
    by_cases hio : i = o
    · subst hio
      simp at h1 ⊢
      simp at this
      omega
    · have hne : ¬ pMsg (r.uid i) = pMsg (r.uid o) := by
        rw [pMsg_eq_iff hd hiN ho]; exact hio
      simp [hne] at h1 ⊢
      split_ifs at this ⊢ <;> omega
  | recvOwn i u rest hpc hch hu =>
    have hiN : i < r.N := inv.lt_of_started (by rw [hpc]; simp)
    have h1 := chSum_update (s := s) (pMsg (r.uid o)) hiN rest
    have h2 := pcSum_update (s := s) (pMsg (r.uid o)) hiN (.sending (lMsg (r.uid i)) false)
    subst hu
    simp only [pendingInit, sentInit] at this ⊢
    simp only [chSum, pcSum]
    rw [hch, List.count_cons] at h1
    simp only [hpc, holds_receiving, holds_sending] at h2
    by_cases hio : i = o
    · subst hio
      simp [List.count_cons] at h1 h2 ⊢
      omega
    · have hne : ¬ pMsg (r.uid i) = pMsg (r.uid o) := by
        rw [pMsg_eq_iff hd hiN ho]; exact hio
      simp [hne, hio, List.count_cons] at h1 h2 ⊢
      omega
  | recvFwd i u rest hpc hch hu =>
    have hiN : i < r.N := inv.lt_of_started (by rw [hpc]; simp)
    have h1 := chSum_update (s := s) (pMsg (r.uid o)) hiN rest
    have h2 := pcSum_update (s := s) (pMsg (r.uid o)) hiN (.sending (pMsg u) false)
    simp only [pendingInit, sentInit] at this ⊢
    simp only [chSum, pcSum]
    rw [hch, List.count_cons] at h1
    simp only [hpc, holds_receiving, holds_sending] at h2
    by_cases hio : pMsg u = pMsg (r.uid o)
    · simp [hio, List.count_cons] at h1 h2 ⊢
      omega
    · simp [hio, List.count_cons] at h1 h2 ⊢
      omega
  | recvDrop i u rest hpc hch hu =>
    have hiN : i < r.N := inv.lt_of_started (by rw [hpc]; simp)
    have h1 := chSum_update (s := s) (pMsg (r.uid o)) hiN rest
    simp only [pendingInit, sentInit, pcSum] at this ⊢
    simp only [chSum]
    rw [hch, List.count_cons] at h1
    by_cases hio : pMsg u = pMsg (r.uid o)
    · simp [hio, List.count_cons, List.countP_cons] at h1 ⊢
      omega
    · simp [hio, List.count_cons, List.countP_cons] at h1 ⊢
      omega
  | recvLeaderFwd i u rest hpc hch hu =>
    have hiN : i < r.N := inv.lt_of_started (by rw [hpc]; simp)
    have h1 := chSum_update (s := s) (pMsg (r.uid o)) hiN rest
    have h2 := pcSum_update (s := s) (pMsg (r.uid o)) hiN (.sending (lMsg u) true)
    simp only [pendingInit, sentInit] at this ⊢
    simp only [chSum, pcSum]
    rw [hch, List.count_cons] at h1
    simp only [hpc, holds_receiving, holds_sending] at h2
    simp [List.count_cons] at h1 h2 ⊢
    omega
  | recvLeaderOwn i u rest hpc hch hu =>
    have hiN : i < r.N := inv.lt_of_started (by rw [hpc]; simp)
    have h1 := chSum_update (s := s) (pMsg (r.uid o)) hiN rest
    have h2 := pcSum_update (s := s) (pMsg (r.uid o)) hiN .halted
    simp only [pendingInit, sentInit] at this ⊢
    simp only [chSum, pcSum]
    rw [hch, List.count_cons] at h1
    simp only [hpc, holds_receiving, holds_halted] at h2
    simp [List.count_cons] at h1 h2 ⊢
    omega
  | sendCont i m hpc hcap =>
    have hiN : i < r.N := inv.lt_of_started (by rw [hpc]; simp)
    have h1 := chSum_update (s := s) (pMsg (r.uid o)) (hc.1 i hiN) (s.Ch (r.nbr i) ++ [m])
    have h2 := pcSum_update (s := s) (pMsg (r.uid o)) hiN .receiving
    simp only [pendingInit, sentInit] at this ⊢
    simp only [chSum, pcSum]
    rw [List.count_append, List.count_singleton] at h1
    simp only [hpc, holds_receiving, holds_sending] at h2
    by_cases hio : m = pMsg (r.uid o)
    · simp [hio, List.count_cons] at h1 h2 ⊢
      omega
    · simp [hio, List.count_cons] at h1 h2 ⊢
      omega
  | sendHalt i m hpc hcap =>
    have hiN : i < r.N := inv.lt_of_started (by rw [hpc]; simp)
    have h1 := chSum_update (s := s) (pMsg (r.uid o)) (hc.1 i hiN) (s.Ch (r.nbr i) ++ [m])
    have h2 := pcSum_update (s := s) (pMsg (r.uid o)) hiN .halted
    simp only [pendingInit, sentInit] at this ⊢
    simp only [chSum, pcSum]
    rw [List.count_append, List.count_singleton] at h1
    simp only [hpc, holds_halted, holds_sending] at h2
    by_cases hio : m = pMsg (r.uid o)
    · simp [hio, List.count_cons] at h1 h2 ⊢
      omega
    · simp [hio, List.count_cons] at h1 h2 ⊢
      omega

/-- Once the leader is set, its candidacy is in no channel. -/
theorem InvB.no_token {r : Ring} {s : State} (invB : InvB r s) {o : Nat} (ho : o < r.N)
    (hl : s.Leader = some o) : ∀ j, j < r.N → pMsg (r.uid o) ∉ s.Ch j := by
  intro j hj hmem
  have h1 := invB.tok o ho
  have h2 := invB.set_by o
  rw [if_pos hl] at h2
  have h3 : chSum r s (pMsg (r.uid o)) = 0 := by omega
  have h4 := (Finset.sum_eq_zero_iff.mp h3) j (Finset.mem_range.mpr hj)
  exact (List.count_eq_zero.mp h4) hmem

/-- A node that is about to receive its own candidacy finds the leader unset. -/
theorem leader_none_of_own {r : Ring} {s : State} (hd : DistinctUIDs r) (hc : SingleCycle r)
    (inv : InvA r s) (invB : InvB r s) {i : Nat} {rest : List Message}
    (hpc : s.pc i = .receiving) (hch : s.Ch i = pMsg (r.uid i) :: rest) : s.Leader = none := by
  have hst : s.pc i ≠ .notStarted := by rw [hpc]; simp
  have hiN : i < r.N := inv.lt_of_started hst
  have hmem : pMsg (r.uid i) ∈ s.Ch i := by rw [hch]; exact List.mem_cons_self _ _
  have harr := inv.part_ch i hiN (pMsg (r.uid i)) hmem rfl
  obtain ⟨hmax, -, -⟩ := Arrived.self hd hc inv hst harr
  cases hl : s.Leader with
  | none => rfl
  | some o =>
    have hoi : o = i := max_unique hd (inv.leader o hl).1 hiN (inv.leader o hl).2.1 hmax
    subst hoi
    exact absurd hmem (invB.no_token hiN hl o hiN)

theorem InvB.step_recv_own {r : Ring} {s t : State} (invB : InvB r s) (h : Step r s t) :
    ∀ i, t.hist.count (.recv i (pMsg (r.uid i))) = t.hist.count (.setLeader i) := by
  intro k
  have := invB.recv_own k
  cases h with
  | mainAdd hm => exact this
  | mainExit i hm hi => exact this
  | mainWait hm hw => exact this
  | mainSpawn i hm hi => exact this
  | mainSend i hm hc => simpa [List.count_cons] using this
  | sendCont i m hpc hc => simpa [List.count_cons] using this
  | sendHalt i m hpc hc => simpa [List.count_cons] using this
  | recvLeaderFwd i u rest hpc hch hu => simpa [List.count_cons] using this
  | recvLeaderOwn i u rest hpc hch hu => simpa [List.count_cons] using this
  | recvOwn i u rest hpc hch hu =>
    subst hu
    rcases eq_or_ne i k with rfl | hk
    · simpa [List.count_cons] using this
    · simpa [List.count_cons, hk] using this
  | recvFwd i u rest hpc hch hu =>
    have : ¬ (i = k ∧ u = r.uid k) := by rintro ⟨rfl, rfl⟩; exact lt_irrefl _ hu
    simpa [List.count_cons, this] using invB.recv_own k
  | recvDrop i u rest hpc hch hu =>
    have : ¬ (i = k ∧ u = r.uid k) := by rintro ⟨rfl, rfl⟩; exact lt_irrefl _ hu
    simpa [List.count_cons, this] using invB.recv_own k

theorem InvB.step_set {r : Ring} {s t : State} (hd : DistinctUIDs r) (hc : SingleCycle r)
    (inv : InvA r s) (invB : InvB r s) (h : Step r s t) :
    (∀ i, t.hist.count (.setLeader i) = if t.Leader = some i then 1 else 0) ∧
      t.hist.countP Event.isSetLeader = if t.Leader = none then 0 else 1 := by
  have h1 := invB.set_by
  have h2 := invB.set_total
  cases h with
  | mainAdd hm => exact ⟨h1, h2⟩
  | mainExit i hm hi => exact ⟨h1, h2⟩
  | mainWait hm hw => exact ⟨h1, h2⟩
  | mainSpawn i hm hi => exact ⟨h1, h2⟩
  | mainSend i hm hc => exact ⟨by simpa [List.count_cons] using h1, by simpa using h2⟩
  | sendCont i m hpc hc => exact ⟨by simpa [List.count_cons] using h1, by simpa using h2⟩
  | sendHalt i m hpc hc => exact ⟨by simpa [List.count_cons] using h1, by simpa using h2⟩
  | recvLeaderFwd i u rest hpc hch hu =>
    exact ⟨by simpa [List.count_cons] using h1, by simpa using h2⟩
  | recvLeaderOwn i u rest hpc hch hu =>
    exact ⟨by simpa [List.count_cons] using h1, by simpa using h2⟩
  | recvFwd i u rest hpc hch hu =>
    exact ⟨by simpa [List.count_cons] using h1, by simpa using h2⟩
  | recvDrop i u rest hpc hch hu =>
    exact ⟨by simpa [List.count_cons] using h1, by simpa using h2⟩
  | recvOwn i u rest hpc hch hu =>
    subst hu
    have hn := leader_none_of_own hd hc inv invB hpc hch
    simp only [hn] at h1 h2
    constructor
    · intro k
      have := h1 k
      rcases eq_or_ne i k with rfl | hk
      · simpa [List.count_cons] using this
      · simpa [List.count_cons, hk] using this
    · simpa using h2

theorem InvB.step_total {r : Ring} {s t : State} (invB : InvB r s) (h : Step r s t) :
    t.sent = t.hist.countP Event.isSend := by
  have := invB.total
  cases h <;> simp [List.countP_cons] <;> omega

/-- A node blocked in a send that halts it is forwarding the Leader message of
another node. -/
theorem InvA.sending_true {r : Ring} {s : State} (inv : InvA r s) {i : Nat} {m : Message}
    (hpc : s.pc i = .sending m true) :
    m.MsgType = .Leader ∧ ∃ o, s.Leader = some o ∧ m.NodeUID = r.uid o ∧ i ≠ o := by
  cases hty : m.MsgType with
  | Participate => exact absurd (inv.part_pc i m true hpc hty).1 (by simp)
  | Leader =>
    obtain ⟨o, ho, hmo, hiff⟩ := inv.lead_pc i m true hpc hty
    exact ⟨rfl, o, ho, hmo, fun e => by simpa using hiff.mpr e⟩

/-- A Leader message at the head of the channel of the node whose UID it
carries: that node is the leader. -/
theorem InvA.leader_of_own {r : Ring} {s : State} (hd : DistinctUIDs r) (inv : InvA r s)
    {i : Nat} {rest : List Message} (hpc : s.pc i = .receiving)
    (hch : s.Ch i = lMsg (r.uid i) :: rest) : s.Leader = some i := by
  have hiN : i < r.N := inv.lt_of_started (by rw [hpc]; simp)
  obtain ⟨o, ho, hmo⟩ := inv.lead_ch i hiN (lMsg (r.uid i))
    (by rw [hch]; exact List.mem_cons_self _ _) rfl
  have : i = o := hd i hiN o (inv.leader o ho).1 hmo
  rw [ho, this]

theorem InvB.step_fwd_by {r : Ring} {s t : State} (hd : DistinctUIDs r) (hc : SingleCycle r)
    (inv : InvA r s) (invB : InvB r s) (h : Step r s t) :
    ∀ i, t.hist.countP (Event.isLeaderFwd i) =
      if t.pc i = .halted ∧ t.Leader ≠ some i then 1 else 0 := by
  intro k
  have := invB.fwd_by k
  cases h with
  | mainAdd hm => exact this
  | mainExit i hm hi => exact this
  | mainWait hm hw => exact this
  | mainSend i hm hc => simpa [List.countP_cons] using this
  | recvDrop i u rest hpc hch hu => simpa [List.countP_cons] using this
  | mainSpawn i hm hi =>
    rcases eq_or_ne k i with rfl | hk
    · simpa [inv.pc_of_loop_false hm] using this
    · simpa [Function.update_noteq hk] using this
  | recvOwn i u rest hpc hch hu =>
    subst hu
    have hn := leader_none_of_own hd hc inv invB hpc hch
    have hnh : s.pc k ≠ .halted := fun e => inv.halted k e hn
    rcases eq_or_ne k i with rfl | hk
    · simpa [List.countP_cons, hpc] using this
    · simpa [List.countP_cons, Function.update_noteq hk, hnh] using this
  | recvFwd i u rest hpc hch hu =>
    rcases eq_or_ne k i with rfl | hk
    · simpa [List.countP_cons, hpc] using this
    · simpa [List.countP_cons, Function.update_noteq hk] using this
  | recvLeaderFwd i u rest hpc hch hu =>
    rcases eq_or_ne k i with rfl | hk
    · simpa [List.countP_cons, hpc] using this
    · simpa [List.countP_cons, Function.update_noteq hk] using this
  | sendCont i m hpc hc =>
    rcases eq_or_ne k i with rfl | hk
    · simpa [List.countP_cons, hpc] using this
    · simpa [List.countP_cons, Function.update_noteq hk] using this
  | recvLeaderOwn i u rest hpc hch hu =>
    subst hu
    have hl := inv.leader_of_own hd hpc hch
    rcases eq_or_ne k i with rfl | hk
    · simpa [List.countP_cons, hpc, hl] using this
    · simpa [List.countP_cons, Function.update_noteq hk] using this
  | sendHalt i m hpc hc =>
    obtain ⟨hty, o, ho, -, hio⟩ := inv.sending_true hpc
    rcases eq_or_ne k i with rfl | hk
    · simpa [List.countP_cons, hpc, hty, ho, Ne.symm hio] using this
    · simpa [List.countP_cons, Function.update_noteq hk, Ne.symm hk] using this

theorem InvB.step_ann_by {r : Ring} {s t : State} (hd : DistinctUIDs r) (hc : SingleCycle r)
    (inv : InvA r s) (invB : InvB r s) (h : Step r s t) :
    ∀ i, t.hist.countP (Event.isAnnounce i) =
      if t.Leader = some i ∧ t.pc i ≠ .sending (lMsg (r.uid i)) false then 1 else 0 := by
  intro k
  have := invB.ann_by k
  cases h with
  | mainAdd hm => exact this
  | mainExit i hm hi => exact this
  | mainWait hm hw => exact this
  | mainSend i hm hc => simpa [List.countP_cons] using this
  | recvDrop i u rest hpc hch hu => simpa [List.countP_cons] using this
  | mainSpawn i hm hi =>
    rcases eq_or_ne k i with rfl | hk
    · simpa [inv.pc_of_loop_false hm] using this
    · simpa [Function.update_noteq hk] using this
  | recvOwn i u rest hpc hch hu =>
    subst hu
    have hn := leader_none_of_own hd hc inv invB hpc hch
    rcases eq_or_ne k i with rfl | hk
    · simpa [List.countP_cons, hpc, hn] using this
    · simpa [List.countP_cons, Function.update_noteq hk, hn, Ne.symm hk] using this
  | recvFwd i u rest hpc hch hu =>
    rcases eq_or_ne k i with rfl | hk
    · simpa [List.countP_cons, hpc] using this
    · simpa [List.countP_cons, Function.update_noteq hk] using this
  | recvLeaderFwd i u rest hpc hch hu =>
    rcases eq_or_ne k i with rfl | hk
    · simpa [List.countP_cons, hpc] using this
    · simpa [List.countP_cons, Function.update_noteq hk] using this
  | recvLeaderOwn i u rest hpc hch hu =>
    rcases eq_or_ne k i with rfl | hk
    · simpa [List.countP_cons, hpc] using this
    · simpa [List.countP_cons, Function.update_noteq hk] using this
  | sendHalt i m hpc hc =>
    rcases eq_or_ne k i with rfl | hk
    · simpa [List.countP_cons, hpc] using this
    · simpa [List.countP_cons, Function.update_noteq hk] using this
  | sendCont i m hpc hc =>
    cases hty : m.MsgType with
    | Participate =>
      have hne : m ≠ lMsg (r.uid k) := fun e => by rw [e] at hty; cases hty
      rcases eq_or_ne k i with rfl | hk
      · simpa [List.countP_cons, hpc, hty, hne] using this
      · simpa [List.countP_cons, Function.update_noteq hk, hty] using this
    | Leader =>
      obtain ⟨o, ho, hmo, hiff⟩ := inv.lead_pc i m false hpc hty
      have hio : i = o := hiff.mp rfl
      subst hio
      have hm : m = lMsg (r.uid i) := by
        cases m; simp_all
      subst hm
      rcases eq_or_ne k i with rfl | hk
      · simpa [List.countP_cons, hpc, ho] using this
      · simpa [List.countP_cons, Function.update_noteq hk, Ne.symm hk] using this

theorem InvB.step_lsend {r : Ring} {s t : State} (hd : DistinctUIDs r) (hc : SingleCycle r)
    (inv : InvA r s) (invB : InvB r s) (h : Step r s t) :
    ∀ i m h, Event.nodeSend i m h ∈ t.hist →
      i < r.N ∧ (m.MsgType = .Leader → ∃ o, t.Leader = some o ∧ m.NodeUID = r.uid o) := by
  intro k m1 h1 hmem
  have := invB.lsend k m1 h1
  cases h with
  | mainAdd hm => exact this hmem
  | mainExit i hm hi => exact this hmem
  | mainWait hm hw => exact this hmem
  | mainSpawn i hm hi => exact this hmem
  | mainSend i hm hc => exact this (by simpa using hmem)
  | recvDrop i u rest hpc hch hu => exact this (by simpa using hmem)
  | recvFwd i u rest hpc hch hu => exact this (by simpa using hmem)
  | recvLeaderFwd i u rest hpc hch hu => exact this (by simpa using hmem)
  | recvLeaderOwn i u rest hpc hch hu => exact this (by simpa using hmem)
  | recvOwn i u rest hpc hch hu =>
    subst hu
    have hn := leader_none_of_own hd hc inv invB hpc hch
    have h2 := this (by simpa using hmem)
    refine ⟨h2.1, fun hty => ?_⟩
    obtain ⟨o, ho, -⟩ := h2.2 hty
    rw [hn] at ho; cases ho
  | sendCont i m hpc hc =>
    have hiN : i < r.N := inv.lt_of_started (by rw [hpc]; simp)
    simp only [List.mem_cons] at hmem
    rcases hmem with e | hmem
    · cases e
      exact ⟨hiN, fun hty => by
        obtain ⟨o, ho, hmo, -⟩ := inv.lead_pc k m1 false hpc hty
        exact ⟨o, ho, hmo⟩⟩
    · exact this hmem
  | sendHalt i m hpc hc =>
    have hiN : i < r.N := inv.lt_of_started (by rw [hpc]; simp)
    simp only [List.mem_cons] at hmem
    rcases hmem with e | e | hmem
    · cases e
    · cases e
      exact ⟨hiN, fun hty => by
        obtain ⟨o, ho, hmo, -⟩ := inv.lead_pc k m1 true hpc hty
        exact ⟨o, ho, hmo⟩⟩
    · exact this hmem

theorem InvB.stepB {r : Ring} {s t : State} (hd : DistinctUIDs r) (hc : SingleCycle r)
    (inv : InvA r s) (invB : InvB r s) (h : Step r s t) : InvB r t where
  tok := invB.step_tok hd hc inv h
  wg := (invB.step_done_total inv h).2
  done_by := invB.step_done_by inv h
  done_total := (invB.step_done_total inv h).1
  recv_own := invB.step_recv_own h
  set_by := (invB.step_set hd hc inv h).1
  set_total := (invB.step_set hd hc inv h).2
  fwd_by := invB.step_fwd_by hd hc inv h
  ann_by := invB.step_ann_by hd hc inv h
  lsend := invB.step_lsend hd hc inv h
  total := invB.step_total h

/-- Both invariants hold in every reachable state. -/
theorem inv_of_reachable {r : Ring} {s : State} (hd : DistinctUIDs r) (hc : SingleCycle r)
    (h : Reachable r s) : InvA r s ∧ InvB r s := by
  induction h with
  | init => exact ⟨InvA.initA r, InvB.initB r⟩
  | step a _ hstep ih =>
    exact ⟨ih.1.stepA hd hc (Step.of_step hstep), ih.2.stepB hd hc ih.1 (Step.of_step hstep)⟩

theorem reachable_runFrom {r : Ring} {s t : State} (hs : Reachable r s) (acts : List Action)
    (h : runFrom r s acts = some t) : Reachable r t := by
  induction acts generalizing s with
  | nil => simp only [runFrom] at h; cases h; exact hs
  | cons a as ih =>
    simp only [runFrom] at h
    split at h
    · next u hu => exact ih (Reachable.step a hs hu) h
    · cases h

/-- The state at the end of an executable list of actions is reachable. -/
theorem reachable_run {r : Ring} (acts : List Action) (h : (run r acts).isSome = true) :
    Reachable r ((run r acts).getD State.init) := by
  obtain ⟨t, ht⟩ := Option.isSome_iff_exists.mp h
  rw [ht]
  exact reachable_runFrom Reachable.init acts ht


/-- Before `Wg.Add` no goroutine runs, so none has halted. -/
theorem InvA.haltedCount_start {r : Ring} {s : State} (inv : InvA r s) (hm : s.main = .start) :
    haltedCount r s = 0 := by
  unfold haltedCount
  apply Finset.sum_eq_zero
  intro i _
  have : s.pc i = .notStarted := by
    by_contra h
    have := (inv.spawn i).mp h
    simp [spawnCount, hm] at this
  rw [this]; rfl

/-- When `Wg.Wait` has returned the counter is zero, and stays zero. -/
theorem wg_returned {r : Ring} {s : State} (hd : DistinctUIDs r) (hc : SingleCycle r)
    (h : Reachable r s) : s.main = .returned → s.Wg = 0 := by
  induction h with
  | init => intro h; cases h
  | @step s t a hs hstep ih =>
    obtain ⟨inv, invB⟩ := inv_of_reachable hd hc hs
    have hall : s.main = .returned → ∀ i, s.pc i ≠ .receiving ∧ ∀ m, s.pc i ≠ .sending m true := by
      intro hm i
      have h0 := ih hm
      have h1 := invB.wg
      simp only [wgAdded, hm, h0] at h1
      have h2 : haltedCount r s = r.N := by omega
      constructor
      · intro e
        have := allHalted_of_count h2 i (inv.lt_of_started (by rw [e]; simp))
        rw [e] at this; cases this
      · intro m e
        have := allHalted_of_count h2 i (inv.lt_of_started (by rw [e]; simp))
        rw [e] at this; cases this
    intro hm
    cases Step.of_step hstep with
    | mainAdd hm0 => cases hm
    | mainExit i hm0 hi => cases hm
    | mainWait hm0 hw => exact hw
    | mainSpawn i hm0 hi => cases hm
    | mainSend i hm0 hc => cases hm
    | recvDrop i u rest hpc hch hu => exact ih hm
    | recvFwd i u rest hpc hch hu => exact ih hm
    | recvLeaderFwd i u rest hpc hch hu => exact ih hm
    | recvOwn i u rest hpc hch hu => exact ih hm
    | sendCont i m hpc hc => exact ih hm
    | recvLeaderOwn i u rest hpc hch hu => exact absurd hpc (hall hm i).1
    | sendHalt i m hpc hc => exact absurd hpc ((hall hm i).2 m)

/-- A run is complete when every node has halted; this is the case in
particular when `ElectLeader` has returned. -/
theorem allHalted_of_returned {r : Ring} {s : State} (hd : DistinctUIDs r) (hc : SingleCycle r)
    (h : Reachable r s) (hm : s.main = .returned) : AllHalted r s := by
  obtain ⟨-, invB⟩ := inv_of_reachable hd hc h
  have h0 := wg_returned hd hc h hm
  have h1 := invB.wg
  simp only [wgAdded, hm, h0] at h1
  exact allHalted_of_count (by omega)

/-- C1: on a ring with distinct UIDs linked in a single cycle, in every
reachable state of every interleaving in which all nodes have halted (in
particular when `ElectLeader` has returned), `Ring.Leader` is set, and the node
it points to holds the maximum of the UIDs. -/
theorem C1_correct_winner (r : Ring) (hN : 0 < r.N) (hd : DistinctUIDs r) (hc : SingleCycle r)
    (s : State) (hr : Reachable r s) (hh : AllHalted r s ∨ s.main = .returned) :
    ∃ l, s.Leader = some l ∧ l < r.N ∧ ∀ j, j < r.N → r.uid j ≤ r.uid l := by
  have hall : AllHalted r s := by
    rcases hh with h | h
    · exact h
    · exact allHalted_of_returned hd hc hr h
  obtain ⟨inv, -⟩ := inv_of_reachable hd hc hr
  have h0 := inv.halted 0 (hall 0 hN)
  cases hl : s.Leader with
  | none => exact absurd hl h0
  | some l => exact ⟨l, rfl, (inv.leader l hl).1, (inv.leader l hl).2.1⟩

/-- Witness for C1: the ring `5 -> 3 -> 8 -> 1 -> 5` elects the node holding 8. -/
theorem C1_correct_winner_witness :
    AllHalted ring5381 final5381 ∧ final5381.main = .returned ∧
      final5381.Leader = some 2 ∧ ring5381.uid 2 = 8 ∧
      ∃ l, final5381.Leader = some l ∧ l < ring5381.N ∧
        ∀ j, j < ring5381.N → ring5381.uid j ≤ ring5381.uid l :=
  ⟨by decide, by decide, by decide, by decide,
    C1_correct_winner ring5381 (by decide) (by decide) (by decide) final5381
      (reachable_run sched5381 (by decide)) (Or.inl (by decide))⟩

/-- C2: in every reachable state of every interleaving, a node that has received
a Participate message carrying its own UID holds the maximum UID, no node has
received such a message more than once, every assignment to `Ring.Leader` was
made by the node holding the maximum UID, and at most one assignment was made. -/
theorem C2_single_leader_write (r : Ring) (hd : DistinctUIDs r) (hc : SingleCycle r)
    (s : State) (hr : Reachable r s) :
    (∀ i, Event.recv i (pMsg (r.uid i)) ∈ s.hist →
      i < r.N ∧ ∀ j, j < r.N → r.uid j ≤ r.uid i) ∧
    (∀ i, s.hist.count (.recv i (pMsg (r.uid i))) ≤ 1) ∧
    (∀ i, Event.setLeader i ∈ s.hist → i < r.N ∧ ∀ j, j < r.N → r.uid j ≤ r.uid i) ∧
    s.hist.countP Event.isSetLeader ≤ 1 ∧
    (AllHalted r s → 0 < r.N → s.hist.countP Event.isSetLeader = 1) := by
  obtain ⟨inv, invB⟩ := inv_of_reachable hd hc hr
  have hset : ∀ i, Event.setLeader i ∈ s.hist →
      i < r.N ∧ ∀ j, j < r.N → r.uid j ≤ r.uid i := by
    intro i hi
    have h1 := invB.set_by i
    have h2 := List.count_pos_iff.mpr hi
    by_cases hl : s.Leader = some i
    · exact ⟨(inv.leader i hl).1, (inv.leader i hl).2.1⟩
    · rw [if_neg hl] at h1; omega
  refine ⟨?_, ?_, hset, ?_, ?_⟩
  · intro i hi
    apply hset
    have h2 := List.count_pos_iff.mpr hi
    rw [invB.recv_own i] at h2
    exact List.count_pos_iff.mp h2
  · intro i
    rw [invB.recv_own i, invB.set_by i]
    split_ifs <;> omega
  · rw [invB.set_total]
    split_ifs <;> omega
  · intro hall hN
    rw [invB.set_total, if_neg (inv.halted 0 (hall 0 hN))]

/-- C8: in every reachable state each node has signalled the barrier at most
once, only nodes of the ring signal it, the number of signals is at most `N`,
and the counter of the wait group is not negative; when all nodes have halted
(in particular when `ElectLeader` has returned) every node has signalled
exactly once and the number of signals is exactly `N`. -/
theorem C8_barrier_signals (r : Ring) (hd : DistinctUIDs r) (hc : SingleCycle r)
    (s : State) (hr : Reachable r s) :
    (∀ i, s.hist.count (.done i) ≤ 1) ∧
    (∀ i, Event.done i ∈ s.hist → i < r.N) ∧
    s.hist.countP Event.isDone ≤ r.N ∧
    0 ≤ s.Wg ∧
    (AllHalted r s ∨ s.main = .returned →
      (∀ i, i < r.N → s.hist.count (.done i) = 1) ∧ s.hist.countP Event.isDone = r.N) := by
  obtain ⟨inv, invB⟩ := inv_of_reachable hd hc hr
  refine ⟨?_, ?_, ?_, ?_, ?_⟩
  · intro i
    rw [invB.done_by i]
    cases s.pc i <;> simp [haltedInd]
  · intro i hi
    have h2 := List.count_pos_iff.mpr hi
    rw [invB.done_by i] at h2
    apply inv.lt_of_started
    intro e
    rw [e] at h2
    simp at h2
  · rw [invB.done_total]; exact haltedCount_le r s
  · have h1 := invB.wg
    have h2 := haltedCount_le r s
    cases hm : s.main with
    | start =>
      have h3 := inv.haltedCount_start hm
      simp only [wgAdded, hm] at h1
      omega
    | loop i b => simp only [wgAdded, hm] at h1; omega
    | wait => simp only [wgAdded, hm] at h1; omega
    | returned => simp only [wgAdded, hm] at h1; omega
  · intro hh
    have hall : AllHalted r s := by
      rcases hh with h | h
      · exact h
      · exact allHalted_of_returned hd hc hr h
    refine ⟨fun i hi => ?_, ?_⟩
    · rw [invB.done_by i, hall i hi]; rfl
    · rw [invB.done_total, count_of_allHalted hall]

/-- Witness for C8 on the ring `5 -> 3 -> 8 -> 1 -> 5`. -/
theorem C8_barrier_signals_witness :
    final5381.main = .returned ∧ final5381.hist.countP Event.isDone = 4 ∧ 0 ≤ final5381.Wg :=
  ⟨by decide,
    ((C8_barrier_signals ring5381 (by decide) (by decide) final5381
      (reachable_run sched5381 (by decide))).2.2.2.2 (Or.inr (by decide))).2,
    (C8_barrier_signals ring5381 (by decide) (by decide) final5381
      (reachable_run sched5381 (by decide))).2.2.2.1⟩

/-- Witness for C2 on the ring `5 -> 3 -> 8 -> 1 -> 5`: `Ring.Leader` was
assigned exactly once. -/
theorem C2_single_leader_write_witness :
    AllHalted ring5381 final5381 ∧ final5381.hist.countP Event.isSetLeader = 1 :=
  ⟨by decide,
    (C2_single_leader_write ring5381 (by decide) (by decide) final5381
      (reachable_run sched5381 (by decide))).2.2.2.2 (by decide) (by decide)⟩

/-- The Leader sends of a history are the forwards and the announcements of
the nodes. -/
theorem countP_leaderSend (N : Nat) (l : List Event)
    (hl : ∀ i m h, Event.nodeSend i m h ∈ l → i < N) :
    l.countP Event.isLeaderSend
      = ∑ i in Finset.range N, (l.countP (Event.isLeaderFwd i) + l.countP (Event.isAnnounce i)) := by
  induction l with
  | nil => simp
  | cons e l ih =>
    have ih1 := ih (fun i m h hm => hl i m h (List.mem_cons_of_mem _ hm))
    cases e with
    | nodeSend j m h =>
      have hj : j < N := hl j m h (List.mem_cons_self _ _)
      cases hty : m.MsgType with
      | Participate =>
        cases h <;> simpa [List.countP_cons, hty] using ih1
      | Leader =>
        have hone : ∑ i in Finset.range N, (if j = i then 1 else 0) = 1 := by
          rw [Finset.sum_ite_eq]; simp [hj]
        cases h with
        | true =>
          have hsplit : ∑ x in Finset.range N,
              ((l.countP (Event.isLeaderFwd x) + if j = x then 1 else 0)
                + l.countP (Event.isAnnounce x))
              = ∑ x in Finset.range N,
                  (l.countP (Event.isLeaderFwd x) + l.countP (Event.isAnnounce x))
                + ∑ x in Finset.range N, (if j = x then 1 else 0) := by
            rw [← Finset.sum_add_distrib]
            apply Finset.sum_congr rfl
            intro i _
            omega
          simp only [List.countP_cons, Event.isLeaderSend, Event.isLeaderFwd,
            Event.isAnnounce, hty, and_true, decide_True, if_true, Bool.false_eq_true,
            if_false, add_zero, decide_eq_true_eq]
          rw [hsplit, hone, ih1]
        | false =>
          have hsplit : ∑ x in Finset.range N,
              (l.countP (Event.isLeaderFwd x)
                + (l.countP (Event.isAnnounce x) + if j = x then 1 else 0))
              = ∑ x in Finset.range N,
                  (l.countP (Event.isLeaderFwd x) + l.countP (Event.isAnnounce x))
                + ∑ x in Finset.range N, (if j = x then 1 else 0) := by
            rw [← Finset.sum_add_distrib]
            apply Finset.sum_congr rfl
            intro i _
            omega
          simp only [List.countP_cons, Event.isLeaderSend, Event.isLeaderFwd,
            Event.isAnnounce, hty, and_true, decide_True, if_true, Bool.false_eq_true,
            if_false, add_zero, decide_eq_true_eq]
          rw [hsplit, hone, ih1]
    | _ => simpa [List.countP_cons] using ih1

/-- C9: in every reachable state each node has forwarded a Leader message at
most once, a node holding the maximum UID (the elected one) has never forwarded
one, and every Leader message sent carries the UID of the node `Ring.Leader`
points to, which is the maximum.  When all nodes have halted, every node but the
elected one has forwarded the Leader message exactly once, the elected node has
announced once, and exactly `N` Leader messages have been sent. -/
theorem C9_leader_lap (r : Ring) (hd : DistinctUIDs r) (hc : SingleCycle r)
    (s : State) (hr : Reachable r s) :
    (∀ i, s.hist.countP (Event.isLeaderFwd i) ≤ 1) ∧
    (∀ i, i < r.N → (∀ j, j < r.N → r.uid j ≤ r.uid i) →
      s.hist.countP (Event.isLeaderFwd i) = 0) ∧
    (∀ i m h, Event.nodeSend i m h ∈ s.hist → m.MsgType = .Leader →
      ∃ o, s.Leader = some o ∧ m.NodeUID = r.uid o ∧ ∀ j, j < r.N → r.uid j ≤ r.uid o) ∧
    (AllHalted r s → 0 < r.N →
      ∃ o, s.Leader = some o ∧
        (∀ i, i < r.N → i ≠ o → s.hist.countP (Event.isLeaderFwd i) = 1) ∧
        s.hist.countP (Event.isAnnounce o) = 1 ∧
        s.hist.countP Event.isLeaderSend = r.N) := by
  obtain ⟨inv, invB⟩ := inv_of_reachable hd hc hr
  refine ⟨?_, ?_, ?_, ?_⟩
  · intro i
    rw [invB.fwd_by i]
    split_ifs <;> omega
  · intro i hi hmax
    rw [invB.fwd_by i]
    apply if_neg
    rintro ⟨hh, hne⟩
    cases hl : s.Leader with
    | none => exact inv.halted i hh hl
    | some o =>
      have := max_unique hd (inv.leader o hl).1 hi (inv.leader o hl).2.1 hmax
      exact hne (by rw [hl, this])
  · intro i m h hmem hty
    obtain ⟨o, ho, hmo⟩ := (invB.lsend i m h hmem).2 hty
    exact ⟨o, ho, hmo, (inv.leader o ho).2.1⟩
  · intro hall hN
    cases hl : s.Leader with
    | none => exact absurd hl (inv.halted 0 (hall 0 hN))
    | some o =>
      have hoN := (inv.leader o hl).1
      have hfwd : ∀ i, i < r.N →
          s.hist.countP (Event.isLeaderFwd i) = if i = o then 0 else 1 := by
        intro i hi
        rw [invB.fwd_by i, hall i hi, hl]
        by_cases hio : i = o
        · simp [hio]
        · simp [hio, Ne.symm hio]
      have hann : ∀ i, i < r.N →
          s.hist.countP (Event.isAnnounce i) = if i = o then 1 else 0 := by
        intro i hi
        rw [invB.ann_by i, hall i hi, hl]
        by_cases hio : i = o
        · simp [hio]
        · simp [hio, Ne.symm hio]
      refine ⟨o, rfl, fun i hi hio => by rw [hfwd i hi, if_neg hio], by
        rw [hann o hoN, if_pos rfl], ?_⟩
      rw [countP_leaderSend r.N s.hist (fun i m h hm => (invB.lsend i m h hm).1)]
      rw [Finset.sum_congr rfl (fun i hi => by
        rw [hfwd i (Finset.mem_range.mp hi), hann i (Finset.mem_range.mp hi)]
        split_ifs <;> rfl : ∀ i ∈ Finset.range r.N,
          s.hist.countP (Event.isLeaderFwd i) + s.hist.countP (Event.isAnnounce i) = 1)]
      simp

/-- Witness for C9 on the ring `5 -> 3 -> 8 -> 1 -> 5`: four Leader messages
are sent in the complete run. -/
theorem C9_leader_lap_witness :
    AllHalted ring5381 final5381 ∧
      ∃ o, final5381.Leader = some o ∧
        (∀ i, i < ring5381.N → i ≠ o → final5381.hist.countP (Event.isLeaderFwd i) = 1) ∧
        final5381.hist.countP (Event.isAnnounce o) = 1 ∧
        final5381.hist.countP Event.isLeaderSend = ring5381.N :=
  ⟨by decide,
    (C9_leader_lap ring5381 (by decide) (by decide) final5381
      (reachable_run sched5381 (by decide))).2.2.2 (by decide) (by decide)⟩

/-! ## `NewRing` -/

theorem sampleUID_fresh {mapUID draws : List Nat} {u : Nat} {rest : List Nat}
    (h : sampleUID mapUID draws = some (u, rest)) : u ∉ mapUID := by
  induction draws with
  | nil => simp [sampleUID] at h
  | cons d ds ih =>
    simp only [sampleUID] at h
    split at h
    · exact ih h
    · next hd => cases h; exact hd

theorem createNodes_spec {n : Nat} {mapUID draws us : List Nat}
    (h : createNodes n mapUID draws = some us) :
    us.length = n ∧ us.Nodup ∧ ∀ u ∈ us, u ∉ mapUID := by
  induction n generalizing mapUID draws us with
  | zero => simp only [createNodes] at h; cases h; simp
  | succ n ih =>
    simp only [createNodes] at h
    split at h
    · cases h
    · next u rest hs =>
      split at h
      · cases h
      · next vs hv =>
        cases h
        obtain ⟨hlen, hnd, hfresh⟩ := ih hv
        refine ⟨by simp [hlen], ?_, ?_⟩
        · rw [List.nodup_cons]
          exact ⟨fun hu => hfresh u hu (List.mem_cons_self _ _), hnd⟩
        · intro x hx
          rcases List.mem_cons.mp hx with rfl | hx
          · exact sampleUID_fresh hs
          · exact fun hm => hfresh x hx (List.mem_cons_of_mem _ hm)

theorem connect_getD (N : Nat) (uids : List Nat) {i : Nat} (hi : i < N) :
    (connect N uids).getD i ⟨0, 0⟩ = ⟨((uids.getD i 0 : Nat) : Int), (i + 1) % N⟩ := by
  simp [connect, List.getD_eq_getElem?_getD, List.getElem?_map, List.getElem?_range hi]

theorem NewRing_spec {N : Nat} {draws : List Nat} {r : Ring} (h : NewRing N draws = some r) :
    ∃ uids : List Nat, uids.length = N ∧ uids.Nodup ∧ r.N = N ∧
      (∀ i, i < N → r.uid i = ((uids.getD i 0 : Nat) : Int)) ∧
      (∀ i, i < N → r.nbr i = (i + 1) % N) := by
  simp only [NewRing] at h
  split at h
  · cases h
  · next uids hu =>
    cases h
    obtain ⟨hlen, hnd, -⟩ := createNodes_spec hu
    refine ⟨uids, hlen, hnd, by simp [Ring.N, connect], ?_, ?_⟩
    · intro i hi; simp only [Ring.uid]; rw [connect_getD N uids hi]
    · intro i hi; simp only [Ring.nbr]; rw [connect_getD N uids hi]

/-- The links made by `NewRing`: `k` steps from `x` lead to `(x + k) % N`. -/
theorem NewRing_iter {N : Nat} {draws : List Nat} {r : Ring} (h : NewRing N draws = some r)
    {x : Nat} (hx : x < N) (k : Nat) : r.nbr^[k] x = (x + k) % N := by
  obtain ⟨_, _, _, _, _, hnbr⟩ := NewRing_spec h
  induction k with
  | zero => simp [Nat.mod_eq_of_lt hx]
  | succ k ih =>
    rw [Function.iterate_succ_apply', ih, hnbr _ (Nat.mod_lt _ (by omega))]
    rw [Nat.mod_add_mod]
    rfl

theorem NewRing_distinct {N : Nat} {draws : List Nat} {r : Ring}
    (h : NewRing N draws = some r) : DistinctUIDs r := by
  obtain ⟨uids, hlen, hnd, hN, huid, -⟩ := NewRing_spec h
  intro i hi j hj hij
  rw [hN] at hi hj
  rw [huid i hi, huid j hj] at hij
  have hij : uids.getD i 0 = uids.getD j 0 := by exact_mod_cast hij
  rw [List.getD_eq_getElem uids 0 (show i < uids.length by omega),
    List.getD_eq_getElem uids 0 (show j < uids.length by omega)] at hij
  exact (List.Nodup.getElem_inj_iff hnd).mp hij

theorem NewRing_singleCycle {N : Nat} {draws : List Nat} {r : Ring}
    (h : NewRing N draws = some r) : SingleCycle r := by
  obtain ⟨_, _, _, hN, _, hnbr⟩ := NewRing_spec h
  refine ⟨?_, ?_, ?_⟩
  · intro i hi
    rw [hN] at hi ⊢
    rw [hnbr i hi]; exact Nat.mod_lt _ (by omega)
  · intro i hi
    rw [hN] at hi ⊢
    rw [NewRing_iter h hi]; simp [Nat.mod_eq_of_lt hi]
  · intro i hi k hk h0
    rw [hN] at hi hk
    rw [NewRing_iter h hi]
    intro e
    rcases Nat.lt_or_ge (i + k) N with hlt | hge
    · rw [Nat.mod_eq_of_lt hlt] at e; omega
    · rw [Nat.mod_eq_sub_mod hge, Nat.mod_eq_of_lt (by omega)] at e; omega

/-- C3: whenever `NewRing(N)` returns, the ring has exactly `N` nodes and no
two positions hold the same UID. -/
theorem C3_unique_uids (N : Nat) (draws : List Nat) (r : Ring)
    (h : NewRing N draws = some r) :
    r.Nodes.length = N ∧
      ∀ i, i < N → ∀ j, j < N → i ≠ j → r.uid i ≠ r.uid j := by
  obtain ⟨_, _, _, hN, _, _⟩ := NewRing_spec h
  refine ⟨hN, fun i hi j hj hij e => hij ?_⟩
  exact NewRing_distinct h i (by rw [hN]; exact hi) j (by rw [hN]; exact hj) e

/-- Witness for C3: three nodes from the draws 5, 5, 2, 5, 7. -/
theorem C3_unique_uids_witness :
    NewRing 3 [5, 5, 2, 5, 7] = some ⟨[⟨5, 1⟩, ⟨2, 2⟩, ⟨7, 0⟩]⟩ ∧
      (Ring.mk [⟨5, 1⟩, ⟨2, 2⟩, ⟨7, 0⟩]).Nodes.length = 3 ∧
      ∀ i, i < 3 → ∀ j, j < 3 → i ≠ j →
        (Ring.mk [⟨5, 1⟩, ⟨2, 2⟩, ⟨7, 0⟩]).uid i ≠ (Ring.mk [⟨5, 1⟩, ⟨2, 2⟩, ⟨7, 0⟩]).uid j :=
  ⟨by decide, C3_unique_uids 3 [5, 5, 2, 5, 7] ⟨[⟨5, 1⟩, ⟨2, 2⟩, ⟨7, 0⟩]⟩ (by decide)⟩

/-- C4: in a ring returned by `NewRing(N)`, `N >= 1`, the node at position `i`
is linked to the node at position `(i + 1) mod N`; the last node is linked to
the first. -/
theorem C4_neighbor_links (N : Nat) (draws : List Nat) (r : Ring)
    (h : NewRing N draws = some r) (hN : 1 ≤ N) :
    (∀ i, i < N → r.nbr i = (i + 1) % N) ∧ r.nbr (N - 1) = 0 := by
  obtain ⟨_, _, _, _, _, hnbr⟩ := NewRing_spec h
  refine ⟨hnbr, ?_⟩
  rw [hnbr (N - 1) (by omega)]
  have : N - 1 + 1 = N := by omega
  rw [this, Nat.mod_self]

/-- Witness for C4. -/
theorem C4_neighbor_links_witness :
    (∀ i, i < 3 → (Ring.mk [⟨5, 1⟩, ⟨2, 2⟩, ⟨7, 0⟩]).nbr i = (i + 1) % 3) ∧
      (Ring.mk [⟨5, 1⟩, ⟨2, 2⟩, ⟨7, 0⟩]).nbr (3 - 1) = 0 :=
  C4_neighbor_links 3 [5, 5, 2, 5, 7] ⟨[⟨5, 1⟩, ⟨2, 2⟩, ⟨7, 0⟩]⟩ (by decide) (by decide)

/-- C5: in a ring returned by `NewRing(N)`, `N >= 1`, the walk along
`ClockwiseNeighbor` from any node `x` is back at `x` after exactly `N` steps,
not before, and every node of the ring is reached after exactly one number of
steps among `0, ..., N-1`. -/
theorem C5_single_cycle (N : Nat) (draws : List Nat) (r : Ring)
    (h : NewRing N draws = some r) (x : Nat) (hx : x < N) :
    r.nbr^[N] x = x ∧
      (∀ k, 0 < k → k < N → r.nbr^[k] x ≠ x) ∧
      (∀ k, r.nbr^[k] x < N) ∧
      (∀ j, j < N → ∃ k, k < N ∧ r.nbr^[k] x = j ∧ ∀ k1, k1 < N → r.nbr^[k1] x = j → k1 = k) := by
  obtain ⟨_, _, _, hN, _, _⟩ := NewRing_spec h
  have hc := NewRing_singleCycle h
  have hxr : x < r.N := by rw [hN]; exact hx
  refine ⟨?_, ?_, ?_, ?_⟩
  · have := hc.2.1 x hxr
    rwa [hN] at this
  · intro k h0 hk
    exact hc.2.2 x hxr k (by rw [hN]; exact hk) h0
  · intro k
    have := nbr_iter_lt hc hxr k
    rwa [hN] at this
  · intro j hj
    obtain ⟨k, hk, hkj⟩ := cycle_surj hc hxr (by rw [hN]; exact hj)
    refine ⟨k, by rwa [hN] at hk, hkj, fun k1 hk1 e => ?_⟩
    exact nbr_iter_inj hc hxr (by rw [hN]; exact hk1) hk (by rw [e, hkj])

/-- Witness for C5: the walk from position 1 of a ring of three nodes. -/
theorem C5_single_cycle_witness :
    (Ring.mk [⟨5, 1⟩, ⟨2, 2⟩, ⟨7, 0⟩]).nbr^[3] 1 = 1 ∧
      (Ring.mk [⟨5, 1⟩, ⟨2, 2⟩, ⟨7, 0⟩]).nbr^[2] 1 = 0 :=
  ⟨(C5_single_cycle 3 [5, 5, 2, 5, 7] ⟨[⟨5, 1⟩, ⟨2, 2⟩, ⟨7, 0⟩]⟩ (by decide) 1 (by decide)).1,
    by decide⟩

/-- What the completion of a pending send of `m` by node `i` does. -/
theorem send_pending (r : Ring) (t : State) (i : Nat) (m : Message) (h : Bool)
    (ht : t.pc i = .sending m h) :
    ((step r t (.send i)).isSome ↔ (t.Ch (r.nbr i)).length < ChanCap) ∧
    ∀ t1, step r t (.send i) = some t1 →
      t1.Ch = Function.update t.Ch (r.nbr i) (t.Ch (r.nbr i) ++ [m]) ∧
      t1.pc = Function.update t.pc i (if h then .halted else .receiving) ∧
      t1.Leader = t.Leader ∧ t1.Wg = (if h then t.Wg - 1 else t.Wg) ∧ t1.main = t.main ∧
      t1.sent = t.sent + 1 ∧
      t1.hist = (if h then [.done i, .nodeSend i m true] else [.nodeSend i m false]) ++ t.hist := by
  by_cases hcap : (t.Ch (r.nbr i)).length < ChanCap
  · cases h with
    | true =>
      simp only [step, ht, Send, hcap, if_true]
      refine ⟨by simp, fun t1 h1 => ?_⟩
      cases h1
      exact ⟨rfl, rfl, rfl, rfl, rfl, rfl, rfl⟩
    | false =>
      simp only [step, ht, Send, hcap, if_true, Bool.false_eq_true, if_false]
      refine ⟨by simp, fun t1 h1 => ?_⟩
      cases h1
      exact ⟨rfl, rfl, rfl, rfl, rfl, rfl, rfl⟩
  · simp [step, ht, Send, hcap]

/-- C6: an active node `i` with UID `u` that takes `Participate(x)` from its
channel does one of three things, chosen by comparing `x` with `u`.  If `x = u`
it sets `Ring.Leader` to itself and is left with one send pending, of
`Leader(u)`; if `x > u` it leaves `Ring.Leader` as it is and is left with one
send pending, of the message itself; if `x < u` nothing is pending and nothing
but the channel of `i` (and the history) has changed.  A pending send, once
done, appends that one message to the channel of the clockwise neighbor, which
is one more message sent, and puts the node back at the receive.  The wait group is not touched and
the node does not halt. -/
theorem C6_participate (r : Ring) (s : State) (i : Nat) (x : Int) (rest : List Message)
    (hpc : s.pc i = .receiving) (hch : s.Ch i = pMsg x :: rest) :
    ∃ t, step r s (.recv i) = some t ∧
      t.Ch = Function.update s.Ch i rest ∧ t.Wg = s.Wg ∧ t.main = s.main ∧
      t.sent = s.sent ∧
      t.hist.countP Event.isDone = s.hist.countP Event.isDone ∧
      t.hist.countP Event.isSend = s.hist.countP Event.isSend ∧
      (∀ j, j ≠ i → t.pc j = s.pc j) ∧
      (x = r.uid i → t.Leader = some i ∧ t.pc i = .sending (lMsg (r.uid i)) false) ∧
      (r.uid i < x → t.Leader = s.Leader ∧ t.pc i = .sending (pMsg x) false) ∧
      (x < r.uid i → t.Leader = s.Leader ∧ t.pc i = .receiving ∧ step r t (.send i) = none) ∧
      (∀ m, t.pc i = .sending m false →
        ((step r t (.send i)).isSome ↔ (t.Ch (r.nbr i)).length < ChanCap) ∧
        ∀ t1, step r t (.send i) = some t1 →
          t1.Ch = Function.update t.Ch (r.nbr i) (t.Ch (r.nbr i) ++ [m]) ∧
          t1.pc = Function.update t.pc i .receiving ∧
          t1.Leader = t.Leader ∧ t1.Wg = s.Wg ∧ t1.main = s.main ∧
          t1.sent = s.sent + 1 ∧
          t1.hist = .nodeSend i m false :: t.hist) := by
  have hsend : ∀ (t : State) (m : Message), t.pc i = .sending m false → t.Wg = s.Wg →
      t.main = s.main → t.sent = s.sent →
      ((step r t (.send i)).isSome ↔ (t.Ch (r.nbr i)).length < ChanCap) ∧
      ∀ t1, step r t (.send i) = some t1 →
        t1.Ch = Function.update t.Ch (r.nbr i) (t.Ch (r.nbr i) ++ [m]) ∧
        t1.pc = Function.update t.pc i .receiving ∧
        t1.Leader = t.Leader ∧ t1.Wg = s.Wg ∧ t1.main = s.main ∧
        t1.sent = s.sent + 1 ∧
        t1.hist = .nodeSend i m false :: t.hist := by
    intro t m ht e1 e2 e3
    obtain ⟨h1, h2⟩ := send_pending r t i m false ht
    refine ⟨h1, fun t1 ht1 => ?_⟩
    obtain ⟨a, b, c, d, e, f, g⟩ := h2 t1 ht1
    exact ⟨a, by simpa using b, c, by simpa [e1] using d, by rw [e, e2], by rw [f, e3],
      by simpa using g⟩
  rcases lt_trichotomy x (r.uid i) with hlt | heq | hgt
  · have h1 : ¬ r.uid i = x := fun e => by omega
    have h2 : ¬ r.uid i < x := fun e => by omega
    have hstep : step r s (.recv i) = some { s with
        Ch := Function.update s.Ch i rest
        hist := .dropped i (pMsg x) :: .recv i (pMsg x) :: s.hist } := by
      simp [step, hpc, hch, handle, h1, h2]
    refine ⟨_, hstep, rfl, rfl, rfl, rfl, by simp, by simp, fun _ _ => rfl,
      fun e => absurd e.symm h1, fun e => absurd e h2,
      fun _ => ⟨rfl, hpc, by simp [step, hpc]⟩, ?_⟩
    intro m hm
    exact hsend _ m hm rfl rfl rfl
  · subst heq
    have hstep : step r s (.recv i) = some { s with
        Ch := Function.update s.Ch i rest
        Leader := some i
        pc := Function.update s.pc i (.sending (lMsg (r.uid i)) false)
        hist := .setLeader i :: .recv i (pMsg (r.uid i)) :: s.hist } := by
      simp [step, hpc, hch, handle]
    refine ⟨_, hstep, rfl, rfl, rfl, rfl, by simp, by simp,
      fun j hj => by simp [Function.update_noteq hj], fun _ => ⟨rfl, by simp⟩,
      fun e => absurd e (lt_irrefl _), fun e => absurd e (lt_irrefl _), ?_⟩
    intro m hm
    exact hsend _ m hm rfl rfl rfl
  · have h1 : ¬ r.uid i = x := fun e => by omega
    have hstep : step r s (.recv i) = some { s with
        Ch := Function.update s.Ch i rest
        pc := Function.update s.pc i (.sending (pMsg x) false)
        hist := .recv i (pMsg x) :: s.hist } := by
      simp [step, hpc, hch, handle, h1, hgt]
    refine ⟨_, hstep, rfl, rfl, rfl, rfl, by simp, by simp,
      fun j hj => by simp [Function.update_noteq hj], fun e => absurd e.symm h1,
      fun _ => ⟨rfl, by simp⟩, fun e => absurd e (not_lt.mpr (le_of_lt hgt)), ?_⟩
    intro m hm
    exact hsend _ m hm rfl rfl rfl

/-- Witness for C6: the node holding 3 on the ring `5 -> 3 -> 8 -> 1 -> 5`
takes `Participate(5)` and is left with the send of that message pending. -/
theorem C6_participate_witness :
    busy5381.pc 1 = .receiving ∧ busy5381.Ch 1 = pMsg 5 :: [pMsg 3, pMsg 1] ∧
      ∃ t, step ring5381 busy5381 (.recv 1) = some t ∧
        (ring5381.uid 1 < 5 → t.Leader = busy5381.Leader ∧ t.pc 1 = .sending (pMsg 5) false) :=
  ⟨rfl, rfl,
    (C6_participate ring5381 busy5381 1 5 [pMsg 3, pMsg 1] rfl rfl).imp
      fun _ h => ⟨h.1, h.2.2.2.2.2.2.2.2.2.1⟩⟩

/-- A halted node stays halted, and no transition of a reachable state is a
move of a halted node. -/
theorem halted_stable {r : Ring} {u v : State} {i : Nat} {a : Action} (hr : Reachable r u)
    (hh : u.pc i = .halted) (hstep : step r u a = some v) :
    v.pc i = .halted ∧ v.Ch i = u.Ch i ++ (v.Ch i).drop (u.Ch i).length ∧
      a ≠ .recv i ∧ a ≠ .send i := by
  have hne : a ≠ .recv i ∧ a ≠ .send i := by
    constructor
    · rintro rfl; simp [step, hh] at hstep
    · rintro rfl; simp [step, hh] at hstep
  refine ⟨?_, ?_, hne⟩
  · cases Step.of_step hstep with
    | mainAdd hm => exact hh
    | mainExit j hm hi => exact hh
    | mainWait hm hw => exact hh
    | mainSend j hm hc => exact hh
    | recvDrop j x rest hpc hch hu => exact hh
    | mainSpawn j hm hi =>
      rcases eq_or_ne i j with rfl | hij
      · have := (spawn_of_reachable hr).1 i
        rw [hh] at this
        simp [spawnCount, hm] at this
      · simpa [Function.update_noteq hij] using hh
    | recvOwn j x rest hpc hch hu =>
      rcases eq_or_ne i j with rfl | hij
      · rw [hh] at hpc; cases hpc
      · simpa [Function.update_noteq hij] using hh
    | recvFwd j x rest hpc hch hu =>
      rcases eq_or_ne i j with rfl | hij
      · rw [hh] at hpc; cases hpc
      · simpa [Function.update_noteq hij] using hh
    | recvLeaderFwd j x rest hpc hch hu =>
      rcases eq_or_ne i j with rfl | hij
      · rw [hh] at hpc; cases hpc
      · simpa [Function.update_noteq hij] using hh
    | recvLeaderOwn j x rest hpc hch hu =>
      rcases eq_or_ne i j with rfl | hij
      · rw [hh] at hpc; cases hpc
      · simpa [Function.update_noteq hij] using hh
    | sendCont j m hpc hc =>
      rcases eq_or_ne i j with rfl | hij
      · rw [hh] at hpc; cases hpc
      · simpa [Function.update_noteq hij] using hh
    | sendHalt j m hpc hc =>
      rcases eq_or_ne i j with rfl | hij
      · rw [hh] at hpc; cases hpc
      · simpa [Function.update_noteq hij] using hh
  · have happ : ∀ (k : Nat) (m : Message),
        Function.update u.Ch k (u.Ch k ++ [m]) i
          = u.Ch i ++ (Function.update u.Ch k (u.Ch k ++ [m]) i).drop (u.Ch i).length := by
      intro k m
      rcases eq_or_ne i k with rfl | hik
      · simp
      · simp [Function.update_noteq hik]
    have htail : ∀ (j : Nat) (l : List Message), i ≠ j →
        Function.update u.Ch j l i
          = u.Ch i ++ (Function.update u.Ch j l i).drop (u.Ch i).length := by
      intro j l hij
      simp [Function.update_noteq hij]
    cases Step.of_step hstep with
    | mainAdd hm => simp
    | mainExit j hm hi => simp
    | mainWait hm hw => simp
    | mainSpawn j hm hi => simp
    | mainSend j hm hc => exact happ _ _
    | sendCont j m hpc hc => exact happ _ _
    | sendHalt j m hpc hc => exact happ _ _
    | recvDrop j x rest hpc hch hu =>
      exact htail j rest (fun e => by rw [← e, hh] at hpc; cases hpc)
    | recvOwn j x rest hpc hch hu =>
      exact htail j rest (fun e => by rw [← e, hh] at hpc; cases hpc)
    | recvFwd j x rest hpc hch hu =>
      exact htail j rest (fun e => by rw [← e, hh] at hpc; cases hpc)
    | recvLeaderFwd j x rest hpc hch hu =>
      exact htail j rest (fun e => by rw [← e, hh] at hpc; cases hpc)
    | recvLeaderOwn j x rest hpc hch hu =>
      exact htail j rest (fun e => by rw [← e, hh] at hpc; cases hpc)

/-- C7: an active node `i` with UID `u` that takes `Leader(x)` from its channel
leaves `Ring.Leader` as it is.  If `x != u` one send is pending, of the message
itself, the wait group is not yet signalled; once the send is done the message
is appended to the channel of the clockwise neighbor, the wait group is
signalled once and the node is halted.  If `x = u` nothing is sent, the wait
group is signalled once and the node is halted.  A halted node takes no
message from its channel and sends nothing, whatever its channel holds, and in
a run it stays halted while its channel keeps what it held. -/
theorem C7_leader (r : Ring) (s : State) (i : Nat) (x : Int) (rest : List Message)
    (hpc : s.pc i = .receiving) (hch : s.Ch i = lMsg x :: rest) :
    (∃ t, step r s (.recv i) = some t ∧
      t.Ch = Function.update s.Ch i rest ∧ t.Leader = s.Leader ∧ t.main = s.main ∧
      t.sent = s.sent ∧
      t.hist.countP Event.isSend = s.hist.countP Event.isSend ∧
      (∀ j, j ≠ i → t.pc j = s.pc j) ∧
      (x ≠ r.uid i → t.pc i = .sending (lMsg x) true ∧ t.Wg = s.Wg ∧
        t.hist.count (.done i) = s.hist.count (.done i) ∧
        ((step r t (.send i)).isSome ↔ (t.Ch (r.nbr i)).length < ChanCap) ∧
        ∀ t1, step r t (.send i) = some t1 →
          t1.Ch = Function.update t.Ch (r.nbr i) (t.Ch (r.nbr i) ++ [lMsg x]) ∧
          t1.pc = Function.update t.pc i .halted ∧
          t1.Leader = s.Leader ∧ t1.Wg = s.Wg - 1 ∧
          t1.sent = s.sent + 1 ∧
          t1.hist.count (.done i) = s.hist.count (.done i) + 1) ∧
      (x = r.uid i → t.pc i = .halted ∧ t.Wg = s.Wg - 1 ∧
        t.hist.count (.done i) = s.hist.count (.done i) + 1)) ∧
    (∀ u : State, u.pc i = .halted →
      step r u (.recv i) = none ∧ step r u (.send i) = none) ∧
    (∀ (u v : State) (a : Action), Reachable r u → u.pc i = .halted →
      step r u a = some v →
        v.pc i = .halted ∧ v.Ch i = u.Ch i ++ (v.Ch i).drop (u.Ch i).length ∧
          a ≠ .recv i ∧ a ≠ .send i) := by
  refine ⟨?_, fun u hu => ⟨by simp [step, hu], by simp [step, hu]⟩,
    fun u v a hr hu hstep => halted_stable hr hu hstep⟩
  by_cases hx : x = r.uid i
  · subst hx
    have hstep : step r s (.recv i) = some { s with
        Ch := Function.update s.Ch i rest
        Wg := s.Wg - 1
        pc := Function.update s.pc i .halted
        hist := .done i :: .recv i (lMsg (r.uid i)) :: s.hist } := by
      simp [step, hpc, hch, handle]
    refine ⟨_, hstep, rfl, rfl, rfl, rfl, by simp,
      fun j hj => by simp [Function.update_noteq hj], fun e => absurd rfl e,
      fun _ => ⟨by simp, rfl, by simp [List.count_cons]⟩⟩
  · have h1 : ¬ r.uid i = x := fun e => hx e.symm
    have hstep : step r s (.recv i) = some { s with
        Ch := Function.update s.Ch i rest
        pc := Function.update s.pc i (.sending (lMsg x) true)
        hist := .recv i (lMsg x) :: s.hist } := by
      simp [step, hpc, hch, handle, h1]
    refine ⟨_, hstep, rfl, rfl, rfl, rfl, by simp,
      fun j hj => by simp [Function.update_noteq hj], fun _ => ?_, fun e => absurd e hx⟩
    obtain ⟨ha, hb⟩ := send_pending r { s with
        Ch := Function.update s.Ch i rest
        pc := Function.update s.pc i (.sending (lMsg x) true)
        hist := .recv i (lMsg x) :: s.hist } i (lMsg x) true (by simp)
    refine ⟨by simp, rfl, by simp [List.count_cons], ha, fun t1 ht1 => ?_⟩
    obtain ⟨a, b, c, d, -, f, g⟩ := hb t1 ht1
    refine ⟨a, by simpa using b, c, by simpa using d, f, ?_⟩
    rw [g]
    simp [List.count_cons]

/-- Witness for C7: the node holding 3 on the ring `5 -> 3 -> 8 -> 1 -> 5` takes
`Leader(8)` while another message waits behind it. -/
theorem C7_leader_witness :
    lead5381.pc 1 = .receiving ∧ lead5381.Ch 1 = lMsg 8 :: [pMsg 1] ∧
      ∃ t, step ring5381 lead5381 (.recv 1) = some t ∧
        t.Ch = Function.update lead5381.Ch 1 [pMsg 1] ∧ t.Leader = lead5381.Leader :=
  ⟨rfl, rfl,
    (C7_leader ring5381 lead5381 1 8 [pMsg 1] rfl rfl).1.imp
      fun _ h => ⟨h.1, h.2.1, h.2.2.1⟩⟩

/-! ## The third invariant is inductive -/

/-- A node is sent a Leader message only after the leader is set. -/
theorem InvA.leader_of_closed {r : Ring} {s : State} (inv : InvA r s) {j : Nat} (hj : j < r.N)
    (h : Closed s j) : ∃ o, s.Leader = some o := by
  rcases h with ⟨m, hm, hty⟩ | ⟨m, hm⟩ | hh
  · obtain ⟨o, ho, -⟩ := inv.lead_ch j hj m hm hty
    exact ⟨o, ho⟩
  · obtain ⟨-, o, ho, -⟩ := inv.sending_true hm
    exact ⟨o, ho⟩
  · cases hl : s.Leader with
    | none => exact absurd hl (inv.halted j hh)
    | some o => exact ⟨o, rfl⟩

/-- Once the leader is set `ElectLeader` has at most its last send to do. -/
theorem InvA.last_send {r : Ring} {s : State} (inv : InvA r s) {o i : Nat}
    (hl : s.Leader = some o) (hm : s.main = .loop i true) : i = r.N - 1 := by
  have h1 := (inv.leader o hl).2.2.1
  have h2 := inv.spawn_le
  simp [spawnCount, hm] at h1 h2
  omega

/-- A node blocked in a send has a successor that was not yet sent a Leader
message. -/
theorem InvC.not_closed {r : Ring} {s : State} (inv : InvA r s) (invC : InvC r s)
    {i : Nat} {m : Message} {h : Bool} (hpc : s.pc i = .sending m h) :
    ¬ Closed s (r.nbr i) := by
  intro hcl
  have hiN : i < r.N := inv.lt_of_started (by rw [hpc]; simp)
  rcases invC.pred i hiN hcl with e | ⟨-, e⟩
  · rw [hpc] at e; cases e
  · rw [hpc] at e; cases e

theorem InvC.initC (r : Ring) : InvC r State.init where
  pred := by
    intro p _ h
    rcases h with ⟨m, hm, -⟩ | ⟨m, hm⟩ | hh
    · simp [State.init] at hm
    · simp [State.init] at hm
    · simp [State.init] at hh
  queue := by intro j _; simp [State.init]
  rest := by intro j _ _ m hm; simp [State.init] at hm

theorem update_ne_of_pc {pc : Nat → NodePC} {i p : Nat} {v w : NodePC} (hp : pc p = w)
    (hi : pc i ≠ w) : Function.update pc i v p = w := by
  have : p ≠ i := fun e => hi (e ▸ hp)
  rw [Function.update_noteq this, hp]

/-- Being sent a Leader message does not end when the node takes a message,
unless the node was not yet sent one and the update makes it so. -/
theorem closed_tail {Ch : Nat → List Message} {pc : Nat → NodePC} {s : State} {i j : Nat}
    {x : Message} {rest : List Message} {v : NodePC} (hch : s.Ch i = x :: rest)
    (hv : (∃ m, v = .sending m true) ∨ v = .halted → Closed s i)
    (hCh : Ch = Function.update s.Ch i rest) (hpc : pc = Function.update s.pc i v)
    (h : (∃ m ∈ Ch j, m.MsgType = .Leader) ∨ (∃ m, pc j = .sending m true) ∨ pc j = .halted) :
    Closed s j := by
  subst hCh hpc
  rcases h with ⟨m, hm, hty⟩ | ⟨m, hm⟩ | hh
  · exact Or.inl ⟨m, mem_update_tail hch hm, hty⟩
  · rcases pc_update_eq hm with ⟨rfl, e⟩ | ⟨_, e⟩
    · exact hv (Or.inl ⟨m, e⟩)
    · exact Or.inr (Or.inl ⟨m, e⟩)
  · rcases pc_update_eq hh with ⟨rfl, e⟩ | ⟨_, e⟩
    · exact hv (Or.inr e)
    · exact Or.inr (Or.inr e)

theorem InvC.step_pred {r : Ring} {s t : State} (hd : DistinctUIDs r) (hc : SingleCycle r)
    (inv : InvA r s) (invB : InvB r s) (invC : InvC r s) (h : Step r s t) :
    ∀ p, p < r.N → Closed t (r.nbr p) →
      t.pc p = .halted ∨ (t.Leader = some p ∧ t.pc p = .receiving) := by
  intro p hp hcl
  have old := invC.pred p hp
  cases h with
  | mainAdd hm => exact old hcl
  | mainExit i hm hi => exact old hcl
  | mainWait hm hw => exact old hcl
  | mainSpawn i hm hi =>
    have hns := inv.pc_of_loop_false hm
    have hcl1 : Closed s (r.nbr p) := by
      rcases hcl with ⟨m, hm, hty⟩ | ⟨m, hm⟩ | hh
      · exact Or.inl ⟨m, hm, hty⟩
      · rcases pc_update_eq hm with ⟨_, e⟩ | ⟨_, e⟩
        · cases e
        · exact Or.inr (Or.inl ⟨m, e⟩)
      · rcases pc_update_eq hh with ⟨_, e⟩ | ⟨_, e⟩
        · cases e
        · exact Or.inr (Or.inr e)
    rcases old hcl1 with e | ⟨hl, e⟩
    · exact Or.inl (update_ne_of_pc e (by rw [hns]; simp))
    · exact Or.inr ⟨hl, update_ne_of_pc e (by rw [hns]; simp)⟩
  | mainSend i hm hcap =>
    apply old
    rcases hcl with ⟨m, hm, hty⟩ | ⟨m, hm⟩ | hh
    · rcases mem_update_append hm with h1 | ⟨_, rfl⟩
      · exact Or.inl ⟨m, h1, hty⟩
      · cases hty
    · exact Or.inr (Or.inl ⟨m, hm⟩)
    · exact Or.inr (Or.inr hh)
  | recvOwn i u rest hpc hch hu =>
    subst hu
    have hn := leader_none_of_own hd hc inv invB hpc hch
    have hcl1 : Closed s (r.nbr p) :=
      closed_tail hch (by rintro (⟨m, e⟩ | e) <;> cases e) rfl rfl hcl
    obtain ⟨o, ho⟩ := inv.leader_of_closed (hc.1 p hp) hcl1
    rw [hn] at ho; cases ho
  | recvFwd i u rest hpc hch hu =>
    have hiN : i < r.N := inv.lt_of_started (by rw [hpc]; simp)
    have hcl1 : Closed s (r.nbr p) :=
      closed_tail hch (by rintro (⟨m, e⟩ | e) <;> cases e) rfl rfl hcl
    rcases old hcl1 with e | ⟨hl, e⟩
    · exact Or.inl (update_ne_of_pc e (by rw [hpc]; simp))
    · refine Or.inr ⟨hl, ?_⟩
      rcases eq_or_ne p i with rfl | hpi
      · exfalso
        obtain ⟨o, d, ho, huo, -⟩ := inv.part_ch p hiN (pMsg u)
          (by rw [hch]; exact List.mem_cons_self _ _) rfl
        have hoN : o < r.N := lt_of_lt_of_le ho (le_trans inv.sent_le inv.spawn_le)
        have := (inv.leader p hl).2.1 o hoN
        simp only at huo
        omega
      · simpa [Function.update_noteq hpi] using e
  | recvDrop i u rest hpc hch hu =>
    apply old
    rcases hcl with ⟨m, hm, hty⟩ | ⟨m, hm⟩ | hh
    · exact Or.inl ⟨m, mem_update_tail hch hm, hty⟩
    · exact Or.inr (Or.inl ⟨m, hm⟩)
    · exact Or.inr (Or.inr hh)
  | recvLeaderFwd i u rest hpc hch hu =>
    have hiN : i < r.N := inv.lt_of_started (by rw [hpc]; simp)
    have hcli : Closed s i := Or.inl ⟨lMsg u, by rw [hch]; exact List.mem_cons_self _ _, rfl⟩
    have hcl1 : Closed s (r.nbr p) := closed_tail hch (fun _ => hcli) rfl rfl hcl
    rcases old hcl1 with e | ⟨hl, e⟩
    · exact Or.inl (update_ne_of_pc e (by rw [hpc]; simp))
    · refine Or.inr ⟨hl, ?_⟩
      rcases eq_or_ne p i with rfl | hpi
      · exfalso
        obtain ⟨o, ho, hmo⟩ := inv.lead_ch p hiN (lMsg u)
          (by rw [hch]; exact List.mem_cons_self _ _) rfl
        rw [hl] at ho; cases ho
        exact hu hmo.symm
      · simpa [Function.update_noteq hpi] using e
  | recvLeaderOwn i u rest hpc hch hu =>
    have hcli : Closed s i := Or.inl ⟨lMsg u, by rw [hch]; exact List.mem_cons_self _ _, rfl⟩
    have hcl1 : Closed s (r.nbr p) := closed_tail hch (fun _ => hcli) rfl rfl hcl
    rcases eq_or_ne p i with rfl | hpi
    · exact Or.inl (by simp)
    · rcases old hcl1 with e | ⟨hl, e⟩
      · exact Or.inl (by simpa [Function.update_noteq hpi] using e)
      · exact Or.inr ⟨hl, by simpa [Function.update_noteq hpi] using e⟩
  | sendCont i m hpc hcap =>
    have hiN : i < r.N := inv.lt_of_started (by rw [hpc]; simp)
    have hnc := invC.not_closed inv hpc
    rcases eq_or_ne p i with rfl | hpi
    · refine Or.inr ⟨?_, by simp⟩
      rcases hcl with ⟨m1, hm1, hty⟩ | ⟨m1, hm1⟩ | hh
      · rcases mem_update_append hm1 with h1 | ⟨_, rfl⟩
        · exact absurd (Or.inl ⟨m1, h1, hty⟩) hnc
        · obtain ⟨o, ho, -, hiff⟩ := inv.lead_pc p m1 false hpc hty
          rw [ho, hiff.mp rfl]
      · rcases pc_update_eq hm1 with ⟨_, e⟩ | ⟨_, e⟩
        · cases e
        · exact absurd (Or.inr (Or.inl ⟨m1, e⟩)) hnc
      · rcases pc_update_eq hh with ⟨_, e⟩ | ⟨_, e⟩
        · cases e
        · exact absurd (Or.inr (Or.inr e)) hnc
    · have hne : r.nbr p ≠ r.nbr i := fun e => hpi (nbr_inj hc hp hiN e)
      have hcl1 : Closed s (r.nbr p) := by
        rcases hcl with ⟨m1, hm1, hty⟩ | ⟨m1, hm1⟩ | hh
        · rcases mem_update_append hm1 with h1 | ⟨e, _⟩
          · exact Or.inl ⟨m1, h1, hty⟩
          · exact absurd e hne
        · rcases pc_update_eq hm1 with ⟨_, e⟩ | ⟨_, e⟩
          · cases e
          · exact Or.inr (Or.inl ⟨m1, e⟩)
        · rcases pc_update_eq hh with ⟨_, e⟩ | ⟨_, e⟩
          · cases e
          · exact Or.inr (Or.inr e)
      rcases old hcl1 with e | ⟨hl, e⟩
      · exact Or.inl (by simpa [Function.update_noteq hpi] using e)
      · exact Or.inr ⟨hl, by simpa [Function.update_noteq hpi] using e⟩
  | sendHalt i m hpc hcap =>
    have hiN : i < r.N := inv.lt_of_started (by rw [hpc]; simp)
    rcases eq_or_ne p i with rfl | hpi
    · exact Or.inl (by simp)
    · have hne : r.nbr p ≠ r.nbr i := fun e => hpi (nbr_inj hc hp hiN e)
      have hcl1 : Closed s (r.nbr p) := by
        rcases hcl with ⟨m1, hm1, hty⟩ | ⟨m1, hm1⟩ | hh
        · rcases mem_update_append hm1 with h1 | ⟨e, _⟩
          · exact Or.inl ⟨m1, h1, hty⟩
          · exact absurd e hne
        · rcases pc_update_eq hm1 with ⟨_, e⟩ | ⟨_, e⟩
          · cases e
          · exact Or.inr (Or.inl ⟨m1, e⟩)
        · rcases pc_update_eq hh with ⟨e1, _⟩ | ⟨_, e⟩
          · rw [e1]; exact Or.inr (Or.inl ⟨m, hpc⟩)
          · exact Or.inr (Or.inr e)
      rcases old hcl1 with e | ⟨hl, e⟩
      · exact Or.inl (by simpa [Function.update_noteq hpi] using e)
      · exact Or.inr ⟨hl, by simpa [Function.update_noteq hpi] using e⟩

theorem InvC.step_queue {r : Ring} {s t : State}
    (inv : InvA r s) (invC : InvC r s) (h : Step r s t) :
    ∀ j, j < r.N → (t.Ch j).Pairwise (fun a b => a.MsgType = .Leader → Late r j b) := by
  intro j hj
  have old := invC.queue j hj
  have tail : ∀ {i : Nat} {x : Message} {rest : List Message}, s.Ch i = x :: rest →
      (Function.update s.Ch i rest j).Pairwise (fun a b => a.MsgType = .Leader → Late r j b) := by
    intro i x rest hch
    rcases eq_or_ne j i with rfl | hji
    · rw [Function.update_same]
      rw [hch] at old
      exact (List.pairwise_cons.mp old).2
    · rw [Function.update_noteq hji]; exact old
  have app : ∀ (k : Nat) (m : Message),
      (k = j → ∀ a ∈ s.Ch j, a.MsgType = .Leader → Late r j m) →
      (Function.update s.Ch k (s.Ch k ++ [m]) j).Pairwise
        (fun a b => a.MsgType = .Leader → Late r j b) := by
    intro k m hk
    rcases eq_or_ne j k with rfl | hjk
    · rw [Function.update_same, List.pairwise_append]
      refine ⟨old, List.pairwise_singleton _ _, ?_⟩
      intro a ha b hb
      rw [List.mem_singleton] at hb
      subst hb
      exact hk rfl a ha
    · rw [Function.update_noteq hjk]; exact old
  cases h with
  | mainAdd hm => exact old
  | mainExit i hm hi => exact old
  | mainWait hm hw => exact old
  | mainSpawn i hm hi => exact old
  | recvOwn i u rest hpc hch hu => exact tail hch
  | recvFwd i u rest hpc hch hu => exact tail hch
  | recvDrop i u rest hpc hch hu => exact tail hch
  | recvLeaderFwd i u rest hpc hch hu => exact tail hch
  | recvLeaderOwn i u rest hpc hch hu => exact tail hch
  | mainSend i hm hcap =>
    apply app
    intro e a ha hty
    obtain ⟨o, ho, -⟩ := inv.lead_ch j hj a ha hty
    have := inv.last_send ho hm
    subst this
    exact ⟨rfl, e⟩
  | sendCont i m hpc hcap =>
    apply app
    intro e a ha hty
    exact absurd (Or.inl ⟨a, e ▸ ha, hty⟩) (invC.not_closed inv hpc)
  | sendHalt i m hpc hcap =>
    apply app
    intro e a ha hty
    exact absurd (Or.inl ⟨a, e ▸ ha, hty⟩) (invC.not_closed inv hpc)

theorem InvC.step_rest {r : Ring} {s t : State}
    (inv : InvA r s) (invC : InvC r s) (h : Step r s t) :
    ∀ j, j < r.N → ((∃ m, t.pc j = .sending m true) ∨ t.pc j = .halted) →
      ∀ m ∈ t.Ch j, Late r j m := by
  intro j hj hcl m1 hm1
  have old := invC.rest j hj
  -- a node that changes to a state other than forwarding or halted
  have other : ∀ {i : Nat} {v : NodePC}, (∀ m, v ≠ .sending m true) → v ≠ .halted →
      ((∃ m, Function.update s.pc i v j = .sending m true) ∨
        Function.update s.pc i v j = .halted) →
      j ≠ i ∧ ((∃ m, s.pc j = .sending m true) ∨ s.pc j = .halted) := by
    intro i v hv1 hv2 h
    rcases h with ⟨m, hm⟩ | hh
    · rcases pc_update_eq hm with ⟨_, e⟩ | ⟨hne, e⟩
      · exact absurd e (hv1 m)
      · exact ⟨hne, Or.inl ⟨m, e⟩⟩
    · rcases pc_update_eq hh with ⟨_, e⟩ | ⟨hne, e⟩
      · exact absurd e hv2
      · exact ⟨hne, Or.inr e⟩
  cases h with
  | mainAdd hm => exact old hcl m1 hm1
  | mainExit i hm hi => exact old hcl m1 hm1
  | mainWait hm hw => exact old hcl m1 hm1
  | mainSpawn i hm hi =>
    exact old (other (by simp) (by simp) hcl).2 m1 hm1
  | mainSend i hm hcap =>
    rcases mem_update_append hm1 with h1 | ⟨e, rfl⟩
    · exact old hcl m1 h1
    · have hclj : Closed s j := Or.inr hcl
      obtain ⟨o, ho⟩ := inv.leader_of_closed hj hclj
      have := inv.last_send ho hm
      subst this
      exact ⟨rfl, e.symm⟩
  | recvOwn i u rest hpc hch hu =>
    obtain ⟨hne, h1⟩ := other (by simp) (by simp) hcl
    exact old h1 m1 (by simpa [Function.update_noteq hne] using hm1)
  | recvFwd i u rest hpc hch hu =>
    obtain ⟨hne, h1⟩ := other (by simp) (by simp) hcl
    exact old h1 m1 (by simpa [Function.update_noteq hne] using hm1)
  | recvDrop i u rest hpc hch hu =>
    exact old hcl m1 (mem_update_tail hch hm1)
  | recvLeaderFwd i u rest hpc hch hu =>
    rcases eq_or_ne j i with rfl | hji
    · have hq := invC.queue j hj
      rw [hch] at hq
      simp only [Function.update_same] at hm1
      exact (List.pairwise_cons.mp hq).1 m1 hm1 rfl
    · have hcl1 : (∃ m, s.pc j = .sending m true) ∨ s.pc j = .halted := by
        simpa [Function.update_noteq hji] using hcl
      exact old hcl1 m1 (by simpa [Function.update_noteq hji] using hm1)
  | recvLeaderOwn i u rest hpc hch hu =>
    rcases eq_or_ne j i with rfl | hji
    · have hq := invC.queue j hj
      rw [hch] at hq
      simp only [Function.update_same] at hm1
      exact (List.pairwise_cons.mp hq).1 m1 hm1 rfl
    · have hcl1 : (∃ m, s.pc j = .sending m true) ∨ s.pc j = .halted := by
        simpa [Function.update_noteq hji] using hcl
      exact old hcl1 m1 (by simpa [Function.update_noteq hji] using hm1)
  | sendCont i m hpc hcap =>
    obtain ⟨hne, h1⟩ := other (by simp) (by simp) hcl
    have hnc := invC.not_closed inv hpc
    have hjn : j ≠ r.nbr i := fun e => hnc (e ▸ Or.inr h1)
    exact old h1 m1 (by simpa [Function.update_noteq hjn] using hm1)
  | sendHalt i m hpc hcap =>
    have hnc := invC.not_closed inv hpc
    have h1 : (∃ m, s.pc j = .sending m true) ∨ s.pc j = .halted := by
      rcases eq_or_ne j i with rfl | hji
      · exact Or.inl ⟨m, hpc⟩
      · simpa [Function.update_noteq hji] using hcl
    have hjn : j ≠ r.nbr i := fun e => hnc (e ▸ Or.inr h1)
    exact old h1 m1 (by simpa [Function.update_noteq hjn] using hm1)

theorem InvC.stepC {r : Ring} {s t : State} (hd : DistinctUIDs r) (hc : SingleCycle r)
    (inv : InvA r s) (invB : InvB r s) (invC : InvC r s) (h : Step r s t) : InvC r t where
  pred := invC.step_pred hd hc inv invB h
  queue := invC.step_queue inv h
  rest := invC.step_rest inv h

/-- The third invariant holds in every reachable state. -/
theorem InvC.reachableC {r : Ring} {s : State} (hd : DistinctUIDs r) (hc : SingleCycle r)
    (h : Reachable r s) : InvC r s := by
  induction h with
  | init => exact InvC.initC r
  | step a hs hstep ih =>
    obtain ⟨inv, invB⟩ := inv_of_reachable hd hc hs
    exact ih.stepC hd hc inv invB (Step.of_step hstep)

theorem pcSum_of_allHalted {r : Ring} {s : State} (h : AllHalted r s) (m : Message) :
    pcSum r s m = 0 := by
  unfold pcSum
  apply Finset.sum_eq_zero
  intro i hi
  rw [h i (Finset.mem_range.mp hi)]
  rfl

/-- C10, amended: in every reachable state in which all nodes have halted, a
message still in the channel of a node can only be the candidacy of the last
node `Nodes[N-1]`, in the channel of its clockwise neighbor; nothing is left
in any channel when `Nodes[N-1]` holds the maximum UID.  Every candidacy is
accounted for exactly once: it was dropped once, or it made its node the
leader once, or (for `Nodes[N-1]` only) it lies in a channel or is still to be
sent by `ElectLeader`. -/
theorem C10_participate_left (r : Ring) (hd : DistinctUIDs r) (hc : SingleCycle r)
    (s : State) (hr : Reachable r s) (hall : AllHalted r s) :
    (∀ j, j < r.N → ∀ m ∈ s.Ch j, m = pMsg (r.uid (r.N - 1)) ∧ j = r.nbr (r.N - 1)) ∧
    ((∀ j, j < r.N → r.uid j ≤ r.uid (r.N - 1)) → ∀ j, j < r.N → s.Ch j = []) ∧
    (∀ o, o < r.N →
      chSum r s (pMsg (r.uid o)) + pendingInit r s o + s.hist.count (.setLeader o)
        + s.hist.countP (Event.isDropOf (pMsg (r.uid o))) = 1) ∧
    (∀ o, o < r.N → o ≠ r.N - 1 →
      chSum r s (pMsg (r.uid o)) = 0 ∧ pendingInit r s o = 0) := by
  obtain ⟨inv, invB⟩ := inv_of_reachable hd hc hr
  have invC := InvC.reachableC hd hc hr
  have hleft : ∀ j, j < r.N → ∀ m ∈ s.Ch j,
      m = pMsg (r.uid (r.N - 1)) ∧ j = r.nbr (r.N - 1) := by
    intro j hj m hm
    obtain ⟨h1, h2⟩ := invC.rest j hj (Or.inr (hall j hj)) m hm
    exact ⟨h1, h2.symm⟩
  refine ⟨hleft, ?_, ?_, ?_⟩
  · intro hmax j hj
    rw [List.eq_nil_iff_forall_not_mem]
    intro m hm
    cases hl : s.Leader with
    | none => exact inv.halted j (hall j hj) hl
    | some o =>
      have hoN := (inv.leader o hl).1
      have : o = r.N - 1 := max_unique hd hoN (by omega) (inv.leader o hl).2.1 hmax
      have hno := invB.no_token hoN hl j hj
      rw [this] at hno
      exact hno ((hleft j hj m hm).1 ▸ hm)
  · intro o ho
    have h1 := invB.tok o ho
    rw [pcSum_of_allHalted hall] at h1
    omega
  · intro o ho hne
    have hN : 0 < r.N := by omega
    obtain ⟨l, hl⟩ : ∃ l, s.Leader = some l := by
      cases hl : s.Leader with
      | none => exact absurd hl (inv.halted 0 (hall 0 hN))
      | some l => exact ⟨l, rfl⟩
    constructor
    · unfold chSum
      apply Finset.sum_eq_zero
      intro j hj
      rw [List.count_eq_zero]
      intro hm
      have := (hleft j (Finset.mem_range.mp hj) _ hm).1
      exact hne ((pMsg_eq_iff hd ho (by omega)).mp this)
    · have h1 := (inv.leader l hl).2.2.1
      have h2 := inv.spawn_le
      unfold pendingInit
      rw [if_neg]
      cases hm : s.main with
      | start => simp [spawnCount, hm] at h1; omega
      | loop i b =>
        simp only [spawnCount, sentInit, hm] at h1 h2 ⊢
        split_ifs at h1 h2 <;> omega
      | wait => simp only [sentInit, hm]; omega
      | returned => simp only [sentInit, hm]; omega

/-- Witness for C10 as amended: in the run of `lateSched5381` the message left
is the candidacy of the last node, in the channel of its neighbor. -/
theorem C10_participate_left_witness :
    AllHalted ring5381 lateFinal5381 ∧ lateFinal5381.Ch 0 = [pMsg 1] ∧
      ∀ j, j < ring5381.N → ∀ m ∈ lateFinal5381.Ch j,
        m = pMsg (ring5381.uid (ring5381.N - 1)) ∧ j = ring5381.nbr (ring5381.N - 1) :=
  ⟨by decide, by decide,
    (C10_participate_left ring5381 (by decide) (by decide) lateFinal5381
      (reachable_run lateSched5381 (by decide)) (by decide)).1⟩

/-- Counterexample to C10 as stated: on the ring `5 -> 3 -> 8 -> 1 -> 5` there
is a complete run (all nodes halted, `ElectLeader` returned, node holding 8
elected) in which the candidacy of the node holding 1 was sent to the node
holding 5, was never taken from its channel, and is still there. -/
theorem C10_counterexample :
    2 ≤ ring5381.N ∧ DistinctUIDs ring5381 ∧ SingleCycle ring5381 ∧
      Reachable ring5381 lateFinal5381 ∧ AllHalted ring5381 lateFinal5381 ∧
      lateFinal5381.main = .returned ∧ lateFinal5381.Leader = some 2 ∧
      Event.initSend 3 ∈ lateFinal5381.hist ∧
      Event.recv 0 (pMsg 1) ∉ lateFinal5381.hist ∧
      pMsg 1 ∈ lateFinal5381.Ch 0 :=
  ⟨by decide, by decide, by decide, reachable_run lateSched5381 (by decide), by decide,
    by decide, by decide, by decide, by decide, by decide⟩

/-! ## The initial sends of `ElectLeader` -/

/-- Before `Wg.Add` nothing has happened: the state is the initial one. -/
theorem start_is_init {r : Ring} {s : State} (h : Reachable r s) (hm : s.main = .start) :
    s = State.init := by
  induction h with
  | init => rfl
  | @step s t a hs hstep ih =>
    have hne : ∀ i, s.main = .start → s.pc i = .notStarted := by
      intro i h0; rw [ih h0]; rfl
    cases Step.of_step hstep with
    | mainAdd h0 => cases hm
    | mainSpawn i h0 hi => cases hm
    | mainSend i h0 hc => cases hm
    | mainExit i h0 hi => cases hm
    | mainWait h0 hw => cases hm
    | recvOwn i u rest hpc hch hu => rw [hne i hm] at hpc; cases hpc
    | recvFwd i u rest hpc hch hu => rw [hne i hm] at hpc; cases hpc
    | recvDrop i u rest hpc hch hu => rw [hne i hm] at hpc; cases hpc
    | recvLeaderFwd i u rest hpc hch hu => rw [hne i hm] at hpc; cases hpc
    | recvLeaderOwn i u rest hpc hch hu => rw [hne i hm] at hpc; cases hpc
    | sendCont i m hpc hc => rw [hne i hm] at hpc; cases hpc
    | sendHalt i m hpc hc => rw [hne i hm] at hpc; cases hpc

/-- The initial sends done so far are those of positions `0, 1, ...` in order. -/
theorem initSends_reachable {r : Ring} {s : State} (h : Reachable r s) :
    (initSends s.hist).reverse = List.range (sentInit r s) := by
  induction h with
  | init => simp [initSends, State.init, sentInit]
  | @step s t a hs hstep ih =>
    have hsp := spawn_of_reachable hs
    cases Step.of_step hstep with
    | mainAdd h0 => simpa [initSends, sentInit, h0] using ih
    | mainSpawn i h0 hi => simpa [initSends, sentInit, h0] using ih
    | mainSend i h0 hc =>
      simp only [sentInit, h0] at ih ⊢
      simp only [initSends, List.filterMap_cons, List.reverse_cons] at ih ⊢
      rw [ih, List.range_succ]
    | mainExit i h0 hi =>
      have h2 := hsp.2.1
      simp only [spawnCount, h0] at h2
      have : i = r.N := le_antisymm (by simpa using h2) hi
      subst this
      simpa [initSends, sentInit, h0] using ih
    | mainWait h0 hw => simpa [initSends, sentInit, h0] using ih
    | recvOwn i u rest hpc hch hu => simpa [initSends, sentInit] using ih
    | recvFwd i u rest hpc hch hu => simpa [initSends, sentInit] using ih
    | recvDrop i u rest hpc hch hu => simpa [initSends, sentInit] using ih
    | recvLeaderFwd i u rest hpc hch hu => simpa [initSends, sentInit] using ih
    | recvLeaderOwn i u rest hpc hch hu => simpa [initSends, sentInit] using ih
    | sendCont i m hpc hc => simpa [initSends, sentInit] using ih
    | sendHalt i m hpc hc => simpa [initSends, sentInit] using ih

/-- In every run of `ElectLeader` on a ring of `N >= 2` nodes linked in a
single cycle, the wait group is registered once, from zero, with exactly `N`;
the initial sends done so far are those of the positions `0, 1, ...` in that
order, all `N` of them if the loop is left; and the initial send of
iteration `i`, if its channel operation is not blocked, appends
`Participate(Nodes[i].UID)` to the channel of `Nodes[i].ClockwiseNeighbor`,
which is another node than `Nodes[i]`, and is one more message sent. -/
theorem initial_sends_order (r : Ring) (hN : 2 ≤ r.N) (hc : SingleCycle r) (s : State)
    (hr : Reachable r s) :
    (s.main = .start → s.Wg = 0) ∧
    (∀ t, step r s .mainAdd = some t → s.Wg = 0 ∧ t.Wg = r.N) ∧
    (initSends s.hist).reverse = List.range (sentInit r s) ∧
    (s.main = .wait ∨ s.main = .returned → (initSends s.hist).reverse = List.range r.N) ∧
    (∀ i, s.main = .loop i true →
      i < r.N ∧ r.nbr i < r.N ∧ r.nbr i ≠ i ∧
      ∀ t, step r s .mainSend = some t →
        t.Ch = Function.update s.Ch (r.nbr i) (s.Ch (r.nbr i) ++ [pMsg (r.uid i)]) ∧
        t.Ch i = s.Ch i ∧
        t.sent = s.sent + 1 ∧
        t.main = .loop (i + 1) false ∧
        t.hist = .initSend i :: s.hist) := by
  have hstart : s.main = .start → s.Wg = 0 := fun hm => by rw [start_is_init hr hm]; rfl
  refine ⟨hstart, ?_, initSends_reachable hr, ?_, ?_⟩
  · intro t ht
    cases hm : s.main with
    | start =>
      have h0 := hstart hm
      simp [step, hm] at ht
      subst ht
      exact ⟨h0, by simp [h0]⟩
    | loop i b => simp [step, hm] at ht
    | wait => simp [step, hm] at ht
    | returned => simp [step, hm] at ht
  · intro hm
    have := initSends_reachable hr
    rcases hm with hm | hm <;> simpa [sentInit, hm] using this
  · intro i hm
    have h2 := (spawn_of_reachable hr).2.1
    simp only [spawnCount, hm, if_true] at h2
    have hiN : i < r.N := by omega
    have hne : r.nbr i ≠ i := by
      have := hc.2.2 i hiN 1 (by omega) Nat.one_pos
      simpa using this
    refine ⟨hiN, hc.1 i hiN, hne, ?_⟩
    intro t ht
    simp only [step, hm, Send] at ht
    split at ht
    · next t1 h1 =>
      split at h1
      · cases h1; cases ht
        exact ⟨rfl, by simp [Function.update_noteq hne.symm], rfl, rfl, rfl⟩
      · cases h1
    · cases ht

/-- The complete run on the ring `5 -> 3 -> 8 -> 1 -> 5` did the initial sends
of positions 0, 1, 2, 3 in that order. -/
theorem initial_sends_order_5381 :
    final5381.main = .returned ∧ (initSends final5381.hist).reverse = [0, 1, 2, 3] :=
  ⟨by decide,
    (initial_sends_order ring5381 (by decide) (by decide) final5381
      (reachable_run sched5381 (by decide))).2.2.2.1 (Or.inr (by decide))⟩

/-! ## The guard on the node count, and the range of the UIDs -/

/-- C12, amended: `main` rejects a node count below 2 with the fatal error,
before `NewRing` is called, and calls `NewRing` otherwise; `NewRing` itself has
no such check: for `N = 0` it returns the empty ring, and for `N = 1` a ring of
one node linked to itself, with the first draw as UID. -/
theorem C12_guard_in_main :
    (∀ (N : Int) (draws : List Nat), N < 2 → mainStart N draws = .fatal) ∧
    (∀ (N : Int) (draws : List Nat), 2 ≤ N →
      mainStart N draws = .newRing (NewRing N.toNat draws)) ∧
    (∀ draws : List Nat, NewRing 0 draws = some ⟨[]⟩) ∧
    (∀ (d : Nat) (ds : List Nat), NewRing 1 (d :: ds) = some ⟨[⟨d, 0⟩]⟩) := by
  refine ⟨?_, ?_, ?_, ?_⟩
  · intro N draws h; simp [mainStart, h]
  · intro N draws h
    have : ¬ N < 2 := by omega
    simp [mainStart, this]
  · intro draws; simp [NewRing, createNodes, connect]
  · intro d ds
    simp [NewRing, createNodes, sampleUID, connect, List.range_succ]

/-- Witness for C12 as amended: with the flag at 1, `main` stops with the fatal
error. -/
theorem C12_guard_in_main_witness : mainStart 1 [7] = .fatal :=
  C12_guard_in_main.1 1 [7] (by decide)

/-- Counterexample to C12 as stated: `NewRing(1)` and `NewRing(0)` return a
ring. -/
theorem C12_counterexample :
    NewRing 1 [7] = some ⟨[⟨7, 0⟩]⟩ ∧ NewRing 0 [] = some ⟨[]⟩ :=
  ⟨by decide, by decide⟩

theorem sampleUID_count (m : List Nat) (ds : List Nat) :
    match sampleUID m ds with
    | none => (ds.toFinset \ m.toFinset).card = 0
    | some (d, rest) =>
      d ∉ m ∧ d ∈ ds ∧ (∀ x ∈ rest, x ∈ ds) ∧
        (ds.toFinset \ m.toFinset).card = (rest.toFinset \ (d :: m).toFinset).card + 1 := by
  induction ds with
  | nil => simp [sampleUID]
  | cons x ds ih =>
    by_cases hx : x ∈ m
    · simp only [sampleUID, if_pos hx]
      have e : (x :: ds).toFinset \ m.toFinset = ds.toFinset \ m.toFinset := by
        rw [List.toFinset_cons, Finset.insert_sdiff_of_mem _ (List.mem_toFinset.mpr hx)]
      rw [e]
      split
      · next h => rw [h] at ih; exact ih
      · next d rest h =>
        rw [h] at ih
        exact ⟨ih.1, List.mem_cons_of_mem _ ih.2.1,
          fun y hy => List.mem_cons_of_mem _ (ih.2.2.1 y hy), ih.2.2.2⟩
    · simp only [sampleUID, if_neg hx]
      refine ⟨hx, List.mem_cons_self _ _, fun y hy => List.mem_cons_of_mem _ hy, ?_⟩
      have e : (x :: ds).toFinset \ m.toFinset
          = insert x (ds.toFinset \ (x :: m).toFinset) := by
        ext y
        simp only [List.toFinset_cons, Finset.mem_sdiff, Finset.mem_insert, List.mem_toFinset]
        constructor
        · rintro ⟨h1 | h1, h2⟩
          · exact Or.inl h1
          · by_cases hy : y = x
            · exact Or.inl hy
            · exact Or.inr ⟨h1, fun h => h.elim hy h2⟩
        · rintro (h1 | ⟨h1, h2⟩)
          · subst h1; exact ⟨Or.inl rfl, hx⟩
          · exact ⟨Or.inr h1, fun h => h2 (Or.inr h)⟩
      rw [e, Finset.card_insert_of_not_mem]
      simp

theorem createNodes_isSome (n : Nat) (m ds : List Nat) :
    (createNodes n m ds).isSome = true ↔ n ≤ (ds.toFinset \ m.toFinset).card := by
  induction n generalizing m ds with
  | zero => simp [createNodes]
  | succ n ih =>
    have h := sampleUID_count m ds
    simp only [createNodes]
    split
    · next hs =>
      rw [hs] at h
      simp only at h
      simp [h]
    · next d rest hs =>
      rw [hs] at h
      simp only at h
      rw [h.2.2.2]
      have := ih (d :: m) rest
      split
      · next hn =>
        rw [hn] at this
        simp at this ⊢
        omega
      · next us hu =>
        rw [hu] at this
        simp at this ⊢
        omega

theorem createNodes_mem {n : Nat} {m ds us : List Nat} (h : createNodes n m ds = some us) :
    ∀ u ∈ us, u ∈ ds := by
  induction n generalizing m ds us with
  | zero => simp only [createNodes] at h; cases h; simp
  | succ n ih =>
    have hc := sampleUID_count m ds
    simp only [createNodes] at h
    split at h
    · cases h
    · next d rest hs =>
      rw [hs] at hc
      simp only at hc
      split at h
      · cases h
      · next vs hv =>
        cases h
        intro u hu
        rcases List.mem_cons.mp hu with rfl | hu
        · exact hc.2.1
        · exact hc.2.2.1 u (ih hv u hu)

/-- C20: with draws in the range of `rand.Intn(MaxUID)`, every UID of a ring
returned by `NewRing` lies in `0 <= UID < 1000`; for `N > 1000` `NewRing(N)`
does not return, however many draws it is given; and in general `NewRing(N)`
returns exactly when the draws hold `N` distinct values. -/
theorem C20_sampling (N : Nat) (draws : List Nat) (hd : ∀ d ∈ draws, d < MaxUID) :
    (∀ r, NewRing N draws = some r → ∀ i, i < N → 0 ≤ r.uid i ∧ r.uid i < 1000) ∧
    (1000 < N → NewRing N draws = none) ∧
    ((NewRing N draws).isSome = true ↔ N ≤ draws.toFinset.card) := by
  have hiff : (NewRing N draws).isSome = true ↔ N ≤ draws.toFinset.card := by
    have := createNodes_isSome N [] draws
    simp only [List.toFinset_nil, Finset.sdiff_empty] at this
    rw [← this]
    simp only [NewRing]
    split <;> simp_all
  refine ⟨?_, ?_, hiff⟩
  · intro r h i hi
    obtain ⟨uids, hlen, -, -, huid, -⟩ := NewRing_spec h
    have hcn : createNodes N [] draws = some uids := by
      simp only [NewRing] at h
      split at h
      · cases h
      · next us hu =>
        cases h
        obtain ⟨ulen, -, -⟩ := createNodes_spec hu
        have : us = uids := by
          apply List.ext_getElem (by omega)
          intro k h1 h2
          have e1 := huid k (by omega)
          simp only [Ring.uid, connect_getD N us (show k < N by omega)] at e1
          have e2 : us.getD k 0 = uids.getD k 0 := by exact_mod_cast e1
          rwa [List.getD_eq_getElem us 0 h1, List.getD_eq_getElem uids 0 h2] at e2
        rw [← this]; exact hu
    rw [huid i hi]
    have hmem : uids.getD i 0 ∈ uids := by
      rw [List.getD_eq_getElem uids 0 (by omega)]
      exact List.getElem_mem _
    have := hd _ (createNodes_mem hcn _ hmem)
    simp only [MaxUID] at this
    constructor
    · exact Int.natCast_nonneg _
    · exact_mod_cast this
  · intro hN
    have hcard : draws.toFinset.card ≤ 1000 := by
      have hsub : draws.toFinset ⊆ Finset.range 1000 := by
        intro x hx
        have := hd x (List.mem_toFinset.mp hx)
        simp only [MaxUID] at this
        exact Finset.mem_range.mpr this
      simpa using Finset.card_le_card hsub
    cases hr : NewRing N draws with
    | none => rfl
    | some r =>
      have := hiff.mp (by rw [hr]; rfl)
      omega

/-- Witness for C20: the draws 5, 5, 2, 5, 7 give a ring of three nodes with
UIDs below 1000. -/
theorem C20_sampling_witness :
    (NewRing 3 [5, 5, 2, 5, 7]).isSome = true ∧ NewRing 3 [5, 5, 2, 5] = none ∧
      ((NewRing 3 [5, 5, 2, 5, 7]).isSome = true ↔ 3 ≤ [5, 5, 2, 5, 7].toFinset.card) :=
  ⟨by decide, by decide, (C20_sampling 3 [5, 5, 2, 5, 7] (by decide)).2.2⟩

/-! ## Rings whose links are not a single cycle -/

/-- On any ring, in every reachable state the number of `Wg.Done` calls is
the number of halted nodes, and the counter of the wait group is what was
added minus that number. -/
theorem doneCount_reachable {r : Ring} {s : State} (h : Reachable r s) :
    s.hist.countP Event.isDone = haltedCount r s ∧
      s.Wg + (haltedCount r s : Int) = wgAdded r s := by
  induction h with
  | init => simp [State.init, haltedCount, haltedInd, wgAdded]
  | @step s t a hs hstep ih =>
    obtain ⟨h1, h2⟩ := ih
    have hsp := spawn_of_reachable hs
    have hlt : ∀ i, s.pc i ≠ .notStarted → i < r.N := fun i hi =>
      lt_of_lt_of_le ((hsp.1 i).mp hi) hsp.2.1
    cases Step.of_step hstep with
    | mainAdd hm =>
      simp only [wgAdded, hm] at h2 ⊢
      exact ⟨h1, by simp only [haltedCount] at h2 ⊢; omega⟩
    | mainExit i hm hi => simp only [wgAdded, hm] at h2 ⊢; exact ⟨h1, h2⟩
    | mainWait hm hw => simp only [wgAdded, hm] at h2 ⊢; exact ⟨h1, h2⟩
    | mainSend i hm hc =>
      simp only [wgAdded, hm] at h2 ⊢
      exact ⟨by simpa [List.countP_cons] using h1, h2⟩
    | recvDrop i u rest hpc hch hu =>
      exact ⟨by simpa [List.countP_cons] using h1, h2⟩
    | mainSpawn i hm hi =>
      have hns : s.pc i = .notStarted := by
        by_contra hc
        have := (hsp.1 i).mp hc
        simp [spawnCount, hm] at this
      have := haltedCount_update (s := s) hi .receiving
      simp only [hns, haltedInd_notStarted, haltedInd_receiving] at this
      simp only [wgAdded, hm] at h2 ⊢
      simp only [haltedCount]
      exact ⟨by omega, by omega⟩
    | recvOwn i u rest hpc hch hu =>
      have hiN : i < r.N := hlt i (by rw [hpc]; simp)
      have := haltedCount_update (s := s) hiN (.sending (lMsg (r.uid i)) false)
      simp only [hpc, haltedInd_sending, haltedInd_receiving] at this
      simp only [wgAdded] at h2 ⊢
      simp only [haltedCount]
      exact ⟨by simp [List.countP_cons]; omega, by omega⟩
    | recvFwd i u rest hpc hch hu =>
      have hiN : i < r.N := hlt i (by rw [hpc]; simp)
      have := haltedCount_update (s := s) hiN (.sending (pMsg u) false)
      simp only [hpc, haltedInd_sending, haltedInd_receiving] at this
      simp only [wgAdded] at h2 ⊢
      simp only [haltedCount]
      exact ⟨by simp [List.countP_cons]; omega, by omega⟩
    | recvLeaderFwd i u rest hpc hch hu =>
      have hiN : i < r.N := hlt i (by rw [hpc]; simp)
      have := haltedCount_update (s := s) hiN (.sending (lMsg u) true)
      simp only [hpc, haltedInd_sending, haltedInd_receiving] at this
      simp only [wgAdded] at h2 ⊢
      simp only [haltedCount]
      exact ⟨by simp [List.countP_cons]; omega, by omega⟩
    | sendCont i m hpc hc =>
      have hiN : i < r.N := hlt i (by rw [hpc]; simp)
      have := haltedCount_update (s := s) hiN .receiving
      simp only [hpc, haltedInd_sending, haltedInd_receiving] at this
      simp only [wgAdded] at h2 ⊢
      simp only [haltedCount]
      exact ⟨by simp [List.countP_cons]; omega, by omega⟩
    | recvLeaderOwn i u rest hpc hch hu =>
      have hiN : i < r.N := hlt i (by rw [hpc]; simp)
      have := haltedCount_update (s := s) hiN .halted
      simp only [hpc, haltedInd_halted, haltedInd_receiving] at this
      simp only [wgAdded] at h2 ⊢
      simp only [haltedCount]
      exact ⟨by simp [List.countP_cons]; omega, by omega⟩
    | sendHalt i m hpc hc =>
      have hiN : i < r.N := hlt i (by rw [hpc]; simp)
      have := haltedCount_update (s := s) hiN .halted
      simp only [hpc, haltedInd_halted, haltedInd_sending] at this
      simp only [wgAdded] at h2 ⊢
      simp only [haltedCount]
      exact ⟨by simp [List.countP_cons]; omega, by omega⟩

/-- On any ring, `ElectLeader` returns only when all nodes have halted. -/
theorem returned_allHalted {r : Ring} {s : State} (h : Reachable r s) :
    s.main = .returned → s.Wg = 0 ∧ AllHalted r s := by
  induction h with
  | init => intro h; cases h
  | @step s t a hs hstep ih =>
    have hsp := spawn_of_reachable hs
    have hlt : ∀ i, s.pc i ≠ .notStarted → i < r.N := fun i hi =>
      lt_of_lt_of_le ((hsp.1 i).mp hi) hsp.2.1
    have hall : s.main = .returned → ∀ i, s.pc i ≠ .receiving ∧ ∀ m, s.pc i ≠ .sending m true := by
      intro hm i
      have h2 := (ih hm).2
      constructor
      · intro e
        have := h2 i (hlt i (by rw [e]; simp))
        rw [e] at this; cases this
      · intro m e
        have := h2 i (hlt i (by rw [e]; simp))
        rw [e] at this; cases this
    have h0 : t.main = .returned → t.Wg = 0 := by
      cases Step.of_step hstep with
      | mainAdd hm0 => intro hm; cases hm
      | mainExit i hm0 hi => intro hm; cases hm
      | mainWait hm0 hw => intro _; exact hw
      | mainSpawn i hm0 hi => intro hm; cases hm
      | mainSend i hm0 hc => intro hm; cases hm
      | recvDrop i u rest hpc hch hu => intro hm; exact (ih hm).1
      | recvFwd i u rest hpc hch hu => intro hm; exact (ih hm).1
      | recvLeaderFwd i u rest hpc hch hu => intro hm; exact (ih hm).1
      | recvOwn i u rest hpc hch hu => intro hm; exact (ih hm).1
      | sendCont i m hpc hc => intro hm; exact (ih hm).1
      | recvLeaderOwn i u rest hpc hch hu => intro hm; exact absurd hpc (hall hm i).1
      | sendHalt i m hpc hc => intro hm; exact absurd hpc ((hall hm i).2 m)
    intro hm
    have hwg := (doneCount_reachable (Reachable.step a hs hstep)).2
    have h1 := h0 hm
    simp only [wgAdded, hm, h1] at hwg
    exact ⟨h1, allHalted_of_count (by omega)⟩

/-- C19, amended: on a ring in which some node `x` is nobody's clockwise
neighbor, in every run of `ElectLeader` the channel of `x` stays empty, `x`
never halts, so no state with all nodes halted is reached and `ElectLeader` does
not return. -/
theorem C19_hang (r : Ring) (x : Nat) (hx : x < r.N) (hno : ∀ i, i < r.N → r.nbr i ≠ x)
    (s : State) (hr : Reachable r s) :
    s.Ch x = [] ∧ s.pc x ≠ .halted ∧ ¬ AllHalted r s ∧ s.main ≠ .returned := by
  have key : s.Ch x = [] ∧ (s.pc x = .notStarted ∨ s.pc x = .receiving) := by
    induction hr with
    | init => exact ⟨rfl, Or.inl rfl⟩
    | @step s t a hs hstep ih =>
      obtain ⟨h1, h2⟩ := ih
      have hsp := spawn_of_reachable hs
      have hlt : ∀ i, s.pc i ≠ .notStarted → i < r.N := fun i hi =>
        lt_of_lt_of_le ((hsp.1 i).mp hi) hsp.2.1
      have hrecv : ∀ {i : Nat} {m : Message} {rest : List Message},
          s.Ch i = m :: rest → x ≠ i := by
        intro i m rest hch e
        rw [← e, h1] at hch; cases hch
      have hsend : ∀ {i : Nat} {m : Message} {b : Bool}, s.pc i = .sending m b →
          x ≠ i ∧ x ≠ r.nbr i := by
        intro i m b hpc
        refine ⟨fun e => ?_, fun e => hno i (hlt i (by rw [hpc]; simp)) e.symm⟩
        rw [← e] at hpc
        rcases h2 with h | h <;> rw [h] at hpc <;> cases hpc
      cases Step.of_step hstep with
      | mainAdd hm => exact ⟨h1, h2⟩
      | mainExit i hm hi => exact ⟨h1, h2⟩
      | mainWait hm hw => exact ⟨h1, h2⟩
      | mainSpawn i hm hi =>
        refine ⟨h1, ?_⟩
        rcases eq_or_ne x i with rfl | hxi
        · exact Or.inr (by simp)
        · simpa [Function.update_noteq hxi] using h2
      | mainSend i hm hc =>
        have hiN : i < r.N := by
          have := hsp.2.1; simp [spawnCount, hm] at this; omega
        have hxi : x ≠ r.nbr i := fun e => hno i hiN e.symm
        exact ⟨by simpa [Function.update_noteq hxi] using h1, h2⟩
      | recvOwn i u rest hpc hch hu =>
        have hxi := hrecv hch
        exact ⟨by simpa [Function.update_noteq hxi] using h1,
          by simpa [Function.update_noteq hxi] using h2⟩
      | recvFwd i u rest hpc hch hu =>
        have hxi := hrecv hch
        exact ⟨by simpa [Function.update_noteq hxi] using h1,
          by simpa [Function.update_noteq hxi] using h2⟩
      | recvDrop i u rest hpc hch hu =>
        have hxi := hrecv hch
        exact ⟨by simpa [Function.update_noteq hxi] using h1, h2⟩
      | recvLeaderFwd i u rest hpc hch hu =>
        have hxi := hrecv hch
        exact ⟨by simpa [Function.update_noteq hxi] using h1,
          by simpa [Function.update_noteq hxi] using h2⟩
      | recvLeaderOwn i u rest hpc hch hu =>
        have hxi := hrecv hch
        exact ⟨by simpa [Function.update_noteq hxi] using h1,
          by simpa [Function.update_noteq hxi] using h2⟩
      | sendCont i m hpc hc =>
        obtain ⟨hxi, hxn⟩ := hsend hpc
        exact ⟨by simpa [Function.update_noteq hxn] using h1,
          by simpa [Function.update_noteq hxi] using h2⟩
      | sendHalt i m hpc hc =>
        obtain ⟨hxi, hxn⟩ := hsend hpc
        exact ⟨by simpa [Function.update_noteq hxn] using h1,
          by simpa [Function.update_noteq hxi] using h2⟩
  have hnh : s.pc x ≠ .halted := by
    rcases key.2 with h | h <;> rw [h] <;> simp
  exact ⟨key.1, hnh, fun hall => hnh (hall x hx),
    fun hm => hnh ((returned_allHalted hr hm).2 x hx)⟩

/-- Witness for C19 as amended: on `ringTail` the node at position 0 is
nobody's neighbor and has received nothing after all the initial sends. -/
theorem C19_hang_witness :
    stateTail.main = .wait ∧ stateTail.Ch 0 = [] ∧ stateTail.pc 0 ≠ .halted ∧
      ¬ AllHalted ringTail stateTail ∧ stateTail.main ≠ .returned :=
  ⟨by decide,
    C19_hang ringTail 0 (by decide) (by decide) stateTail (reachable_run schedTail (by decide))⟩

/-- Counterexample to C19 as stated: on `ringTwoCycles` (distinct UIDs, every
neighbor in the ring, links not a single cycle) a run ends with all four nodes
halted and `ElectLeader` returned; `Ring.Leader` is then the node holding 2. -/
theorem C19_counterexample :
    2 ≤ ringTwoCycles.N ∧ DistinctUIDs ringTwoCycles ∧
      (∀ i, i < ringTwoCycles.N → ringTwoCycles.nbr i < ringTwoCycles.N) ∧
      ¬ SingleCycle ringTwoCycles ∧
      Reachable ringTwoCycles finalTwoCycles ∧ AllHalted ringTwoCycles finalTwoCycles ∧
      finalTwoCycles.main = .returned ∧ finalTwoCycles.Leader = some 1 :=
  ⟨by decide, by decide, by decide, by decide, reachable_run schedTwoCycles (by decide),
    by decide, by decide, by decide⟩

/-! ## Messages in flight and the capacity of the channels -/

@[simp]
theorem sendingInd_halted : sendingInd .halted = 0 := rfl
@[simp]
theorem sendingInd_receiving : sendingInd .receiving = 0 := rfl
@[simp]
theorem sendingInd_notStarted : sendingInd .notStarted = 0 := rfl
@[simp]
theorem sendingInd_sending (m : Message) (h : Bool) : sendingInd (.sending m h) = 1 := rfl

theorem chTotal_update {r : Ring} {s : State} {j : Nat} (hj : j < r.N) (v : List Message) :
    (∑ i in Finset.range r.N, (Function.update s.Ch j v i).length) + (s.Ch j).length
      = chTotal r s + v.length :=
  sum_update_range r.N s.Ch List.length hj v

theorem sendingCount_update {r : Ring} {s : State} {j : Nat} (hj : j < r.N) (v : NodePC) :
    (∑ i in Finset.range r.N, sendingInd (Function.update s.pc j v i)) + sendingInd (s.pc j)
      = sendingCount r s + sendingInd v :=
  sum_update_range r.N s.pc sendingInd hj v

/-- The halting indicator of the leader is untouched by an update of another
node, or by one between two states that are not halted. -/
theorem haltedAt_update {pc : Nat → NodePC} {i : Nat} {v : NodePC} {L : Option Nat}
    (h : ∀ o, L = some o → o = i → haltedInd v = haltedInd (pc i)) :
    haltedAt (Function.update pc i v) L = haltedAt pc L := by
  cases L with
  | none => rfl
  | some o =>
    rcases eq_or_ne o i with rfl | hoi
    · simp [haltedAt, h o rfl rfl]
    · simp [haltedAt, Function.update_noteq hoi]

theorem Flight.stepF {r : Ring} {s t : State} (hd : DistinctUIDs r) (hc : SingleCycle r)
    (inv : InvA r s) (invB : InvB r s) (hf : Flight r s) (h : Step r s t) : Flight r t := by
  unfold Flight at hf ⊢
  cases h with
  | mainAdd hm => simpa [chTotal, sendingCount, leaderHalted, sentInit, hm] using hf
  | mainExit i hm hi =>
    have h2 := inv.spawn_le
    simp [spawnCount, hm] at h2
    have h3 : i = r.N := by omega
    subst h3
    simpa [chTotal, sendingCount, leaderHalted, sentInit, hm] using hf
  | mainWait hm hw => simpa [chTotal, sendingCount, leaderHalted, sentInit, hm] using hf
  | mainSpawn i hm hi =>
    have h1 := sendingCount_update (s := s) hi .receiving
    have h2 : haltedAt (Function.update s.pc i .receiving) s.Leader = haltedAt s.pc s.Leader :=
      haltedAt_update (fun _ _ _ => by simp [inv.pc_of_loop_false hm])
    simp only [inv.pc_of_loop_false hm, sendingInd_notStarted, sendingInd_receiving] at h1
    simp only [leaderHalted] at hf ⊢
    rw [h2]
    simp only [sentInit, hm, chTotal] at hf ⊢
    simp only [sendingCount]
    omega
  | mainSend i hm hcap =>
    have hiN : i < r.N := by
      have := inv.spawn_le; simp [spawnCount, hm] at this; omega
    have h1 := chTotal_update (s := s) (hc.1 i hiN) (s.Ch (r.nbr i) ++ [pMsg (r.uid i)])
    simp only [List.length_append, List.length_singleton] at h1
    simp only [sentInit, hm, sendingCount, leaderHalted] at hf ⊢
    simp only [chTotal]
    simp only [List.countP_cons, Event.isDropped] at hf ⊢
    simp at hf ⊢
    omega
  | recvOwn i u rest hpc hch hu =>
    subst hu
    have hiN : i < r.N := inv.lt_of_started (by rw [hpc]; simp)
    have hn := leader_none_of_own hd hc inv invB hpc hch
    have h1 := chTotal_update (s := s) hiN rest
    have h2 := sendingCount_update (s := s) hiN (.sending (lMsg (r.uid i)) false)
    rw [hch] at h1
    simp only [List.length_cons] at h1
    simp only [hpc, sendingInd_receiving, sendingInd_sending] at h2
    simp only [sentInit, leaderHalted, haltedAt, hn] at hf ⊢
    simp only [chTotal, sendingCount]
    simp at hf ⊢
    omega
  | recvFwd i u rest hpc hch hu =>
    have hiN : i < r.N := inv.lt_of_started (by rw [hpc]; simp)
    have h1 := chTotal_update (s := s) hiN rest
    have h2 := sendingCount_update (s := s) hiN (.sending (pMsg u) false)
    have h3 : haltedAt (Function.update s.pc i (.sending (pMsg u) false)) s.Leader = haltedAt s.pc s.Leader :=
      haltedAt_update (fun _ _ _ => by simp [hpc])
    rw [hch] at h1
    simp only [List.length_cons] at h1
    simp only [hpc, sendingInd_receiving, sendingInd_sending] at h2
    simp only [leaderHalted] at hf ⊢
    rw [h3]
    simp only [sentInit] at hf ⊢
    simp only [chTotal, sendingCount]
    simp at hf ⊢
    omega
  | recvDrop i u rest hpc hch hu =>
    have hiN : i < r.N := inv.lt_of_started (by rw [hpc]; simp)
    have h1 := chTotal_update (s := s) hiN rest
    rw [hch] at h1
    simp only [List.length_cons] at h1
    simp only [sentInit, sendingCount, leaderHalted] at hf ⊢
    simp only [chTotal]
    simp at hf ⊢
    omega
  | recvLeaderFwd i u rest hpc hch hu =>
    have hiN : i < r.N := inv.lt_of_started (by rw [hpc]; simp)
    have h1 := chTotal_update (s := s) hiN rest
    have h2 := sendingCount_update (s := s) hiN (.sending (lMsg u) true)
    have h3 : haltedAt (Function.update s.pc i (.sending (lMsg u) true)) s.Leader = haltedAt s.pc s.Leader :=
      haltedAt_update (fun _ _ _ => by simp [hpc])
    rw [hch] at h1
    simp only [List.length_cons] at h1
    simp only [hpc, sendingInd_receiving, sendingInd_sending] at h2
    simp only [leaderHalted] at hf ⊢
    rw [h3]
    simp only [sentInit] at hf ⊢
    simp only [chTotal, sendingCount]
    simp at hf ⊢
    omega
  | recvLeaderOwn i u rest hpc hch hu =>
    subst hu
    have hiN : i < r.N := inv.lt_of_started (by rw [hpc]; simp)
    have hl := inv.leader_of_own hd hpc hch
    have h1 := chTotal_update (s := s) hiN rest
    have h2 := sendingCount_update (s := s) hiN .halted
    rw [hch] at h1
    simp only [List.length_cons] at h1
    simp only [hpc, sendingInd_receiving, sendingInd_halted] at h2
    simp only [sentInit, leaderHalted, haltedAt, hl, hpc, haltedInd_receiving] at hf ⊢
    simp only [chTotal, sendingCount]
    simp at hf ⊢
    omega
  | sendCont i m hpc hcap =>
    have hiN : i < r.N := inv.lt_of_started (by rw [hpc]; simp)
    have h1 := chTotal_update (s := s) (hc.1 i hiN) (s.Ch (r.nbr i) ++ [m])
    have h2 := sendingCount_update (s := s) hiN .receiving
    have h3 : haltedAt (Function.update s.pc i .receiving) s.Leader = haltedAt s.pc s.Leader :=
      haltedAt_update (fun _ _ _ => by simp [hpc])
    simp only [List.length_append, List.length_singleton] at h1
    simp only [hpc, sendingInd_receiving, sendingInd_sending] at h2
    simp only [leaderHalted] at hf ⊢
    rw [h3]
    simp only [sentInit] at hf ⊢
    simp only [chTotal, sendingCount]
    simp at hf ⊢
    omega
  | sendHalt i m hpc hcap =>
    have hiN : i < r.N := inv.lt_of_started (by rw [hpc]; simp)
    obtain ⟨-, o, ho, -, hio⟩ := inv.sending_true hpc
    have h1 := chTotal_update (s := s) (hc.1 i hiN) (s.Ch (r.nbr i) ++ [m])
    have h2 := sendingCount_update (s := s) hiN .halted
    have h3 : haltedAt (Function.update s.pc i .halted) s.Leader = haltedAt s.pc s.Leader :=
      haltedAt_update (fun o1 h1 h2 => by
        rw [ho] at h1; cases h1; exact absurd h2.symm hio)
    simp only [List.length_append, List.length_singleton] at h1
    simp only [hpc, sendingInd_halted, sendingInd_sending] at h2
    simp only [leaderHalted] at hf ⊢
    rw [h3]
    simp only [sentInit] at hf ⊢
    simp only [chTotal, sendingCount]
    simp at hf ⊢
    omega

/-- The count of messages in flight holds in every reachable state. -/
theorem flight_reachable {r : Ring} {s : State} (hd : DistinctUIDs r) (hc : SingleCycle r)
    (h : Reachable r s) : Flight r s := by
  induction h with
  | init => simp [Flight, State.init, chTotal, sendingCount, leaderHalted, haltedAt, sentInit]
  | step a hs hstep ih =>
    obtain ⟨inv, invB⟩ := inv_of_reachable hd hc hs
    exact ih.stepF hd hc inv invB (Step.of_step hstep)

/-- C16: in every reachable state the channel of each node holds at most `N`
messages (all channels together do); and for `N <= 10` no send finds its channel
full: the initial send that `ElectLeader` is about to do and the send that a
node is about to do are both enabled. -/
theorem C16_mailbox_bound (r : Ring) (hd : DistinctUIDs r) (hc : SingleCycle r) (s : State)
    (hr : Reachable r s) :
    chTotal r s ≤ r.N ∧
    (∀ j, j < r.N → (s.Ch j).length ≤ r.N) ∧
    (r.N ≤ 10 →
      (∀ i, s.main = .loop i true →
        (s.Ch (r.nbr i)).length < ChanCap ∧ (step r s .mainSend).isSome = true) ∧
      (∀ i m h, s.pc i = .sending m h →
        (s.Ch (r.nbr i)).length < ChanCap ∧ (step r s (.send i)).isSome = true)) := by
  obtain ⟨inv, invB⟩ := inv_of_reachable hd hc hr
  have hf := flight_reachable hd hc hr
  unfold Flight at hf
  have hsN : sentInit r s ≤ r.N := le_trans inv.sent_le inv.spawn_le
  have hle : ∀ j, j < r.N → (s.Ch j).length ≤ chTotal r s := by
    intro j hj
    exact Finset.single_le_sum (f := fun j => (s.Ch j).length) (fun _ _ => Nat.zero_le _)
      (Finset.mem_range.mpr hj)
  refine ⟨by omega, fun j hj => le_trans (hle j hj) (by omega), ?_⟩
  intro hN
  constructor
  · intro i hm
    have hiN : i < r.N := by
      have := inv.spawn_le; simp [spawnCount, hm] at this; omega
    have h1 := hle (r.nbr i) (hc.1 i hiN)
    have h2 : sentInit r s = i := by simp [sentInit, hm]
    have h3 : (s.Ch (r.nbr i)).length < ChanCap := by simp only [ChanCap]; omega
    exact ⟨h3, by simp [step, hm, Send, h3]⟩
  · intro i m h hpc
    have hiN : i < r.N := inv.lt_of_started (by rw [hpc]; simp)
    have h1 := hle (r.nbr i) (hc.1 i hiN)
    have h2 : 1 ≤ sendingCount r s := by
      have := Finset.single_le_sum (f := fun p => sendingInd (s.pc p))
        (fun _ _ => Nat.zero_le _) (Finset.mem_range.mpr hiN)
      simp only [hpc, sendingInd_sending] at this
      exact this
    have h3 : (s.Ch (r.nbr i)).length < ChanCap := by simp only [ChanCap]; omega
    exact ⟨h3, by cases h <;> simp [step, hpc, Send, h3]⟩

/-- Witness for C16: at the end of the run on `5 -> 3 -> 8 -> 1 -> 5` in which
a message is left over, the channels hold one message. -/
theorem C16_mailbox_bound_witness :
    chTotal ring5381 lateFinal5381 = 1 ∧ chTotal ring5381 lateFinal5381 ≤ ring5381.N :=
  ⟨by decide,
    (C16_mailbox_bound ring5381 (by decide) (by decide) lateFinal5381
      (reachable_run lateSched5381 (by decide))).1⟩

/-! ## Deadlock on a ring of twelve nodes -/

/-- In a reachable state, if no action of `ElectLeader` and no action of a node
of the ring is enabled, then no action at all is. -/
theorem noMove_sound {r : Ring} {s : State} (hr : Reachable r s) (h : noMove r s = true) :
    ∀ a, step r s a = none := by
  simp only [noMove, Bool.and_eq_true, List.all_eq_true, List.mem_range] at h
  obtain ⟨h1, h2⟩ := h
  have hsp := spawn_of_reachable hr
  have hout : ∀ i, r.N ≤ i → s.pc i = .notStarted := by
    intro i hi
    by_contra hc
    have := (hsp.1 i).mp hc
    omega
  intro a
  cases a with
  | mainAdd => exact Option.isNone_iff_eq_none.mp (h1 _ (by simp))
  | mainSpawn => exact Option.isNone_iff_eq_none.mp (h1 _ (by simp))
  | mainSend => exact Option.isNone_iff_eq_none.mp (h1 _ (by simp))
  | mainExit => exact Option.isNone_iff_eq_none.mp (h1 _ (by simp))
  | mainWait => exact Option.isNone_iff_eq_none.mp (h1 _ (by simp))
  | recv i =>
    rcases Nat.lt_or_ge i r.N with hi | hi
    · exact Option.isNone_iff_eq_none.mp (h2 i hi).1
    · simp [step, hout i hi]
  | send i =>
    rcases Nat.lt_or_ge i r.N with hi | hi
    · exact Option.isNone_iff_eq_none.mp (h2 i hi).2
    · simp [step, hout i hi]

set_option maxRecDepth 100000 in
/-- C15 fails for `N = 12`: `NewRing(12)` on the draws 11, 10, ..., 0 builds
`ringDec12`, and a run of `ElectLeader` on it reaches a state in which no node
has halted, `ElectLeader` is blocked in its initial send of iteration 10 (the
channel of the last node holds 10 messages and its goroutine is not started)
and no actor can take a step. -/
theorem C15_deadlock_at_12 :
    NewRing 12 [11, 10, 9, 8, 7, 6, 5, 4, 3, 2, 1, 0] = some ringDec12 ∧
      Reachable ringDec12 dead12 ∧
      dead12.main = .loop 10 true ∧ (dead12.Ch 11).length = ChanCap ∧
      dead12.pc 11 = .notStarted ∧
      (∀ i, i < ringDec12.N → dead12.pc i ≠ .halted) ∧
      ∀ a, step ringDec12 dead12 a = none := by
  have hr : Reachable ringDec12 dead12 := reachable_run schedDec12 (by decide)
  exact ⟨by decide, hr, by decide, by decide, by decide, by decide,
    noMove_sound hr (by decide)⟩

/-! ## The fourth invariant is inductive -/

theorem chSum_pos_of_mem {r : Ring} {s : State} {m : Message} {j : Nat} (hj : j < r.N)
    (h : m ∈ s.Ch j) : 1 ≤ chSum r s m := by
  have h1 : 1 ≤ (s.Ch j).count m := List.count_pos_iff.mpr h
  have h2 := Finset.single_le_sum (f := fun j => (s.Ch j).count m)
    (fun _ _ => Nat.zero_le _) (Finset.mem_range.mpr hj)
  exact le_trans h1 h2

theorem pcSum_pos_of_holds {r : Ring} {s : State} {m : Message} {p : Nat} {h : Bool}
    (hp : p < r.N) (hpc : s.pc p = .sending m h) : 1 ≤ pcSum r s m := by
  have h2 := Finset.single_le_sum (f := fun p => holds m (s.pc p))
    (fun _ _ => Nat.zero_le _) (Finset.mem_range.mpr hp)
  simp only [hpc, holds_sending, if_true] at h2
  exact h2

theorem pcSum_two_of_holds {r : Ring} {s : State} {m : Message} {p q : Nat} {h1 h2 : Bool}
    (hp : p < r.N) (hq : q < r.N) (hne : p ≠ q) (hpc : s.pc p = .sending m h1)
    (hqc : s.pc q = .sending m h2) : 2 ≤ pcSum r s m := by
  have hsub : ({p, q} : Finset Nat) ⊆ Finset.range r.N := by
    intro x hx
    simp only [Finset.mem_insert, Finset.mem_singleton] at hx
    rcases hx with rfl | rfl <;> simpa using ‹_›
  have := Finset.sum_le_sum_of_subset (f := fun p => holds m (s.pc p)) hsub
  rw [Finset.sum_pair hne] at this
  simp only [hpc, hqc, holds_sending, if_true] at this
  exact this

/-- What the second invariant says of a candidacy that is in a channel. -/
theorem InvB.of_mem {r : Ring} {s : State} (invB : InvB r s) {o j : Nat} (ho : o < r.N)
    (hj : j < r.N) (h : pMsg (r.uid o) ∈ s.Ch j) :
    pcSum r s (pMsg (r.uid o)) = 0 ∧ pendingInit r s o = 0 ∧
      s.hist.count (.setLeader o) = 0 ∧
      s.hist.countP (Event.isDropOf (pMsg (r.uid o))) = 0 := by
  have h1 := invB.tok o ho
  have h2 := chSum_pos_of_mem hj h
  omega

/-- What the second invariant says of a candidacy that a node is sending. -/
theorem InvB.of_holds {r : Ring} {s : State} (invB : InvB r s) {o p : Nat} {h : Bool}
    (ho : o < r.N) (hp : p < r.N) (hpc : s.pc p = .sending (pMsg (r.uid o)) h) :
    chSum r s (pMsg (r.uid o)) = 0 ∧ pcSum r s (pMsg (r.uid o)) = 1 ∧
      pendingInit r s o = 0 ∧ s.hist.count (.setLeader o) = 0 ∧
      s.hist.countP (Event.isDropOf (pMsg (r.uid o))) = 0 := by
  have h1 := invB.tok o ho
  have h2 := pcSum_pos_of_holds hp hpc
  omega

theorem not_mem_of_chSum {r : Ring} {s : State} {m : Message} (h : chSum r s m = 0)
    {j : Nat} (hj : j < r.N) : m ∉ s.Ch j := by
  intro hm
  have := chSum_pos_of_mem hj hm
  omega

theorem not_holds_of_pcSum {r : Ring} {s : State} {m : Message} (h : pcSum r s m = 0)
    {p : Nat} (hp : p < r.N) (b : Bool) : s.pc p ≠ .sending m b := by
  intro hm
  have := pcSum_pos_of_holds hp hm
  omega

theorem InvD.initD (r : Ring) : InvD r State.init where
  pend := by intro o _ _; simp [sendsOf, State.init, sentInit]
  at_ch := by intro o _ j _ h; simp [State.init] at h
  at_pc := by intro o _ p h hp; simp [State.init] at hp
  trav := by intro o _; simp [sendsOf, State.init, sentInit]
  drop_at := by intro o _ h; simp [State.init] at h
  lead_at := by intro o _ h; simp [State.init] at h
  psend := by intro i m h hm; simp [State.init] at hm

/-- A transition that changes no send count keeps the fourth invariant,
provided that what is new in the channels, the program counters and the
history comes from where the invariant expects it. -/
theorem InvD.of_same {r : Ring} {s t : State} (hc : SingleCycle r) (invD : InvD r s)
    (hs : ∀ o, sendsOf r t o = sendsOf r s o) (hsent : sentInit r t = sentInit r s)
    (hch : ∀ o, o < r.N → ∀ j, j < r.N → pMsg (r.uid o) ∈ t.Ch j → pMsg (r.uid o) ∈ s.Ch j)
    (hpc : ∀ o, o < r.N → ∀ p h, t.pc p = .sending (pMsg (r.uid o)) h →
      s.pc p = .sending (pMsg (r.uid o)) h ∨ (p < r.N ∧ pMsg (r.uid o) ∈ s.Ch p))
    (hdrop : ∀ o, o < r.N → 0 < t.hist.countP (Event.isDropOf (pMsg (r.uid o))) →
      0 < s.hist.countP (Event.isDropOf (pMsg (r.uid o))) ∨
        ∃ i, i < r.N ∧ pMsg (r.uid o) ∈ s.Ch i ∧ r.uid o < r.uid i)
    (hlead : ∀ o, o < r.N → 0 < t.hist.count (.setLeader o) →
      0 < s.hist.count (.setLeader o) ∨ pMsg (r.uid o) ∈ s.Ch o)
    (hps : ∀ i m h, Event.nodeSend i m h ∈ t.hist → Event.nodeSend i m h ∈ s.hist ∨
      (m.MsgType = .Participate → ∃ o, o < r.N ∧ m = pMsg (r.uid o))) :
    InvD r t where
  pend := by
    intro o ho h
    rw [hs, invD.pend o ho (by rw [← hsent]; exact h)]
  at_ch := by
    intro o ho j hj h
    rw [hs]
    exact invD.at_ch o ho j hj (hch o ho j hj h)
  at_pc := by
    intro o ho p h hp
    rw [hs]
    rcases hpc o ho p h hp with h1 | ⟨hpN, h1⟩
    · exact invD.at_pc o ho p h h1
    · exact invD.at_ch o ho p hpN h1
  trav := by
    intro o ho
    rw [hs]
    exact invD.trav o ho
  drop_at := by
    intro o ho h
    rw [hs]
    rcases hdrop o ho h with h1 | ⟨i, hi, hmem, hlt⟩
    · exact invD.drop_at o ho h1
    · obtain ⟨e, hpos⟩ := invD.at_ch o ho i hi hmem
      rw [e]
      exact ⟨hlt, hpos⟩
  lead_at := by
    intro o ho h
    rw [hs]
    rcases hlead o ho h with h1 | hmem
    · exact invD.lead_at o ho h1
    · obtain ⟨e, hpos⟩ := invD.at_ch o ho o ho hmem
      exact cycle_len hc ho hpos (invD.trav o ho).1 e
  psend := by
    intro i m h hm hty
    rcases hps i m h hm with h1 | h1
    · exact invD.psend i m h h1 hty
    · exact h1 hty

/-- A transition that is one more send of the candidacy of node `c`, which is
neither in a channel nor dropped nor turned into leadership, keeps the fourth
invariant, provided the candidacy lands one link further. -/
theorem InvD.of_bump {r : Ring} {s t : State} (invD : InvD r s) {c : Nat}
    (hs : ∀ o, o < r.N → sendsOf r t o = sendsOf r s o + if o = c then 1 else 0)
    (hfree : chSum r s (pMsg (r.uid c)) = 0 ∧ s.hist.count (.setLeader c) = 0 ∧
      s.hist.countP (Event.isDropOf (pMsg (r.uid c))) = 0)
    (hpend : ∀ o, o < r.N → sentInit r t ≤ o → sentInit r s ≤ o ∧ o ≠ c)
    (hch : ∀ o, o < r.N → ∀ j, j < r.N → pMsg (r.uid o) ∈ t.Ch j →
      pMsg (r.uid o) ∈ s.Ch j ∨ (o = c ∧ r.nbr^[sendsOf r s c + 1] c = j))
    (hpc : ∀ o, o < r.N → ∀ p h, t.pc p = .sending (pMsg (r.uid o)) h →
      s.pc p = .sending (pMsg (r.uid o)) h ∧ o ≠ c)
    (htrav : sendsOf r s c + 1 ≤ r.N ∧
      (0 < sendsOf r s c → r.uid (r.nbr^[sendsOf r s c] c) < r.uid c))
    (hdrop : ∀ o, t.hist.countP (Event.isDropOf (pMsg (r.uid o)))
      = s.hist.countP (Event.isDropOf (pMsg (r.uid o))))
    (hlead : ∀ o, t.hist.count (.setLeader o) = s.hist.count (.setLeader o))
    (hps : ∀ i m h, Event.nodeSend i m h ∈ t.hist → Event.nodeSend i m h ∈ s.hist ∨
      (m.MsgType = .Participate → ∃ o, o < r.N ∧ m = pMsg (r.uid o))) :
    InvD r t where
  pend := by
    intro o ho h
    obtain ⟨h1, h2⟩ := hpend o ho h
    rw [hs o ho, if_neg h2, invD.pend o ho h1]
  at_ch := by
    intro o ho j hj h
    rcases hch o ho j hj h with h1 | ⟨rfl, h1⟩
    · have hoc : o ≠ c := by
        rintro rfl
        exact not_mem_of_chSum hfree.1 hj h1
      rw [hs o ho, if_neg hoc]
      exact invD.at_ch o ho j hj h1
    · rw [hs o ho, if_pos rfl]
      exact ⟨h1, Nat.succ_pos _⟩
  at_pc := by
    intro o ho p h hp
    obtain ⟨h1, h2⟩ := hpc o ho p h hp
    rw [hs o ho, if_neg h2]
    exact invD.at_pc o ho p h h1
  trav := by
    intro o ho
    rw [hs o ho]
    by_cases hoc : o = c
    · subst hoc
      rw [if_pos rfl]
      refine ⟨htrav.1, fun k h0 hk => ?_⟩
      by_cases hkd : k = sendsOf r s o
      · rw [hkd]; exact htrav.2 (by omega)
      · exact (invD.trav o ho).2 k h0 (by omega)
    · rw [if_neg hoc]
      exact invD.trav o ho
  drop_at := by
    intro o ho h
    rw [hdrop] at h
    have hoc : o ≠ c := by
      rintro rfl
      omega
    rw [hs o ho, if_neg hoc]
    exact invD.drop_at o ho h
  lead_at := by
    intro o ho h
    rw [hlead] at h
    have hoc : o ≠ c := by
      rintro rfl
      omega
    rw [hs o ho, if_neg hoc]
    exact invD.lead_at o ho h
  psend := by
    intro i m h hm hty
    rcases hps i m h hm with h1 | h1
    · exact invD.psend i m h h1 hty
    · exact h1 hty

theorem InvD.stepD {r : Ring} {s t : State} (hd : DistinctUIDs r) (hc : SingleCycle r)
    (inv : InvA r s) (invB : InvB r s) (invD : InvD r s) (h : Step r s t) : InvD r t := by
  cases h with
  | mainAdd hm =>
    exact invD.of_same hc (fun o => by simp [sendsOf, sentInit, hm])
      (by simp [sentInit, hm]) (fun _ _ _ _ h => h) (fun _ _ _ _ h => Or.inl h)
      (fun _ _ h => Or.inl h) (fun _ _ h => Or.inl h) (fun _ _ _ h => Or.inl h)
  | mainExit i hm hi =>
    have h2 := inv.spawn_le
    simp [spawnCount, hm] at h2
    have h3 : i = r.N := by omega
    subst h3
    exact invD.of_same hc (fun o => by simp [sendsOf, sentInit, hm])
      (by simp [sentInit, hm]) (fun _ _ _ _ h => h) (fun _ _ _ _ h => Or.inl h)
      (fun _ _ h => Or.inl h) (fun _ _ h => Or.inl h) (fun _ _ _ h => Or.inl h)
  | mainWait hm hw =>
    exact invD.of_same hc (fun o => by simp [sendsOf, sentInit, hm])
      (by simp [sentInit, hm]) (fun _ _ _ _ h => h) (fun _ _ _ _ h => Or.inl h)
      (fun _ _ h => Or.inl h) (fun _ _ h => Or.inl h) (fun _ _ _ h => Or.inl h)
  | mainSpawn i hm hi =>
    refine invD.of_same hc (fun o => by simp [sendsOf, sentInit, hm])
      (by simp [sentInit, hm]) (fun _ _ _ _ h => h) ?_
      (fun _ _ h => Or.inl h) (fun _ _ h => Or.inl h) (fun _ _ _ h => Or.inl h)
    intro o _ p h hp
    rcases pc_update_eq hp with ⟨_, e⟩ | ⟨_, e⟩
    · cases e
    · exact Or.inl e
  | recvOwn i u rest hpc hch hu =>
    subst hu
    refine invD.of_same hc (fun o => by simp [sendsOf, sentInit]) rfl
      (fun _ _ _ _ h => mem_update_tail hch h) ?_ (fun _ _ h => Or.inl (by simpa using h)) ?_
      (fun _ _ _ h => Or.inl (by simpa using h))
    · intro o _ p h hp
      rcases pc_update_eq hp with ⟨_, e⟩ | ⟨_, e⟩
      · simp at e
      · exact Or.inl e
    · intro o ho h
      rcases eq_or_ne i o with rfl | hio
      · exact Or.inr (by rw [hch]; exact List.mem_cons_self _ _)
      · exact Or.inl (by simpa [List.count_cons, hio] using h)
  | recvFwd i u rest hpc hch hu =>
    have hiN : i < r.N := inv.lt_of_started (by rw [hpc]; simp)
    refine invD.of_same hc (fun o => by simp [sendsOf, sentInit]) rfl
      (fun _ _ _ _ h => mem_update_tail hch h) ?_ (fun _ _ h => Or.inl (by simpa using h))
      (fun _ _ h => Or.inl (by simpa [List.count_cons] using h))
      (fun _ _ _ h => Or.inl (by simpa using h))
    intro o _ p h hp
    rcases pc_update_eq hp with ⟨rfl, e⟩ | ⟨_, e⟩
    · cases e
      exact Or.inr ⟨hiN, by rw [hch]; exact List.mem_cons_self _ _⟩
    · exact Or.inl e
  | recvDrop i u rest hpc hch hu =>
    have hiN : i < r.N := inv.lt_of_started (by rw [hpc]; simp)
    refine invD.of_same hc (fun o => by simp [sendsOf, sentInit]) rfl
      (fun _ _ _ _ h => mem_update_tail hch h) (fun _ _ _ _ h => Or.inl h) ?_
      (fun _ _ h => Or.inl (by simpa [List.count_cons] using h))
      (fun _ _ _ h => Or.inl (by simpa using h))
    intro o ho h
    by_cases hu2 : pMsg u = pMsg (r.uid o)
    · refine Or.inr ⟨i, hiN, by rw [hch, hu2]; exact List.mem_cons_self _ _, ?_⟩
      have : u = r.uid o := by simpa using hu2
      rw [← this]; exact hu
    · exact Or.inl (by simpa [List.countP_cons, hu2] using h)
  | recvLeaderFwd i u rest hpc hch hu =>
    refine invD.of_same hc (fun o => by simp [sendsOf, sentInit]) rfl
      (fun _ _ _ _ h => mem_update_tail hch h) ?_ (fun _ _ h => Or.inl (by simpa using h))
      (fun _ _ h => Or.inl (by simpa [List.count_cons] using h))
      (fun _ _ _ h => Or.inl (by simpa using h))
    intro o _ p h hp
    rcases pc_update_eq hp with ⟨_, e⟩ | ⟨_, e⟩
    · simp at e
    · exact Or.inl e
  | recvLeaderOwn i u rest hpc hch hu =>
    refine invD.of_same hc (fun o => by simp [sendsOf, sentInit]) rfl
      (fun _ _ _ _ h => mem_update_tail hch h) ?_ (fun _ _ h => Or.inl (by simpa using h))
      (fun _ _ h => Or.inl (by simpa [List.count_cons] using h))
      (fun _ _ _ h => Or.inl (by simpa using h))
    intro o _ p h hp
    rcases pc_update_eq hp with ⟨_, e⟩ | ⟨_, e⟩
    · cases e
    · exact Or.inl e
  | mainSend i hm hcap =>
    have hiN : i < r.N := by
      have := inv.spawn_le; simp [spawnCount, hm] at this; omega
    have h0 : sendsOf r s i = 0 := invD.pend i hiN (by simp [sentInit, hm])
    have hcnt : s.hist.countP (Event.isSendOf (pMsg (r.uid i))) = 0 := by
      simp only [sendsOf] at h0; omega
    have htok := invB.tok i hiN
    have hp1 : pendingInit r s i = 1 := by simp [pendingInit, sentInit, hm]
    refine invD.of_bump (c := i) ?_ ⟨by omega, by omega, by omega⟩ ?_ ?_ ?_ ?_
      (fun o => by simp [List.countP_cons]) (fun o => by simp [List.count_cons])
      (fun _ _ _ h => Or.inl (by simpa using h))
    · intro o ho
      simp only [sendsOf, sentInit, hm, List.countP_cons, Event.isSendOf]
      by_cases hoi : o = i
      · subst hoi; simp; omega
      · have e : (o < i + 1) = (o < i) := by apply propext; omega
        simp [hoi, e]
    · intro o ho h
      simp only [sentInit, hm] at h ⊢
      exact ⟨by omega, by omega⟩
    · intro o ho j hj h
      rcases mem_update_append h with h1 | ⟨rfl, e⟩
      · exact Or.inl h1
      · have hoi := (pMsg_eq_iff hd ho hiN).mp e
        subst hoi
        exact Or.inr ⟨rfl, by rw [h0]; rfl⟩
    · intro o ho p h hp
      refine ⟨hp, ?_⟩
      rintro rfl
      exact not_holds_of_pcSum (s := s) (by omega) (inv.lt_of_started (by rw [hp]; simp)) h hp
    · rw [h0]
      exact ⟨by omega, fun h => absurd h (lt_irrefl _)⟩
  | sendCont i m hpc hcap =>
    have hiN : i < r.N := inv.lt_of_started (by rw [hpc]; simp)
    cases hty : m.MsgType with
    | Leader =>
      have hne : ∀ o, m ≠ pMsg (r.uid o) := fun o e => by rw [e] at hty; cases hty
      refine invD.of_same hc (fun o => by simp [sendsOf, sentInit, List.countP_cons, hne]) rfl
        ?_ ?_ (fun _ _ h => Or.inl (by simpa using h))
        (fun _ _ h => Or.inl (by simpa [List.count_cons] using h)) ?_
      · intro o _ j _ h
        rcases mem_update_append h with h1 | ⟨_, e⟩
        · exact h1
        · exact absurd e.symm (hne o)
      · intro o _ p h hp
        rcases pc_update_eq hp with ⟨_, e⟩ | ⟨_, e⟩
        · cases e
        · exact Or.inl e
      · intro k m1 h1 hmem
        simp only [List.mem_cons] at hmem
        rcases hmem with e | hmem
        · cases e
          exact Or.inr (fun h => by rw [hty] at h; cases h)
        · exact Or.inl hmem
    | Participate =>
      obtain ⟨-, hlt, c, -, hcs, hcu, -⟩ := inv.part_pc i m false hpc hty
      have hcN : c < r.N := lt_of_lt_of_le hcs (le_trans inv.sent_le inv.spawn_le)
      have hm : m = pMsg (r.uid c) := by
        cases m; simp_all
      subst hm
      obtain ⟨hch0, hpc1, hpend, hset, hdrop⟩ := invB.of_holds hcN hiN hpc
      obtain ⟨hat, hpos⟩ := invD.at_pc c hcN i false hpc
      have hdN := (invD.trav c hcN).1
      have hne : sendsOf r s c ≠ r.N := by
        intro e
        rw [e, hc.2.1 c hcN] at hat
        rw [hat] at hlt
        exact lt_irrefl _ hlt
      refine invD.of_bump (c := c) ?_ ⟨hch0, hset, hdrop⟩ ?_ ?_ ?_ ?_
        (fun o => by simp [List.countP_cons]) (fun o => by simp [List.count_cons]) ?_
      · intro o ho
        simp only [sendsOf, sentInit, List.countP_cons, Event.isSendOf]
        by_cases hoc : o = c
        · subst hoc; simp; omega
        · have : ¬ pMsg (r.uid c) = pMsg (r.uid o) := fun e =>
            hoc ((pMsg_eq_iff hd hcN ho).mp e).symm
          simp [hoc, this]
      · intro o ho h
        refine ⟨h, ?_⟩
        rintro rfl
        simp only [pendingInit] at hpend
        split_ifs at hpend with h1
        exact h1 h
      · intro o ho j hj h
        rcases mem_update_append h with h1 | ⟨rfl, e⟩
        · exact Or.inl h1
        · have hoc := (pMsg_eq_iff hd ho hcN).mp e
          subst hoc
          exact Or.inr ⟨rfl, by rw [Function.iterate_succ_apply', hat]⟩
      · intro o ho p h hp
        rcases pc_update_eq hp with ⟨_, e⟩ | ⟨hpi, e⟩
        · cases e
        · refine ⟨e, ?_⟩
          rintro rfl
          have := pcSum_two_of_holds (inv.lt_of_started (by rw [e]; simp)) hiN hpi e hpc
          omega
      · exact ⟨by omega, fun _ => by rw [hat]; exact hlt⟩
      · intro k m1 h1 hmem
        simp only [List.mem_cons] at hmem
        rcases hmem with e | hmem
        · cases e
          exact Or.inr (fun _ => ⟨c, hcN, rfl⟩)
        · exact Or.inl hmem
  | sendHalt i m hpc hcap =>
    obtain ⟨hty, -⟩ := inv.sending_true hpc
    have hne : ∀ o, m ≠ pMsg (r.uid o) := fun o e => by rw [e] at hty; cases hty
    refine invD.of_same hc (fun o => by simp [sendsOf, sentInit, List.countP_cons, hne]) rfl
      ?_ ?_ (fun _ _ h => Or.inl (by simpa using h))
      (fun _ _ h => Or.inl (by simpa [List.count_cons] using h)) ?_
    · intro o _ j _ h
      rcases mem_update_append h with h1 | ⟨_, e⟩
      · exact h1
      · exact absurd e.symm (hne o)
    · intro o _ p h hp
      rcases pc_update_eq hp with ⟨_, e⟩ | ⟨_, e⟩
      · cases e
      · exact Or.inl e
    · intro k m1 h1 hmem
      simp only [List.mem_cons] at hmem
      rcases hmem with e | e | hmem
      · cases e
      · cases e
        exact Or.inr (fun h => by rw [hty] at h; cases h)
      · exact Or.inl hmem

/-- The fourth invariant holds in every reachable state. -/
theorem InvD.reachableD {r : Ring} {s : State} (hd : DistinctUIDs r) (hc : SingleCycle r)
    (h : Reachable r s) : InvD r s := by
  induction h with
  | init => exact InvD.initD r
  | step a hs hstep ih =>
    obtain ⟨inv, invB⟩ := inv_of_reachable hd hc hs
    exact ih.stepD hd hc inv invB (Step.of_step hstep)

/-! ## The number of sends as a sum over the candidacies -/

theorem countP_isInitSend (l : List Event) :
    l.countP Event.isInitSend = (initSends l).length := by
  induction l with
  | nil => rfl
  | cons e l ih => cases e <;> simp [initSends, List.countP_cons] at ih ⊢ <;> omega

theorem sum_ite_lt {N k : Nat} (hk : k ≤ N) :
    ∑ o in Finset.range N, (if o < k then 1 else 0) = k := by
  rw [Finset.sum_boole]
  have : (Finset.range N).filter (fun o => o < k) = Finset.range k := by
    ext x
    simp only [Finset.mem_filter, Finset.mem_range]
    omega
  rw [this]
  simp

/-- The sends of a history are the initial sends, the Leader sends and the
sends of the candidacies of the nodes. -/
theorem countP_isSend_split (r : Ring) (hd : DistinctUIDs r) (l : List Event)
    (hl : ∀ i m h, Event.nodeSend i m h ∈ l → m.MsgType = .Participate →
      ∃ o, o < r.N ∧ m = pMsg (r.uid o)) :
    l.countP Event.isSend = l.countP Event.isInitSend + l.countP Event.isLeaderSend
      + ∑ o in Finset.range r.N, l.countP (Event.isSendOf (pMsg (r.uid o))) := by
  induction l with
  | nil => simp
  | cons e l ih =>
    have ih1 := ih (fun i m h hm => hl i m h (List.mem_cons_of_mem _ hm))
    cases e with
    | nodeSend j m h =>
      cases hty : m.MsgType with
      | Leader =>
        have hne : ∀ o, m ≠ pMsg (r.uid o) := fun o e => by rw [e] at hty; cases hty
        simp only [List.countP_cons, Event.isSend, Event.isInitSend, Event.isLeaderSend,
          Event.isSendOf, hty, hne, decide_True, decide_False, if_true, Bool.false_eq_true,
          if_false, add_zero]
        rw [ih1]; omega
      | Participate =>
        obtain ⟨c, hc, hm⟩ := hl j m h (List.mem_cons_self _ _) hty
        subst hm
        have hone : ∑ o in Finset.range r.N,
            (if pMsg (r.uid c) = pMsg (r.uid o) then 1 else 0) = 1 := by
          rw [Finset.sum_eq_single c]
          · simp
          · intro b hb hbc
            rw [if_neg]
            intro e
            exact hbc ((pMsg_eq_iff hd hc (Finset.mem_range.mp hb)).mp e).symm
          · intro h; exact absurd (Finset.mem_range.mpr hc) h
        simp only [List.countP_cons, Event.isSend, Event.isInitSend, Event.isLeaderSend,
          Event.isSendOf, decide_eq_true_eq, if_true, Bool.false_eq_true, if_false, add_zero]
        rw [Finset.sum_add_distrib, hone, ih1]
        simp
        omega
    | initSend i =>
      simp only [List.countP_cons, Event.isSend, Event.isInitSend, Event.isLeaderSend,
        Event.isSendOf, if_true, Bool.false_eq_true, if_false, add_zero]
      rw [ih1]; omega
    | recv i m => simpa [List.countP_cons] using ih1
    | setLeader i => simpa [List.countP_cons] using ih1
    | dropped i m => simpa [List.countP_cons] using ih1
    | done i => simpa [List.countP_cons] using ih1

theorem countP_send_kinds (l : List Event) :
    l.countP Event.isSend = l.countP Event.isParticipateSend + l.countP Event.isLeaderSend := by
  induction l with
  | nil => rfl
  | cons e l ih =>
    cases e with
    | nodeSend j m h =>
      cases hty : m.MsgType <;> simp [List.countP_cons, hty] <;> omega
    | initSend i => simp [List.countP_cons]; omega
    | recv i m => simpa [List.countP_cons] using ih
    | setLeader i => simpa [List.countP_cons] using ih
    | dropped i m => simpa [List.countP_cons] using ih
    | done i => simpa [List.countP_cons] using ih

/-- The number of sends is the number of Leader sends plus the sends of the
candidacies; the Participate sends are the sends of the candidacies. -/
theorem total_eq_sum {r : Ring} {s : State} (hd : DistinctUIDs r) (hc : SingleCycle r)
    (hr : Reachable r s) :
    s.sent
        = (∑ o in Finset.range r.N, sendsOf r s o) + s.hist.countP Event.isLeaderSend ∧
      s.hist.countP Event.isParticipateSend = ∑ o in Finset.range r.N, sendsOf r s o := by
  obtain ⟨inv, invB⟩ := inv_of_reachable hd hc hr
  have invD := InvD.reachableD hd hc hr
  have h1 := invB.total
  have h2 := countP_isSend_split r hd s.hist invD.psend
  have h3 : s.hist.countP Event.isInitSend = sentInit r s := by
    rw [countP_isInitSend, ← List.length_reverse, initSends_reachable hr, List.length_range]
  have h4 : ∑ o in Finset.range r.N, sendsOf r s o
      = sentInit r s + ∑ o in Finset.range r.N, s.hist.countP (Event.isSendOf (pMsg (r.uid o))) := by
    simp only [sendsOf]
    rw [Finset.sum_add_distrib, sum_ite_lt (le_trans inv.sent_le inv.spawn_le)]
  have h5 := countP_send_kinds s.hist
  constructor <;> omega

/-- At most `N` Leader messages are sent, and exactly `N` once all nodes have
halted. -/
theorem leaderSend_count {r : Ring} {s : State} (hd : DistinctUIDs r) (hc : SingleCycle r)
    (hr : Reachable r s) :
    s.hist.countP Event.isLeaderSend ≤ r.N ∧
      (AllHalted r s → 0 < r.N → s.hist.countP Event.isLeaderSend = r.N) := by
  obtain ⟨inv, invB⟩ := inv_of_reachable hd hc hr
  have hsum := countP_leaderSend r.N s.hist (fun i m h hm => (invB.lsend i m h hm).1)
  constructor
  · rw [hsum]
    have : ∀ i ∈ Finset.range r.N,
        s.hist.countP (Event.isLeaderFwd i) + s.hist.countP (Event.isAnnounce i) ≤ 1 := by
      intro i _
      rw [invB.fwd_by i, invB.ann_by i]
      split_ifs with h1 h2 <;> first | omega | exact absurd h2.1 h1.2
    simpa using Finset.sum_le_card_nsmul _ _ 1 this
  · intro hall hN
    rw [hsum]
    obtain ⟨o, hl⟩ : ∃ o, s.Leader = some o := by
      cases hl : s.Leader with
      | none => exact absurd hl (inv.halted 0 (hall 0 hN))
      | some o => exact ⟨o, rfl⟩
    rw [Finset.sum_congr rfl (fun i hi => by
      rw [invB.fwd_by i, invB.ann_by i, hall i (Finset.mem_range.mp hi), hl]
      by_cases hio : o = i
      · simp [hio]
      · simp [hio] : ∀ i ∈ Finset.range r.N,
        s.hist.countP (Event.isLeaderFwd i) + s.hist.countP (Event.isAnnounce i) = 1)]
    simp

/-! ## Where a candidacy stops -/

theorem StopAt.unique {r : Ring} {o d1 d2 : Nat} (h1 : StopAt r o d1) (h2 : StopAt r o d2) :
    d1 = d2 := by
  rcases Nat.lt_trichotomy d1 d2 with h | h | h
  · have := h2.2.2.1 d1 h h1.1
    have := h1.2.2.2
    omega
  · exact h
  · have := h1.2.2.1 d2 h h2.1
    have := h2.2.2.2
    omega

/-- A candidacy that is neither to be sent, nor in a channel, nor held by a
node has stopped after as many links as it was sent. -/
theorem sendsOf_stop {r : Ring} {s : State} (hc : SingleCycle r) (invB : InvB r s)
    (invD : InvD r s) {o : Nat} (ho : o < r.N) (h1 : chSum r s (pMsg (r.uid o)) = 0)
    (h2 : pcSum r s (pMsg (r.uid o)) = 0) (h3 : pendingInit r s o = 0) :
    StopAt r o (sendsOf r s o) := by
  have htok := invB.tok o ho
  have htr := invD.trav o ho
  by_cases hset : 0 < s.hist.count (.setLeader o)
  · have hN := invD.lead_at o ho hset
    rw [hN] at htr ⊢
    exact ⟨by omega, le_refl _, fun k hk h0 => htr.2 k h0 hk, by rw [hc.2.1 o ho]⟩
  · obtain ⟨hlt, hpos⟩ := invD.drop_at o ho (by omega)
    exact ⟨hpos, htr.1, fun k hk h0 => htr.2 k h0 hk, le_of_lt hlt⟩

/-! ## Bounds on the number of messages -/

theorem rank_lt {r : Ring} {o : Nat} (ho : o < r.N) : rank r o < r.N := by
  have hsub : (Finset.range r.N).filter (fun j => r.uid j < r.uid o)
      ⊆ (Finset.range r.N).erase o := by
    intro x hx
    simp only [Finset.mem_filter, Finset.mem_range] at hx
    simp only [Finset.mem_erase, Finset.mem_range]
    exact ⟨fun e => by rw [e] at hx; exact lt_irrefl _ hx.2, hx.1⟩
  have := Finset.card_le_card hsub
  rw [Finset.card_erase_of_mem (Finset.mem_range.mpr ho), Finset.card_range] at this
  unfold rank
  omega

theorem rank_strict {r : Ring} {a b : Nat} (ha : a < r.N) (h : r.uid a < r.uid b) :
    rank r a < rank r b := by
  apply Finset.card_lt_card
  rw [Finset.ssubset_iff_of_subset]
  · exact ⟨a, by simp [ha, h], by simp⟩
  · intro x hx
    simp only [Finset.mem_filter, Finset.mem_range] at hx ⊢
    exact ⟨hx.1, lt_trans hx.2 h⟩

theorem rank_sum {r : Ring} (hd : DistinctUIDs r) :
    (∑ o in Finset.range r.N, rank r o) * 2 = r.N * (r.N - 1) := by
  have hinj : Set.InjOn (rank r) (Finset.range r.N : Set Nat) := by
    intro a ha b hb hab
    have ha1 : a < r.N := Finset.mem_range.mp ha
    have hb1 : b < r.N := Finset.mem_range.mp hb
    by_contra hne
    rcases lt_or_gt_of_ne (fun e => hne (hd a ha1 b hb1 e)) with h | h
    · have := rank_strict ha1 h; omega
    · have := rank_strict hb1 h; omega
  have himg : (Finset.range r.N).image (rank r) = Finset.range r.N := by
    apply Finset.eq_of_subset_of_card_le
    · intro x hx
      obtain ⟨o, ho, rfl⟩ := Finset.mem_image.mp hx
      exact Finset.mem_range.mpr (rank_lt (Finset.mem_range.mp ho))
    · rw [Finset.card_image_of_injOn hinj]
  have hsum : ∑ o in Finset.range r.N, rank r o = ∑ k in Finset.range r.N, k := by
    conv_rhs => rw [← himg]
    rw [Finset.sum_image hinj]
  rw [hsum, Finset.sum_range_id_mul_two]

/-- A candidacy is sent at most once more than there are nodes with a smaller
UID. -/
theorem sendsOf_le_rank {r : Ring} {s : State} (hc : SingleCycle r) (invD : InvD r s)
    {o : Nat} (ho : o < r.N) : sendsOf r s o ≤ 1 + rank r o := by
  obtain ⟨hle, htr⟩ := invD.trav o ho
  have hcard : (Finset.Ico 1 (sendsOf r s o)).card ≤ rank r o := by
    apply Finset.card_le_card_of_injOn (fun k => r.nbr^[k] o)
    · intro k hk
      rw [Finset.mem_Ico] at hk
      rw [Finset.mem_filter, Finset.mem_range]
      exact ⟨nbr_iter_lt hc ho k, htr k (by omega) hk.2⟩
    · intro a ha b hb hab
      simp only [Finset.coe_Ico, Set.mem_Ico] at ha hb
      exact nbr_iter_inj hc ho (by omega) (by omega) hab
  rw [Nat.card_Ico] at hcard
  omega

/-- The number of sends never exceeds `N (N + 1) / 2 + N`. -/
theorem total_upper {r : Ring} {s : State} (hd : DistinctUIDs r) (hc : SingleCycle r)
    (hr : Reachable r s) :
    s.sent * 2 ≤ r.N * (r.N + 1) + 2 * r.N ∧
      s.hist.countP Event.isParticipateSend * 2 ≤ r.N * (r.N + 1) := by
  have invD := InvD.reachableD hd hc hr
  obtain ⟨h1, h1p⟩ := total_eq_sum hd hc hr
  have h2 := (leaderSend_count hd hc hr).1
  have h3 : ∑ o in Finset.range r.N, sendsOf r s o
      ≤ ∑ o in Finset.range r.N, (1 + rank r o) :=
    Finset.sum_le_sum fun o ho => sendsOf_le_rank hc invD (Finset.mem_range.mp ho)
  rw [Finset.sum_add_distrib] at h3
  simp only [Finset.sum_const, Finset.card_range, smul_eq_mul, mul_one] at h3
  have h4 := rank_sum hd
  have h5 : r.N * (r.N - 1) + 2 * r.N = r.N * (r.N + 1) := by
    rcases Nat.eq_zero_or_pos r.N with h0 | hpos
    · simp [h0]
    · obtain ⟨n, hn⟩ : ∃ n, r.N = n + 1 := ⟨r.N - 1, by omega⟩
      rw [hn]
      simp only [Nat.add_sub_cancel]
      ring
  constructor <;> omega

/-- When `ElectLeader` has returned at least `3 N - 1` messages were sent. -/
theorem total_lower {r : Ring} {s : State} (hd : DistinctUIDs r) (hc : SingleCycle r)
    (hr : Reachable r s) (hm : s.main = .returned) (hN : 0 < r.N) :
    3 * r.N - 1 ≤ s.sent ∧ s.hist.countP Event.isLeaderSend = r.N ∧
      2 * r.N - 1 ≤ s.hist.countP Event.isParticipateSend := by
  obtain ⟨inv, invB⟩ := inv_of_reachable hd hc hr
  have invD := InvD.reachableD hd hc hr
  have hall := allHalted_of_returned hd hc hr hm
  obtain ⟨h1, h1p⟩ := total_eq_sum hd hc hr
  have h2 := (leaderSend_count hd hc hr).2 hall hN
  obtain ⟨l, hl⟩ : ∃ l, s.Leader = some l := by
    cases hl : s.Leader with
    | none => exact absurd hl (inv.halted 0 (hall 0 hN))
    | some l => exact ⟨l, rfl⟩
  have hlN := (inv.leader l hl).1
  have hset := invB.set_by l
  rw [if_pos hl] at hset
  have hlead := invD.lead_at l hlN (by omega)
  have hone : ∀ o ∈ (Finset.range r.N).erase l, 1 ≤ sendsOf r s o := by
    intro o _
    simp only [sendsOf, sentInit, hm]
    have := Finset.mem_range.mp (Finset.mem_of_mem_erase ‹_›)
    simp [this]
  have hsum : sendsOf r s l + ∑ o in (Finset.range r.N).erase l, sendsOf r s o
      = ∑ o in Finset.range r.N, sendsOf r s o :=
    Finset.add_sum_erase (Finset.range r.N) (fun o => sendsOf r s o)
      (Finset.mem_range.mpr hlN)
  have hge : ((Finset.range r.N).erase l).card • 1
      ≤ ∑ o in (Finset.range r.N).erase l, sendsOf r s o :=
    Finset.card_nsmul_le_sum _ _ 1 hone
  rw [Finset.card_erase_of_mem (Finset.mem_range.mpr hlN), Finset.card_range] at hge
  simp only [smul_eq_mul, mul_one] at hge
  refine ⟨by omega, h2, by omega⟩

/-! ## Every run is finite -/

/-- Every transition from a reachable state adds one to `stepsDone`. -/
theorem stepsDone_step {r : Ring} {s t : State} (hr : Reachable r s) (h : Step r s t) :
    stepsDone r t = stepsDone r s + 1 := by
  have hsp := spawn_of_reachable hr
  cases h with
  | mainAdd hm => simp [stepsDone, mainSteps, hm]; omega
  | mainSpawn i hm hi => simp [stepsDone, mainSteps, hm]; omega
  | mainSend i hm hc => simp [stepsDone, mainSteps, hm]; omega
  | mainExit i hm hi =>
    have h2 := hsp.2.1
    simp [spawnCount, hm] at h2
    have h3 : i = r.N := by omega
    subst h3
    simp [stepsDone, mainSteps, hm]; omega
  | mainWait hm hw => simp [stepsDone, mainSteps, hm]; omega
  | recvOwn i u rest hpc hch hu => simp [stepsDone, List.countP_cons]; omega
  | recvFwd i u rest hpc hch hu => simp [stepsDone, List.countP_cons]; omega
  | recvDrop i u rest hpc hch hu => simp [stepsDone, List.countP_cons]; omega
  | recvLeaderFwd i u rest hpc hch hu => simp [stepsDone, List.countP_cons]; omega
  | recvLeaderOwn i u rest hpc hch hu => simp [stepsDone, List.countP_cons]; omega
  | sendCont i m hpc hc => simp [stepsDone, List.countP_cons]; omega
  | sendHalt i m hpc hc => simp [stepsDone, List.countP_cons]; omega

theorem stepsDone_runFrom {r : Ring} {s t : State} (hr : Reachable r s) (acts : List Action)
    (h : runFrom r s acts = some t) : stepsDone r t = stepsDone r s + acts.length := by
  induction acts generalizing s with
  | nil => simp only [runFrom] at h; cases h; simp
  | cons a as ih =>
    simp only [runFrom] at h
    split at h
    · next u hu =>
      rw [ih (Reachable.step a hr hu) h, stepsDone_step hr (Step.of_step hu)]
      simp only [List.length_cons]
      omega
    · cases h

/-- The length of a run is the number of transitions counted in its last state. -/
theorem length_run {r : Ring} {s : State} (acts : List Action) (h : run r acts = some s) :
    acts.length = stepsDone r s := by
  have := stepsDone_runFrom Reachable.init acts h
  simp only [stepsDone, mainSteps, State.init, List.countP_nil] at this ⊢
  omega

/-- Messages received and messages still in the channels are the messages sent. -/
theorem recv_count {r : Ring} {s : State} (hc : SingleCycle r) (hr : Reachable r s) :
    s.hist.countP Event.isRecv + chTotal r s = s.hist.countP Event.isSend := by
  induction hr with
  | init => simp [State.init, chTotal]
  | @step s t a hs hstep ih =>
    have hsp := spawn_of_reachable hs
    have hlt : ∀ i, s.pc i ≠ .notStarted → i < r.N := fun i hi =>
      lt_of_lt_of_le ((hsp.1 i).mp hi) hsp.2.1
    have tail : ∀ {i : Nat} {x : Message} {rest : List Message}, s.pc i = .receiving →
        s.Ch i = x :: rest →
        (∑ j in Finset.range r.N, (Function.update s.Ch i rest j).length) + 1 = chTotal r s := by
      intro i x rest hpc hch
      have h1 := chTotal_update (s := s) (hlt i (by rw [hpc]; simp)) rest
      rw [hch] at h1
      simp only [List.length_cons] at h1
      omega
    have app : ∀ (i : Nat) (x : Message), i < r.N →
        (∑ j in Finset.range r.N,
          (Function.update s.Ch (r.nbr i) (s.Ch (r.nbr i) ++ [x]) j).length)
          = chTotal r s + 1 := by
      intro i x hi
      have h1 := chTotal_update (s := s) (hc.1 i hi) (s.Ch (r.nbr i) ++ [x])
      simp only [List.length_append, List.length_singleton] at h1
      omega
    cases Step.of_step hstep with
    | mainAdd hm => exact ih
    | mainSpawn i hm hi => exact ih
    | mainExit i hm hi => exact ih
    | mainWait hm hw => exact ih
    | mainSend i hm hcap =>
      have hiN : i < r.N := by
        have := hsp.2.1; simp [spawnCount, hm] at this; omega
      have := app i (pMsg (r.uid i)) hiN
      simp only [chTotal] at ih this ⊢
      simp [List.countP_cons] at ih ⊢
      omega
    | recvOwn i u rest hpc hch hu =>
      have := tail hpc hch
      simp only [chTotal] at ih this ⊢
      simp [List.countP_cons] at ih ⊢
      omega
    | recvFwd i u rest hpc hch hu =>
      have := tail hpc hch
      simp only [chTotal] at ih this ⊢
      simp [List.countP_cons] at ih ⊢
      omega
    | recvDrop i u rest hpc hch hu =>
      have := tail hpc hch
      simp only [chTotal] at ih this ⊢
      simp [List.countP_cons] at ih ⊢
      omega
    | recvLeaderFwd i u rest hpc hch hu =>
      have := tail hpc hch
      simp only [chTotal] at ih this ⊢
      simp [List.countP_cons] at ih ⊢
      omega
    | recvLeaderOwn i u rest hpc hch hu =>
      have := tail hpc hch
      simp only [chTotal] at ih this ⊢
      simp [List.countP_cons] at ih ⊢
      omega
    | sendCont i m hpc hcap =>
      have := app i m (hlt i (by rw [hpc]; simp))
      simp only [chTotal] at ih this ⊢
      simp [List.countP_cons] at ih ⊢
      omega
    | sendHalt i m hpc hcap =>
      have := app i m (hlt i (by rw [hpc]; simp))
      simp only [chTotal] at ih this ⊢
      simp [List.countP_cons] at ih ⊢
      omega

theorem countP_nodeSend_le (l : List Event) :
    l.countP Event.isNodeSend ≤ l.countP Event.isSend := by
  induction l with
  | nil => simp
  | cons e l ih => cases e <;> simp [List.countP_cons] <;> omega

/-! ## The variable `totalMessagesSent` never exceeds the number of sends -/

/-- An action adds one to the number of completed sends if it is the channel
operation of a `Send`, and leaves it otherwise. -/
theorem step_sent {r : Ring} {s t : State} {a : Action} (h : step r s a = some t) :
    t.sent = s.sent + if a.isSend then 1 else 0 := by
  cases a with
  | mainAdd =>
    simp only [step] at h
    split at h
    · cases h; rfl
    · cases h
  | mainSpawn =>
    simp only [step] at h
    split at h
    · split at h
      · cases h; rfl
      · cases h
    · cases h
  | mainSend =>
    simp only [step, Send] at h
    split at h
    · split at h
      · next t1 h1 =>
        split at h1
        · cases h1; cases h; rfl
        · cases h1
      · cases h
    · cases h
  | mainExit =>
    simp only [step] at h
    split at h
    · split at h
      · cases h; rfl
      · cases h
    · cases h
  | mainWait =>
    simp only [step] at h
    split at h
    · split at h
      · cases h; rfl
      · cases h
    · cases h
  | recv i =>
    simp only [step] at h
    split at h
    · cases h
      simp only [handle, Action.isSend, Bool.false_eq_true, if_false, Nat.add_zero]
      split <;> split_ifs <;> rfl
    · cases h
  | send i =>
    simp only [step, Send] at h
    split at h
    · split at h
      · next t1 h1 =>
        split at h1
        · cases h1
          split at h
          · cases h; rfl
          · cases h; rfl
        · cases h1
      · cases h
    · cases h

/-- Only a started node, hence a node of the ring, completes a send. -/
theorem send_lt {r : Ring} {s t : State} {i : Nat} (hr : Reachable r s)
    (h : step r s (.send i) = some t) : i < r.N := by
  have hsp := spawn_of_reachable hr
  have hne : s.pc i ≠ .notStarted := by
    intro e
    simp [step, e] at h
  exact lt_of_lt_of_le ((hsp.1 i).mp hne) hsp.2.1

/-- What a run with the variable does to channels, program counters, leader
and wait group is a run of `step`. -/
theorem ExecReachable.base {r : Ring} {c : Exec} (h : ExecReachable r c) :
    Reachable r c.st := by
  induction h with
  | init => exact Reachable.init
  | @move c d m _ hm ih =>
    cases m with
    | act a =>
      simp only [LCR.move] at hm
      split at hm
      · split at hm
        · next t ht => cases hm; exact Reachable.step a ih ht
        · cases hm
      · cases hm
    | load a =>
      simp only [LCR.move] at hm
      split at hm
      · cases hm; exact ih
      · cases hm
    | store a =>
      simp only [LCR.move] at hm
      split at hm
      · cases hm; exact ih
      · cases hm

theorem execReachable_execFrom {r : Ring} {c d : Exec} (hc : ExecReachable r c)
    (ms : List Move) (h : execFrom r c ms = some d) : ExecReachable r d := by
  induction ms generalizing c with
  | nil => simp only [execFrom] at h; cases h; exact hc
  | cons m ms ih =>
    simp only [execFrom] at h
    split at h
    · next u hu => exact ih (ExecReachable.move m hc hu) h
    · cases h

/-- The state at the end of an executable list of moves is reachable. -/
theorem execReachable_exec {r : Ring} (ms : List Move) (h : (exec r ms).isSome = true) :
    ExecReachable r ((exec r ms).getD Exec.init) := by
  obtain ⟨t, ht⟩ := Option.isSome_iff_exists.mp h
  rw [ht]
  exact execReachable_execFrom ExecReachable.init ms ht
/-- The number of pending increments when one goroutine of the ring changes its
place in its increment. -/
theorem pendingIncs_update {r : Ring} {c : Exec} (st : State) (n : Nat) {a : Actor}
    (ha : ∀ i, a = .node i → i < r.N) (x : IncPC) :
    pendingIncs r { st := st, totalMessagesSent := n, inc := Function.update c.inc a x }
        + incInd (c.inc a) = pendingIncs r c + incInd x := by
  cases a with
  | main =>
    have h : ∀ i, Function.update c.inc Actor.main x (.node i) = c.inc (.node i) :=
      fun i => Function.update_noteq (by simp) _ _
    simp only [pendingIncs, Function.update_same, h]
    omega
  | node j =>
    have hj := ha j rfl
    have h0 : Function.update c.inc (Actor.node j) x .main = c.inc .main :=
      Function.update_noteq (by simp) _ _
    have h1 : ∀ i, Function.update c.inc (Actor.node j) x (.node i)
        = Function.update (fun k => c.inc (.node k)) j x i := by
      intro i
      by_cases e : i = j
      · subst e; simp
      · rw [Function.update_noteq e, Function.update_noteq (by simpa using e)]
    have h2 := sum_update_range r.N (fun k => c.inc (.node k)) incInd hj x
    simp only [pendingIncs, h0, h1]
    omega

theorem CountInv.initK (r : Ring) : CountInv r Exec.init :=
  ⟨fun _ _ => rfl, by simp [Exec.init, pendingIncs, incInd, State.init],
    fun a v h => by simp [Exec.init] at h⟩

/-- The invariant of the variable is kept by every move. -/
theorem CountInv.moveK {r : Ring} {c d : Exec} {m : Move} (hr : ExecReachable r c)
    (inv : CountInv r c) (hm : move r c m = some d) : CountInv r d := by
  have hin : ∀ a, c.inc a ≠ .idle → ∀ i, a = .node i → i < r.N := by
    intro a ha i e
    by_contra hi
    exact ha (e ▸ inv.out i (by omega))
  cases m with
  | act a =>
    simp only [move] at hm
    split at hm
    · next hg =>
      split at hm
      · next t ht =>
        cases hm
        have hs := step_sent ht
        by_cases hsend : a.isSend = true
        · have hact : ∀ i, a.actor = .node i → i < r.N := by
            intro i e
            cases a with
            | send j =>
              simp only [Action.actor, Actor.node.injEq] at e
              subst e
              exact send_lt hr.base ht
            | recv j => simp [Action.isSend] at hsend
            | mainAdd => simp [Action.actor] at e
            | mainSpawn => simp [Action.actor] at e
            | mainSend => simp [Action.actor] at e
            | mainExit => simp [Action.actor] at e
            | mainWait => simp [Action.actor] at e
          have hp := pendingIncs_update (c := c) t c.totalMessagesSent hact .load
          rw [hg.1] at hp
          simp only [incInd, Nat.add_zero] at hp
          simp only [hsend, if_true] at hs ⊢
          refine ⟨?_, ?_, ?_⟩
          · intro i hi
            have hne : Actor.node i ≠ a.actor := fun e => by
              have := hact i e.symm
              omega
            simp only []
            rw [Function.update_noteq hne]
            exact inv.out i hi
          · have := inv.le
            simp only [] at hp ⊢
            omega
          · intro b v hb
            simp only [] at hb
            have hne : b ≠ a.actor := by
              intro e
              rw [e, Function.update_same] at hb
              cases hb
            rw [Function.update_noteq hne] at hb
            have := inv.held b v hb
            simp only [] at hp ⊢
            omega
        · simp only [hsend] at hs ⊢
          simp only [Bool.false_eq_true, if_false, Nat.add_zero] at hs ⊢
          refine ⟨inv.out, ?_, ?_⟩
          · have := inv.le
            simp only [pendingIncs] at this ⊢
            omega
          · intro b v hb
            have := inv.held b v hb
            simp only [pendingIncs] at this ⊢
            omega
      · cases hm
    · cases hm
  | load a =>
    simp only [move] at hm
    split at hm
    · next hl =>
      cases hm
      have hp := pendingIncs_update (c := c) c.st c.totalMessagesSent
        (hin a (by rw [hl]; simp)) (.store c.totalMessagesSent)
      rw [hl] at hp
      simp only [incInd] at hp
      refine ⟨?_, ?_, ?_⟩
      · intro i hi
        have hne : Actor.node i ≠ a := fun e => by
          have := inv.out i hi
          rw [e, hl] at this
          cases this
        simp only []
        rw [Function.update_noteq hne]
        exact inv.out i hi
      · have := inv.le
        simp only [] at hp ⊢
        omega
      · intro b v hb
        simp only [] at hb
        by_cases e : b = a
        · rw [e, Function.update_same] at hb
          cases hb
          have := inv.le
          simp only [] at hp ⊢
          omega
        · rw [Function.update_noteq e] at hb
          have := inv.held b v hb
          simp only [] at hp ⊢
          omega
    · cases hm
  | store a =>
    simp only [move] at hm
    split at hm
    · next v hl =>
      cases hm
      have hp := pendingIncs_update (c := c) c.st (v + 1)
        (hin a (by rw [hl]; simp)) .idle
      rw [hl] at hp
      simp only [incInd, Nat.add_zero] at hp
      have hv := inv.held a v hl
      refine ⟨?_, ?_, ?_⟩
      · intro i hi
        by_cases e : Actor.node i = a
        · simp only []
          rw [e, Function.update_same]
        · simp only []
          rw [Function.update_noteq e]
          exact inv.out i hi
      · simp only [] at hp ⊢
        omega
      · intro b w hb
        simp only [] at hb
        by_cases e : b = a
        · rw [e, Function.update_same] at hb
          cases hb
        · rw [Function.update_noteq e] at hb
          have := inv.held b w hb
          simp only [] at hp ⊢
          omega
    · cases hm

theorem CountInv.reachableK {r : Ring} {c : Exec} (h : ExecReachable r c) : CountInv r c := by
  induction h with
  | init => exact CountInv.initK r
  | move m hc hm ih => exact ih.moveK hc hm

/-- On any ring, in every reachable state, the variable `totalMessagesSent` is
at most the number of sends whose channel operation is completed. -/
theorem counter_le_sent {r : Ring} {c : Exec} (h : ExecReachable r c) :
    c.totalMessagesSent ≤ c.st.sent := by
  have := (CountInv.reachableK h).le
  omega
/-! ## Runs of `step` are runs with the variable -/

theorem move_act_of {r : Ring} {c : Exec} {a : Action} {t : State}
    (hg : c.inc a.actor = .idle ∧ (a = .mainWait → nodesIdle r c))
    (ht : step r c.st a = some t) :
    move r c (.act a) = some { c with
      st := t
      inc := if a.isSend then Function.update c.inc a.actor .load else c.inc } := by
  simp only [move]
  rw [if_pos hg, ht]

theorem move_load_of {r : Ring} {c : Exec} {a : Actor} (h : c.inc a = .load) :
    move r c (.load a) = some { c with
      inc := Function.update c.inc a (.store c.totalMessagesSent) } := by
  simp [move, h]

theorem move_store_of {r : Ring} {c : Exec} {a : Actor} {v : Nat} (h : c.inc a = .store v) :
    move r c (.store a) = some { c with
      totalMessagesSent := v + 1
      inc := Function.update c.inc a .idle } := by
  simp [move, h]

/-- Every state that `step` reaches is the state of a run with the variable in
which no goroutine is inside an increment and every completed send is counted:
the run in which each increment directly follows its channel operation. -/
theorem exec_lift {r : Ring} {s : State} (h : Reachable r s) :
    ∃ c, ExecReachable r c ∧ c.st = s ∧ (∀ a, c.inc a = .idle) ∧
      c.totalMessagesSent = s.sent := by
  induction h with
  | init => exact ⟨Exec.init, ExecReachable.init, rfl, fun _ => rfl, rfl⟩
  | @step s t a _ hstep ih =>
    obtain ⟨c, hc, rfl, hidle, hcnt⟩ := ih
    have hs := step_sent hstep
    have hg : c.inc a.actor = .idle ∧ (a = .mainWait → nodesIdle r c) :=
      ⟨hidle _, fun _ i _ => hidle _⟩
    have hc1 := ExecReachable.move _ hc (move_act_of hg hstep)
    by_cases hsend : a.isSend = true
    · simp only [hsend, if_true] at hc1 hs
      have hc2 := ExecReachable.move _ hc1 (move_load_of (a := a.actor) (by simp))
      have hc3 := ExecReachable.move _ hc2
        (move_store_of (a := a.actor) (v := c.totalMessagesSent) (by simp))
      refine ⟨_, hc3, rfl, ?_, ?_⟩
      · intro b
        by_cases e : b = a.actor
        · rw [e]; simp
        · simp only [Function.update_idem]
          rw [Function.update_noteq e]
          exact hidle b
      · simp only []
        omega
    · simp only [hsend, Bool.false_eq_true, if_false, Nat.add_zero] at hc1 hs
      refine ⟨_, hc1, rfl, hidle, ?_⟩
      simp only []
      omega

/-- A state in which no action of `step` is enabled and no goroutine is inside
an increment has no move at all. -/
theorem move_none_of_stuck {r : Ring} {c : Exec} (h : ∀ a, step r c.st a = none)
    (hidle : ∀ a, c.inc a = .idle) (m : Move) : move r c m = none := by
  cases m with
  | act a =>
    simp only [move, h a]
    split <;> rfl
  | load a => simp [move, hidle a]
  | store a => simp [move, hidle a]

/-! ## When `ElectLeader` has returned no increment is pending -/

/-- The main goroutine is inside an increment only between an initial send and
the next iteration; once `ElectLeader` has returned no node is inside one. -/
theorem idle_of_returned {r : Ring} {c : Exec} (h : ExecReachable r c) :
    (c.inc .main ≠ .idle → ∃ i, c.st.main = .loop i false) ∧
      (c.st.main = .returned → nodesIdle r c) := by
  induction h with
  | init => exact ⟨fun h => absurd rfl h, fun h => by cases h⟩
  | @move c d m hc hm ih =>
    have hb := hc.base
    cases m with
    | act a =>
      simp only [LCR.move] at hm
      split at hm
      · next hg =>
        split at hm
        · next t ht =>
          cases hm
          cases a with
          | mainAdd =>
            simp only [step] at ht
            split at ht
            · next hmn =>
              cases ht
              exact ⟨fun _ => ⟨0, rfl⟩, fun e => by cases e⟩
            · cases ht
          | mainSpawn =>
            simp only [step] at ht
            split at ht
            · split at ht
              · cases ht
                refine ⟨fun hne => absurd hg.1 ?_, fun e => by cases e⟩
                simpa [Action.isSend] using hne
              · cases ht
            · cases ht
          | mainSend =>
            simp only [step, Send] at ht
            split at ht
            · split at ht
              · next t1 h1 =>
                split at h1
                · cases h1; cases ht
                  exact ⟨fun _ => ⟨_, rfl⟩, fun e => by cases e⟩
                · cases h1
              · cases ht
            · cases ht
          | mainExit =>
            simp only [step] at ht
            split at ht
            · split at ht
              · cases ht
                refine ⟨fun hne => absurd hg.1 ?_, fun e => by cases e⟩
                simpa [Action.isSend] using hne
              · cases ht
            · cases ht
          | mainWait =>
            simp only [step] at ht
            split at ht
            · split at ht
              · cases ht
                refine ⟨fun hne => absurd hg.1 ?_, fun _ => hg.2 rfl⟩
                simpa [Action.isSend] using hne
              · cases ht
            · cases ht
          | recv i =>
            have hmain : t.main = c.st.main := by
              simp only [step] at ht
              split at ht
              · cases ht
                simp only [handle]
                split <;> split_ifs <;> rfl
              · cases ht
            simp only [Action.isSend, Bool.false_eq_true, if_false]
            rw [hmain]
            exact ih
          | send i =>
            have hmain : t.main = c.st.main := by
              simp only [step, Send] at ht
              split at ht
              · split at ht
                · next t1 h1 =>
                  split at h1
                  · cases h1
                    split at ht
                    · cases ht; rfl
                    · cases ht; rfl
                  · cases h1
                · cases ht
              · cases ht
            have hiN := send_lt hb ht
            simp only [Action.isSend, if_true, Action.actor]
            rw [hmain]
            refine ⟨fun hne => ih.1 ?_, fun e => ?_⟩
            · rwa [Function.update_noteq (by simp)] at hne
            · exfalso
              have hall := (returned_allHalted hb e).2 i hiN
              simp [step, hall] at ht
        · cases hm
      · cases hm
    | load a =>
      simp only [LCR.move] at hm
      split at hm
      · next hl =>
        cases hm
        refine ⟨fun hne => ih.1 ?_, fun e i hi => ?_⟩
        · intro e
          by_cases ha : a = .main
          · rw [ha, e] at hl; cases hl
          · simp only [] at hne
            rw [Function.update_noteq (Ne.symm ha)] at hne
            exact hne e
        · have h1 := ih.2 e i hi
          simp only []
          by_cases ha : Actor.node i = a
          · rw [ha, hl] at h1; cases h1
          · rw [Function.update_noteq ha]; exact h1
      · cases hm
    | store a =>
      simp only [LCR.move] at hm
      split at hm
      · next v hl =>
        cases hm
        refine ⟨fun hne => ih.1 ?_, fun e i hi => ?_⟩
        · intro e
          by_cases ha : a = .main
          · rw [ha, e] at hl; cases hl
          · simp only [] at hne
            rw [Function.update_noteq (Ne.symm ha)] at hne
            exact hne e
        · have h1 := ih.2 e i hi
          simp only []
          by_cases ha : Actor.node i = a
          · rw [ha, hl] at h1; cases h1
          · rw [Function.update_noteq ha]; exact h1
      · cases hm

/-- In every reachable state of every run the number of sends is at most
`N (N + 1) / 2 + N`, and every run is finite: its length is at most
`N (N + 1) + 4 N + 3`; when `ElectLeader` has returned the number of sends is
at least `3 N - 1`: the Participate sends are at least `2 N - 1` (`N` initial
sends and `N - 1` forwards of the winning candidacy) and there are `N` Leader
sends. -/
theorem message_bounds (r : Ring) (hN : 2 ≤ r.N) (hd : DistinctUIDs r)
    (hc : SingleCycle r) (s : State) (hr : Reachable r s) :
    s.hist.countP Event.isSend ≤ r.N * (r.N + 1) / 2 + r.N ∧
    (∀ acts, run r acts = some s → acts.length ≤ r.N * (r.N + 1) + 4 * r.N + 3) ∧
    (s.main = .returned →
      3 * r.N - 1 ≤ s.hist.countP Event.isSend ∧ s.hist.countP Event.isLeaderSend = r.N ∧
        2 * r.N - 1 ≤ s.hist.countP Event.isParticipateSend) := by
  obtain ⟨-, invB⟩ := inv_of_reachable hd hc hr
  have hup := (total_upper hd hc hr).1
  have h3 := invB.total
  refine ⟨by omega, ?_, fun hm => ?_⟩
  · intro acts hrun
    rw [length_run acts hrun]
    have h1 := recv_count hc hr
    have h2 := countP_nodeSend_le s.hist
    have h4 : mainSteps r s.main ≤ 2 * r.N + 3 := by
      have hsp := (spawn_of_reachable hr).2.1
      cases hm : s.main with
      | start => simp [mainSteps]
      | loop i b =>
        simp only [spawnCount, hm] at hsp
        simp only [mainSteps]
        split_ifs at hsp ⊢ <;> omega
      | wait => simp [mainSteps]
      | returned => simp [mainSteps]
    simp only [stepsDone]
    omega
  · obtain ⟨h5, h6, h7⟩ := total_lower hd hc hr hm (by omega)
    exact ⟨by omega, h6, h7⟩

/-- On the ring `5 -> 3 -> 8 -> 1 -> 5` the complete run sent 12 messages,
between `3 N - 1 = 11` and `N (N + 1) / 2 + N = 14`. -/
theorem message_bounds_5381 :
    final5381.hist.countP Event.isSend = 12 ∧
      final5381.hist.countP Event.isSend ≤ ring5381.N * (ring5381.N + 1) / 2 + ring5381.N ∧
      3 * ring5381.N - 1 ≤ final5381.hist.countP Event.isSend :=
  ⟨by decide,
    (message_bounds ring5381 (by decide) (by decide) (by decide) final5381
      (reachable_run sched5381 (by decide))).1,
    ((message_bounds ring5381 (by decide) (by decide) (by decide) final5381
      (reachable_run sched5381 (by decide))).2.2 (by decide)).1⟩

/-- In every reachable state of every run the variable `totalMessagesSent` is at
most the number of sends, hence at most `N (N + 1) / 2 + N`; and when
`ElectLeader` has returned no goroutine of the ring is inside an increment, so
the value is the one reported. -/
theorem counter_bounds (r : Ring) (hN : 2 ≤ r.N) (hd : DistinctUIDs r)
    (hc : SingleCycle r) (c : Exec) (hr : ExecReachable r c) :
    c.totalMessagesSent ≤ c.st.hist.countP Event.isSend ∧
      c.totalMessagesSent ≤ r.N * (r.N + 1) / 2 + r.N ∧
      (c.st.main = .returned → c.inc .main = .idle ∧ nodesIdle r c) := by
  have h1 := counter_le_sent hr
  have h2 := (inv_of_reachable hd hc hr.base).2.total
  have h3 := (message_bounds r hN hd hc c.st hr.base).1
  refine ⟨by omega, by omega, fun hm => ⟨?_, (idle_of_returned hr).2 hm⟩⟩
  by_contra hne
  obtain ⟨i, hi⟩ := (idle_of_returned hr).1 hne
  rw [hm] at hi
  cases hi

/-- C17 fails on the ring of two nodes holding 1 and 2, which `NewRing(2)`
builds from the draws 1, 2: in the run `lostSched12` every goroutine has
finished, `ElectLeader` has returned, 5 messages were sent (`3 N - 1` for
`N = 2`), and the variable `totalMessagesSent` holds 2, below `3 N - 1`:
`ElectLeader` read 1 for the increment of its second initial send and wrote 2
after the nodes had counted their three sends up to 4. -/
theorem C17_lost_increments :
    NewRing 2 [1, 2] = some ring12 ∧
      2 ≤ ring12.N ∧ DistinctUIDs ring12 ∧ SingleCycle ring12 ∧
      ExecReachable ring12 preLost12 ∧ preLost12.totalMessagesSent = 4 ∧
      preLost12.inc .main = .store 1 ∧
      ExecReachable ring12 lost12 ∧ lost12.st.main = .returned ∧
      AllHalted ring12 lost12.st ∧ lost12.inc .main = .idle ∧ nodesIdle ring12 lost12 ∧
      lost12.st.hist.countP Event.isSend = 5 ∧
      lost12.totalMessagesSent = 2 ∧
      ¬ (3 * ring12.N - 1 ≤ lost12.totalMessagesSent) :=
  ⟨by decide, by decide, by decide, by decide, execReachable_exec _ (by decide), by decide,
    by decide, execReachable_exec lostSched12 (by decide), by decide, by decide, by decide, by decide,
    by decide, by decide, by decide⟩

set_option maxRecDepth 100000 in
/-- C11 fails for `N = 12`: on the single cycle that `NewRing(12)` builds from
the draws 11, 10, ..., 0 a run of `ElectLeader` reaches a state in which the
initial sends of the positions 0 to 9 are done and nothing can move, with or
without the variable `totalMessagesSent`: `ElectLeader` is blocked in the
initial send of iteration 10, so that 10 of the 12 initial sends are performed
and no more in any continuation of the run.  And an initial send need not add
one to `totalMessagesSent`: on the ring of two nodes holding 1 and 2, in the
run `lostSched12`, the write that ends the increment of the second initial
send takes the variable from 4 to 2. -/
theorem C11_ten_of_twelve :
    NewRing 12 [11, 10, 9, 8, 7, 6, 5, 4, 3, 2, 1, 0] = some ringDec12 ∧
      2 ≤ ringDec12.N ∧ SingleCycle ringDec12 ∧
      Reachable ringDec12 dead12 ∧ dead12.main = .loop 10 true ∧
      (initSends dead12.hist).reverse = List.range 10 ∧
      step ringDec12 dead12 .mainSend = none ∧
      (∀ acts t, runFrom ringDec12 dead12 acts = some t →
        t = dead12 ∧ (initSends t.hist).length = 10) ∧
      (∃ c, ExecReachable ringDec12 c ∧ c.st = dead12 ∧ ∀ m, move ringDec12 c m = none) ∧
      ExecReachable ring12 preLost12 ∧ preLost12.st.main = .loop 2 false ∧
      preLost12.totalMessagesSent = 4 ∧
      (move ring12 preLost12 (.store .main)).map Exec.totalMessagesSent = some 2 := by
  have hr : Reachable ringDec12 dead12 := reachable_run schedDec12 (by decide)
  have hno := noMove_sound hr (by decide)
  refine ⟨by decide, by decide, by decide, hr, by decide, by decide, hno _, ?_, ?_,
    execReachable_exec _ (by decide), by decide, by decide, by decide⟩
  · intro acts t h
    cases acts with
    | nil =>
      simp only [runFrom] at h
      cases h
      exact ⟨rfl, by decide⟩
    | cons a as =>
      simp only [runFrom, hno a] at h
      cases h
  · obtain ⟨c, hc, hst, hidle, -⟩ := exec_lift hr
    exact ⟨c, hc, hst, move_none_of_stuck (by rw [hst]; exact hno) hidle⟩

/-! ## The sends of a candidacy in a complete run -/

/-- When `ElectLeader` has returned a leader is set; it holds the maximum UID
and its candidacy was sent `N` times. -/
theorem leader_of_returned {r : Ring} {s : State} (hN : 0 < r.N) (hd : DistinctUIDs r)
    (hc : SingleCycle r) (hr : Reachable r s) (hm : s.main = .returned) :
    ∃ l, s.Leader = some l ∧ l < r.N ∧ (∀ j, j < r.N → r.uid j ≤ r.uid l) ∧
      sendsOf r s l = r.N := by
  obtain ⟨inv, invB⟩ := inv_of_reachable hd hc hr
  have invD := InvD.reachableD hd hc hr
  have hall := allHalted_of_returned hd hc hr hm
  cases hl : s.Leader with
  | none => exact absurd hl (inv.halted 0 (hall 0 hN))
  | some l =>
    have hlN := (inv.leader l hl).1
    have hset := invB.set_by l
    rw [if_pos hl] at hset
    exact ⟨l, rfl, hlN, (inv.leader l hl).2.1, invD.lead_at l hlN (by omega)⟩

/-- When `ElectLeader` has returned, the candidacy of a node has stopped after
as many links as it was sent, or it is the candidacy of `Nodes[N-1]`, sent
once and left in the channel of its neighbor. -/
theorem final_sends {r : Ring} {s : State} (hd : DistinctUIDs r) (hc : SingleCycle r)
    (hr : Reachable r s) (hm : s.main = .returned) {o : Nat} (ho : o < r.N) :
    StopAt r o (sendsOf r s o) ∨
      (o = r.N - 1 ∧ sendsOf r s o = 1 ∧ pMsg (r.uid o) ∈ s.Ch (r.nbr o)) := by
  obtain ⟨inv, invB⟩ := inv_of_reachable hd hc hr
  have invC := InvC.reachableC hd hc hr
  have invD := InvD.reachableD hd hc hr
  have hall := allHalted_of_returned hd hc hr hm
  have hpend : pendingInit r s o = 0 := by
    simp only [pendingInit, sentInit, hm]
    rw [if_neg (by omega)]
  by_cases hch : chSum r s (pMsg (r.uid o)) = 0
  · exact Or.inl (sendsOf_stop hc invB invD ho hch (pcSum_of_allHalted hall _) hpend)
  · right
    obtain ⟨j, hj, hne⟩ := Finset.exists_ne_zero_of_sum_ne_zero hch
    have hjN := Finset.mem_range.mp hj
    have hmem : pMsg (r.uid o) ∈ s.Ch j := by
      by_contra hnot
      exact hne (List.count_eq_zero.mpr hnot)
    obtain ⟨h1, h2⟩ := invC.rest j hjN (Or.inr (hall j hjN)) _ hmem
    have ho1 : o = r.N - 1 := (pMsg_eq_iff hd ho (by omega)).mp h1
    obtain ⟨h3, h4⟩ := invD.at_ch o ho j hjN hmem
    have h5 := (invD.trav o ho).1
    rw [← ho1] at h2
    have hone : sendsOf r s o = 1 := by
      rcases Nat.lt_or_ge (sendsOf r s o) r.N with hlt | hge
      · have e : r.nbr^[sendsOf r s o] o = r.nbr^[1] o := by
          rw [h3, Function.iterate_one, h2]
        exact nbr_iter_inj hc ho hlt (by omega) e
      · have e : sendsOf r s o = r.N := by omega
        rw [e, hc.2.1 o ho] at h3
        by_contra hne1
        exact hc.2.2 o ho 1 (by omega) (by omega) (by rw [Function.iterate_one, h2, h3])
    exact ⟨ho1, hone, by rw [h2]; exact hmem⟩

/-- When `ElectLeader` has returned, a candidacy that stops after `d` links was
sent `d` times, unless it is that of `Nodes[N-1]` and was left unhandled. -/
theorem final_sends_eq {r : Ring} {s : State} (hd : DistinctUIDs r) (hc : SingleCycle r)
    (hr : Reachable r s) (hm : s.main = .returned) {o d : Nat} (ho : o < r.N)
    (hst : StopAt r o d) (hq : o = r.N - 1 → d = 1 ∨ Quiet r s) : sendsOf r s o = d := by
  rcases final_sends hd hc hr hm ho with h | ⟨h1, h2, h3⟩
  · exact StopAt.unique h hst
  · rcases hq h1 with h4 | h4
    · omega
    · rw [h4 _ (hc.1 o ho)] at h3
      simp at h3

/-- The candidacy of a node with a larger clockwise neighbor stops after one link. -/
theorem StopAt.one {r : Ring} {o : Nat} (hN : 0 < r.N) (h : r.uid o < r.uid (r.nbr o)) :
    StopAt r o 1 :=
  ⟨by omega, by omega, fun k hk h0 => by omega, by rw [Function.iterate_one]; omega⟩

/-- Two complete runs on the same ring send every candidacy the same number of
times, that of `Nodes[N-1]` perhaps apart. -/
theorem final_sends_same {r : Ring} {s1 s2 : State} (hd : DistinctUIDs r) (hc : SingleCycle r)
    (hr1 : Reachable r s1) (hr2 : Reachable r s2) (hm1 : s1.main = .returned)
    (hm2 : s2.main = .returned) {o : Nat} (ho : o < r.N)
    (hq : o = r.N - 1 → r.uid o < r.uid (r.nbr o) ∨ (∀ j, j < r.N → r.uid j ≤ r.uid o)
      ∨ (Quiet r s1 ∧ Quiet r s2)) :
    sendsOf r s1 o = sendsOf r s2 o := by
  have hN : 0 < r.N := by omega
  obtain ⟨l1, hl1, hl1N, hmax1, hs1⟩ := leader_of_returned hN hd hc hr1 hm1
  obtain ⟨l2, hl2, hl2N, hmax2, hs2⟩ := leader_of_returned hN hd hc hr2 hm2
  have hl : l1 = l2 := max_unique hd hl1N hl2N hmax1 hmax2
  by_cases hol : o = l1
  · rw [hol, hs1, hl, hs2]
  by_cases hlast : o = r.N - 1
  · rcases hq hlast with h | h | ⟨h1, h2⟩
    · rw [final_sends_eq hd hc hr1 hm1 ho (StopAt.one hN h) (fun _ => Or.inl rfl),
        final_sends_eq hd hc hr2 hm2 ho (StopAt.one hN h) (fun _ => Or.inl rfl)]
    · exact absurd (max_unique hd ho hl1N h hmax1) hol
    · rcases final_sends hd hc hr1 hm1 ho with h3 | ⟨-, -, h3⟩
      · exact (final_sends_eq hd hc hr2 hm2 ho h3 (fun _ => Or.inr h2)).symm
      · rw [h1 _ (hc.1 o ho)] at h3
        simp at h3
  · rcases final_sends hd hc hr1 hm1 ho with h3 | ⟨h3, -, -⟩
    · exact (final_sends_eq hd hc hr2 hm2 ho h3 (fun h => absurd h hlast)).symm
    · exact absurd h3 hlast

/-- Sums over the ring that agree at every position but the last differ by
the difference at the last position. -/
theorem sum_last {n : Nat} (f g : Nat → Nat) (hn : 0 < n)
    (h : ∀ o, o < n → o ≠ n - 1 → f o = g o) :
    (∑ o in Finset.range n, f o) + g (n - 1) = (∑ o in Finset.range n, g o) + f (n - 1) := by
  obtain ⟨m, rfl⟩ : ∃ m, n = m + 1 := ⟨n - 1, by omega⟩
  rw [Finset.sum_range_succ, Finset.sum_range_succ]
  have : ∑ o in Finset.range m, f o = ∑ o in Finset.range m, g o :=
    Finset.sum_congr rfl fun o ho =>
      h o (by have := Finset.mem_range.mp ho; omega) (by have := Finset.mem_range.mp ho; omega)
  simp only [Nat.add_sub_cancel]
  omega

/-! ## The two-node ring -/

/-- C13, amended: on the two-node ring holding 1 and 2 (in either order in
`Ring.Nodes`), whenever `ElectLeader` has returned the leader is the node
holding 2 and exactly 5 sends were completed: 3 of Participate messages (the
two initial sends and the forward of the candidacy 2 by the node holding 1)
and 2 of Leader messages. -/
theorem C13_two_nodes (r : Ring) (hring : r = ring12 ∨ r = ring21) (s : State)
    (hr : Reachable r s) (hm : s.main = .returned) :
    (∃ l, s.Leader = some l ∧ r.uid l = 2) ∧ s.hist.countP Event.isSend = 5 ∧
      s.hist.countP Event.isParticipateSend = 3 ∧ s.hist.countP Event.isLeaderSend = 2 := by
  rcases hring with rfl | rfl
  · have hd : DistinctUIDs ring12 := by decide
    have hc : SingleCycle ring12 := by decide
    obtain ⟨l, hl, hlN, hmax, hs⟩ := leader_of_returned (by decide) hd hc hr hm
    have h1 : l = 1 := max_unique hd hlN (by decide) hmax (by decide)
    subst h1
    have h0 : sendsOf ring12 s 0 = 1 :=
      final_sends_eq hd hc hr hm (by decide) (by decide) (fun h => absurd h (by decide))
    obtain ⟨ht, hp⟩ := total_eq_sum hd hc hr
    have hT := (inv_of_reachable hd hc hr).2.total
    have hls := (total_lower hd hc hr hm (by decide)).2.1
    have hN : ring12.N = 2 := rfl
    rw [hN] at hs hls ht hp
    rw [Finset.sum_range_succ, Finset.sum_range_one] at ht hp
    exact ⟨⟨1, hl, rfl⟩, by omega, by omega, hls⟩
  · have hd : DistinctUIDs ring21 := by decide
    have hc : SingleCycle ring21 := by decide
    obtain ⟨l, hl, hlN, hmax, hs⟩ := leader_of_returned (by decide) hd hc hr hm
    have h1 : l = 0 := max_unique hd hlN (by decide) hmax (by decide)
    subst h1
    have h0 : sendsOf ring21 s 1 = 1 :=
      final_sends_eq hd hc hr hm (by decide) (by decide) (fun _ => Or.inl rfl)
    obtain ⟨ht, hp⟩ := total_eq_sum hd hc hr
    have hT := (inv_of_reachable hd hc hr).2.total
    have hls := (total_lower hd hc hr hm (by decide)).2.1
    have hN : ring21.N = 2 := rfl
    rw [hN] at hs hls ht hp
    rw [Finset.sum_range_succ, Finset.sum_range_one] at ht hp
    exact ⟨⟨0, hl, rfl⟩, by omega, by omega, hls⟩

/-- Witness for C13 as amended: the complete run `sched12` on the ring holding
1 and 2. -/
theorem C13_two_nodes_witness :
    final12.main = .returned ∧
      ((∃ l, final12.Leader = some l ∧ ring12.uid l = 2) ∧ final12.hist.countP Event.isSend = 5 ∧
        final12.hist.countP Event.isParticipateSend = 3 ∧
        final12.hist.countP Event.isLeaderSend = 2) :=
  ⟨by decide,
    C13_two_nodes ring12 (Or.inl rfl) final12 (reachable_run sched12 (by decide)) (by decide)⟩

/-- Counterexample to C13 as stated: a complete run on the two-node ring holding
1 and 2 elects the node holding 2 and sends 5 messages, not 4, of which 3 are
Participate messages, not 2: the Participate message carrying 2 is sent twice,
by `ElectLeader` and by the node holding 1 that forwards it. -/
theorem C13_counterexample :
    Reachable ring12 final12 ∧ final12.main = .returned ∧ AllHalted ring12 final12 ∧
      final12.Leader = some 1 ∧ ring12.uid 1 = 2 ∧
      final12.hist.reverse.filter Event.isSend =
        [.initSend 0, .initSend 1, .nodeSend 0 (pMsg 2) false, .nodeSend 1 (lMsg 2) false,
          .nodeSend 0 (lMsg 2) true] ∧
      final12.hist.countP Event.isSend = 5 ∧ final12.hist.countP Event.isSend ≠ 4 ∧
      final12.hist.countP Event.isParticipateSend = 3 ∧
      final12.hist.countP Event.isLeaderSend = 2 :=
  ⟨reachable_run sched12 (by decide), by decide, by decide, by decide, by decide, by decide,
    by decide, by decide, by decide, by decide⟩

/-! ## Complete runs on the same ring -/

/-- Two complete runs on the same ring elect the same leader, send the same
Leader messages, and differ in the number of Participate sends only by the
sends of the candidacy of `Nodes[N-1]`. -/
theorem complete_runs {r : Ring} (hN : 2 ≤ r.N) (hd : DistinctUIDs r) (hc : SingleCycle r)
    {s1 s2 : State} (hr1 : Reachable r s1) (hr2 : Reachable r s2)
    (hm1 : s1.main = .returned) (hm2 : s2.main = .returned) :
    s1.Leader = s2.Leader ∧
    s1.hist.countP Event.isLeaderSend = s2.hist.countP Event.isLeaderSend ∧
    (∀ o, o < r.N → o ≠ r.N - 1 → sendsOf r s1 o = sendsOf r s2 o) ∧
    s1.hist.countP Event.isSend + sendsOf r s2 (r.N - 1)
      = s2.hist.countP Event.isSend + sendsOf r s1 (r.N - 1) ∧
    (r.uid (r.N - 1) < r.uid (r.nbr (r.N - 1)) ∨ (∀ j, j < r.N → r.uid j ≤ r.uid (r.N - 1))
        ∨ (Quiet r s1 ∧ Quiet r s2) →
      s1.hist.countP Event.isSend = s2.hist.countP Event.isSend ∧
        s1.hist.countP Event.isParticipateSend = s2.hist.countP Event.isParticipateSend) ∧
    s1.hist.countP Event.isSend ≤ s2.hist.countP Event.isSend + (r.N - 2) := by
  have hpos : 0 < r.N := by omega
  obtain ⟨l1, hl1, hl1N, hmax1, hs1⟩ := leader_of_returned hpos hd hc hr1 hm1
  obtain ⟨l2, hl2, hl2N, hmax2, hs2⟩ := leader_of_returned hpos hd hc hr2 hm2
  have hl : l1 = l2 := max_unique hd hl1N hl2N hmax1 hmax2
  subst hl
  have hL1 := (total_lower hd hc hr1 hm1 hpos).2.1
  have hL2 := (total_lower hd hc hr2 hm2 hpos).2.1
  obtain ⟨ht1, hp1⟩ := total_eq_sum hd hc hr1
  obtain ⟨ht2, hp2⟩ := total_eq_sum hd hc hr2
  have hT1 := (inv_of_reachable hd hc hr1).2.total
  have hT2 := (inv_of_reachable hd hc hr2).2.total
  have hsame : ∀ o, o < r.N → o ≠ r.N - 1 → sendsOf r s1 o = sendsOf r s2 o :=
    fun o ho hne => final_sends_same hd hc hr1 hr2 hm1 hm2 ho (fun h => absurd h hne)
  have hsum := sum_last (sendsOf r s1) (sendsOf r s2) hpos hsame
  have hone : 1 ≤ sendsOf r s2 (r.N - 1) := by
    rcases final_sends hd hc hr2 hm2 (o := r.N - 1) (by omega) with h | ⟨-, h, -⟩
    · exact h.1
    · omega
  have hle : sendsOf r s1 (r.N - 1) ≤ r.N - 1 ∨
      (sendsOf r s1 (r.N - 1) = r.N ∧ sendsOf r s2 (r.N - 1) = r.N) := by
    by_cases hlast : r.N - 1 = l1
    · right; rw [hlast]; exact ⟨hs1, hs2⟩
    · left
      have h1 := sendsOf_le_rank hc (InvD.reachableD hd hc hr1) (o := r.N - 1) (by omega)
      have h2 : r.uid (r.N - 1) < r.uid l1 :=
        lt_of_le_of_ne (hmax1 _ (by omega)) fun e => hlast (hd _ (by omega) _ hl1N e)
      have h3 := rank_strict (r := r) (by omega) h2
      have h4 := rank_lt (r := r) hl1N
      omega
  refine ⟨by rw [hl1, hl2], by rw [hL1, hL2], hsame, by omega, ?_, by omega⟩
  intro hq
  have := final_sends_same hd hc hr1 hr2 hm1 hm2 (o := r.N - 1) (by omega) (fun _ => hq)
  constructor <;> omega

/-- C14, amended: for every ring of `N >= 2` nodes with distinct UIDs on a
single cycle, any two complete runs of `ElectLeader` elect the same leader and
send the same number of Leader messages, and every candidacy but that of
`Nodes[N-1]` is sent the same number of times; the numbers of sends differ by
the difference in the sends of the candidacy of `Nodes[N-1]`, hence by at most
`N - 2`.  The numbers of sends and of Participate sends are equal when
the neighbor of `Nodes[N-1]` holds a larger UID than `Nodes[N-1]` (as on the
ring `5 -> 3 -> 8 -> 1 -> 5`), or `Nodes[N-1]` holds the maximum, or no message
is left in a channel in either run. -/
theorem C14_same_outcome (r : Ring) (hN : 2 ≤ r.N) (hd : DistinctUIDs r) (hc : SingleCycle r)
    (s1 s2 : State) (hr1 : Reachable r s1) (hr2 : Reachable r s2)
    (hm1 : s1.main = .returned) (hm2 : s2.main = .returned) :
    s1.Leader = s2.Leader ∧
    s1.hist.countP Event.isLeaderSend = s2.hist.countP Event.isLeaderSend ∧
    (∀ o, o < r.N → o ≠ r.N - 1 → sendsOf r s1 o = sendsOf r s2 o) ∧
    s1.hist.countP Event.isSend + sendsOf r s2 (r.N - 1)
      = s2.hist.countP Event.isSend + sendsOf r s1 (r.N - 1) ∧
    (r.uid (r.N - 1) < r.uid (r.nbr (r.N - 1)) ∨ (∀ j, j < r.N → r.uid j ≤ r.uid (r.N - 1))
        ∨ (Quiet r s1 ∧ Quiet r s2) →
      s1.hist.countP Event.isSend = s2.hist.countP Event.isSend ∧
        s1.hist.countP Event.isParticipateSend = s2.hist.countP Event.isParticipateSend) ∧
    s1.hist.countP Event.isSend ≤ s2.hist.countP Event.isSend + (r.N - 2) :=
  complete_runs hN hd hc hr1 hr2 hm1 hm2

/-- Witness for C14 as amended: on the ring `5 -> 3 -> 8 -> 1 -> 5` the run in
which every message is handled and the run that leaves the candidacy 1 in a
channel elect the same node and send the same number of messages. -/
theorem C14_same_outcome_witness :
    final5381.Leader = lateFinal5381.Leader ∧
      final5381.hist.countP Event.isSend = lateFinal5381.hist.countP Event.isSend ∧
      ¬ Quiet ring5381 lateFinal5381 :=
  ⟨(C14_same_outcome ring5381 (by decide) (by decide) (by decide) final5381 lateFinal5381
      (reachable_run sched5381 (by decide)) (reachable_run lateSched5381 (by decide))
      (by decide) (by decide)).1,
    ((C14_same_outcome ring5381 (by decide) (by decide) (by decide) final5381 lateFinal5381
      (reachable_run sched5381 (by decide)) (reachable_run lateSched5381 (by decide))
      (by decide) (by decide)).2.2.2.2.1 (Or.inl (by decide))).1,
    by decide⟩

/-- Every complete run on the ring `5 -> 3 -> 8 -> 1 -> 5` elects the node
holding 8 and sends 12 messages: 4 initial sends, 4 forwards of Participate
messages and 4 Leader messages. -/
theorem every_run_5381 (s : State) (hr : Reachable ring5381 s) (hm : s.main = .returned) :
    s.Leader = some 2 ∧ s.hist.countP Event.isSend = 12 ∧
      s.hist.countP Event.isParticipateSend = 8 ∧ s.hist.countP Event.isLeaderSend = 4 := by
  have h := complete_runs (r := ring5381) (by decide) (by decide) (by decide) hr
    (reachable_run sched5381 (by decide)) hm (by decide)
  obtain ⟨h1, h2, -, -, h3, -⟩ := h
  obtain ⟨h4, h5⟩ := h3 (Or.inl (by decide))
  have e1 : final5381.Leader = some 2 := by decide
  have e2 : final5381.hist.countP Event.isSend = 12 := by decide
  have e3 : final5381.hist.countP Event.isParticipateSend = 8 := by decide
  have e4 : final5381.hist.countP Event.isLeaderSend = 4 := by decide
  exact ⟨h1.trans e1, h4.trans e2, h5.trans e3, h2.trans e4⟩

/-- Counterexample to C14 as stated: on the ring `1 -> 3 -> 2 -> 1` two complete
runs elect the same node but send 9 and 8 messages (6 and 5 Participate
sends): in the second `ElectLeader` makes its last initial send after the node
holding 1 has halted, so the candidacy 2 is not forwarded. -/
theorem C14_counterexample :
    2 ≤ ring132.N ∧ DistinctUIDs ring132 ∧ SingleCycle ring132 ∧
      Reachable ring132 final132 ∧ Reachable ring132 lateFinal132 ∧
      final132.main = .returned ∧ lateFinal132.main = .returned ∧
      AllHalted ring132 final132 ∧ AllHalted ring132 lateFinal132 ∧
      final132.Leader = some 1 ∧ lateFinal132.Leader = some 1 ∧
      final132.hist.countP Event.isSend = 9 ∧ lateFinal132.hist.countP Event.isSend = 8 ∧
      final132.hist.countP Event.isParticipateSend = 6 ∧
      lateFinal132.hist.countP Event.isParticipateSend = 5 ∧
      lateFinal132.Ch 0 = [pMsg 2] :=
  ⟨by decide, by decide, by decide, reachable_run sched132 (by decide),
    reachable_run lateSched132 (by decide), by decide, by decide, by decide, by decide,
    by decide, by decide, by decide, by decide, by decide, by decide, by decide⟩

/-! ## The best and the worst arrangement -/

theorem sum_down (n : Nat) : (∑ k in Finset.range n, (n - k)) * 2 = n * (n + 1) := by
  induction n with
  | zero => simp
  | succ n ih =>
    rw [Finset.sum_range_succ']
    simp only [Nat.add_sub_add_right, Nat.sub_zero]
    have : (n + 1) * (n + 1 + 1) = n * (n + 1) + 2 * (n + 1) := by ring
    omega

/-- A sum over the positions of a single cycle, taken along the cycle. -/
theorem sum_orbit {r : Ring} (hc : SingleCycle r) {l : Nat} (hl : l < r.N) (f : Nat → Nat) :
    ∑ o in Finset.range r.N, f o = ∑ k in Finset.range r.N, f (r.nbr^[k] l) := by
  symm
  apply Finset.sum_nbij (fun k => r.nbr^[k] l)
  · intro k _
    exact Finset.mem_range.mpr (nbr_iter_lt hc hl k)
  · intro a ha b hb hab
    exact nbr_iter_inj hc hl (Finset.mem_range.mp ha) (Finset.mem_range.mp hb) hab
  · intro j hj
    obtain ⟨k, hk, e⟩ := cycle_surj hc hl (Finset.mem_range.mp hj)
    exact ⟨k, Finset.mem_range.mpr hk, e⟩
  · intro k _
    rfl

/-- On a ring in decreasing order the UIDs decrease along the cycle from the
node holding the maximum. -/
theorem decreasing_chain {r : Ring} (hd : DistinctUIDs r) (hc : SingleCycle r)
    (hdec : Decreasing r) {l : Nat} (hl : l < r.N) (hmax : ∀ j, j < r.N → r.uid j ≤ r.uid l)
    (a b : Nat) (hab : a < b) (hb : b < r.N) : r.uid (r.nbr^[b] l) < r.uid (r.nbr^[a] l) := by
  have hstep : ∀ k, k + 1 < r.N → r.uid (r.nbr^[k + 1] l) < r.uid (r.nbr^[k] l) := by
    intro k hk
    rw [Function.iterate_succ_apply']
    rcases hdec _ (nbr_iter_lt hc hl k) with h | h
    · exact h
    · have e : r.nbr (r.nbr^[k] l) = l := max_unique hd (hc.1 _ (nbr_iter_lt hc hl k)) hl h hmax
      exact absurd ((Function.iterate_succ_apply' r.nbr k l).trans e)
        (hc.2.2 l hl (k + 1) hk (by omega))
  induction b with
  | zero => omega
  | succ b ih =>
    rcases Nat.lt_or_ge a b with h | h
    · exact lt_trans (hstep b hb) (ih h (by omega))
    · have e : a = b := by omega
      rw [e]
      exact hstep b hb

/-- On a ring in decreasing order the candidacy of the node `k` links after
the maximum stops after `N - k` links, at the node holding the maximum. -/
theorem decreasing_stop {r : Ring} (hd : DistinctUIDs r) (hc : SingleCycle r)
    (hdec : Decreasing r) {l : Nat} (hl : l < r.N) (hmax : ∀ j, j < r.N → r.uid j ≤ r.uid l)
    {k : Nat} (hk : k < r.N) : StopAt r (r.nbr^[k] l) (r.N - k) := by
  refine ⟨by omega, by omega, ?_, ?_⟩
  · intro j hj h0
    rw [← Function.iterate_add_apply]
    exact decreasing_chain hd hc hdec hl hmax k (j + k) (by omega) (by omega)
  · rw [← Function.iterate_add_apply, Nat.sub_add_cancel (le_of_lt hk), hc.2.1 l hl]
    exact hmax _ (nbr_iter_lt hc hl k)

/-- A complete run on a ring in decreasing order in which every message is
handled makes `N (N + 1) / 2` Participate sends. -/
theorem decreasing_sends {r : Ring} {s : State} (hN : 0 < r.N) (hd : DistinctUIDs r)
    (hc : SingleCycle r) (hdec : Decreasing r) (hr : Reachable r s) (hm : s.main = .returned)
    (hq : Quiet r s) : (∑ o in Finset.range r.N, sendsOf r s o) * 2 = r.N * (r.N + 1) := by
  obtain ⟨l, -, hlN, hmax, -⟩ := leader_of_returned hN hd hc hr hm
  rw [sum_orbit hc hlN, ← sum_down r.N]
  congr 1
  apply Finset.sum_congr rfl
  intro k hk
  have hk1 := Finset.mem_range.mp hk
  exact final_sends_eq hd hc hr hm (nbr_iter_lt hc hlN k)
    (decreasing_stop hd hc hdec hlN hmax hk1) (fun _ => Or.inr hq)

/-- A complete run on a ring in increasing order makes `2 N - 1` Participate
sends. -/
theorem increasing_sends {r : Ring} {s : State} (hN : 0 < r.N) (hd : DistinctUIDs r)
    (hc : SingleCycle r) (hinc : Increasing r) (hr : Reachable r s) (hm : s.main = .returned) :
    ∑ o in Finset.range r.N, sendsOf r s o = 2 * r.N - 1 := by
  obtain ⟨l, -, hlN, hmax, hs⟩ := leader_of_returned hN hd hc hr hm
  have hone : ∀ o ∈ (Finset.range r.N).erase l, sendsOf r s o = 1 := by
    intro o ho
    have hoN := Finset.mem_range.mp (Finset.mem_of_mem_erase ho)
    have hne := Finset.ne_of_mem_erase ho
    rcases hinc o hoN with h | h
    · exact final_sends_eq hd hc hr hm hoN (StopAt.one hN h) (fun _ => Or.inl rfl)
    · exact absurd (max_unique hd hoN hlN h hmax) hne
  have hsum : sendsOf r s l + ∑ o in (Finset.range r.N).erase l, sendsOf r s o
      = ∑ o in Finset.range r.N, sendsOf r s o :=
    Finset.add_sum_erase (Finset.range r.N) (fun o => sendsOf r s o)
      (Finset.mem_range.mpr hlN)
  rw [Finset.sum_congr rfl hone, Finset.sum_const,
    Finset.card_erase_of_mem (Finset.mem_range.mpr hlN), Finset.card_range] at hsum
  simp only [smul_eq_mul, mul_one] at hsum
  omega

/-- C18, amended: the worst case is the ring in decreasing order (every node
holds a larger UID than its clockwise neighbor, except the node whose neighbor
holds the maximum): a complete run on it in which every message is handled
makes `N (N + 1) / 2` Participate sends and `N` Leader sends, and no run on a
ring of `N` nodes sends more.  The ring in increasing order is the best case:
every complete run on it makes `2 N - 1` Participate sends and `N` Leader
sends, and no complete run on a ring of `N` nodes sends less. -/
theorem C18_worst_case (r : Ring) (hN : 2 ≤ r.N) (hd : DistinctUIDs r) (hc : SingleCycle r)
    (s : State) (hr : Reachable r s) (hm : s.main = .returned) :
    (Decreasing r → Quiet r s →
      s.hist.countP Event.isParticipateSend = r.N * (r.N + 1) / 2 ∧
      s.hist.countP Event.isLeaderSend = r.N ∧
      s.hist.countP Event.isSend = r.N * (r.N + 1) / 2 + r.N ∧
      ∀ (q : Ring) (t : State), q.N = r.N → DistinctUIDs q → SingleCycle q → Reachable q t →
        t.hist.countP Event.isSend ≤ s.hist.countP Event.isSend) ∧
    (Increasing r →
      s.hist.countP Event.isParticipateSend = 2 * r.N - 1 ∧
      s.hist.countP Event.isLeaderSend = r.N ∧
      s.hist.countP Event.isSend = 3 * r.N - 1 ∧
      ∀ (q : Ring) (t : State), q.N = r.N → DistinctUIDs q → SingleCycle q → Reachable q t →
        t.main = .returned → s.hist.countP Event.isSend ≤ t.hist.countP Event.isSend) := by
  have hpos : 0 < r.N := by omega
  obtain ⟨ht, hp⟩ := total_eq_sum hd hc hr
  have hT := (inv_of_reachable hd hc hr).2.total
  have hL := (total_lower hd hc hr hm hpos).2.1
  constructor
  · intro hdec hq
    have h1 := decreasing_sends hpos hd hc hdec hr hm hq
    refine ⟨by omega, hL, by omega, ?_⟩
    intro q t hqN hqd hqc hqr
    have h2 := (total_upper hqd hqc hqr).1
    have hT2 := (inv_of_reachable hqd hqc hqr).2.total
    rw [hqN] at h2
    omega
  · intro hinc
    have h1 := increasing_sends hpos hd hc hinc hr hm
    refine ⟨by omega, hL, by omega, ?_⟩
    intro q t hqN hqd hqc hqr hqm
    have h2 := (total_lower hqd hqc hqr hqm (by omega)).1
    have hT2 := (inv_of_reachable hqd hqc hqr).2.total
    rw [hqN] at h2
    omega

/-- Witness for C18 as amended: on the ring `3 -> 2 -> 1 -> 3` the complete run
`sched321` sends `3 * 4 / 2 + 3 = 9` messages, and on `1 -> 2 -> 3 -> 1` the
complete run `sched123` sends `3 * 3 - 1 = 8`. -/
theorem C18_worst_case_witness :
    (Decreasing ring321 ∧ Quiet ring321 final321 ∧
      final321.hist.countP Event.isSend = ring321.N * (ring321.N + 1) / 2 + ring321.N) ∧
    (Increasing ring123 ∧ final123.hist.countP Event.isSend = 3 * ring123.N - 1) :=
  ⟨⟨by decide, by decide,
    ((C18_worst_case ring321 (by decide) (by decide) (by decide) final321
      (reachable_run sched321 (by decide)) (by decide)).1 (by decide) (by decide)).2.2.1⟩,
    by decide,
    ((C18_worst_case ring123 (by decide) (by decide) (by decide) final123
      (reachable_run sched123 (by decide)) (by decide)).2 (by decide)).2.2.1⟩

/-- Counterexample to C18 as stated: on the ring `1 -> 2 -> 3 -> 1`, in
increasing order, a complete run in which every message is handled sends 8
messages (5 Participate, 3 Leader), not `3 * 4 / 2 + 3 = 9`, and fewer than
the 9 that a complete run sends on the ring `3 -> 2 -> 1 -> 3` holding the same
UIDs. -/
theorem C18_counterexample :
    2 ≤ ring123.N ∧ DistinctUIDs ring123 ∧ SingleCycle ring123 ∧ Increasing ring123 ∧
      Reachable ring123 final123 ∧ final123.main = .returned ∧ Quiet ring123 final123 ∧
      final123.hist.countP Event.isParticipateSend = 5 ∧
      final123.hist.countP Event.isLeaderSend = 3 ∧
      final123.hist.countP Event.isSend = 8 ∧
      final123.hist.countP Event.isSend ≠ ring123.N * (ring123.N + 1) / 2 + ring123.N ∧
      (ring321.Nodes.map Node.UID).Perm (ring123.Nodes.map Node.UID) ∧
      DistinctUIDs ring321 ∧ SingleCycle ring321 ∧
      Reachable ring321 final321 ∧ final321.main = .returned ∧ Quiet ring321 final321 ∧
      final321.hist.countP Event.isSend = 9 ∧
      final123.hist.countP Event.isSend < final321.hist.countP Event.isSend :=
  ⟨by decide, by decide, by decide, by decide, reachable_run sched123 (by decide), by decide,
    by decide, by decide, by decide, by decide, by decide, by decide, by decide, by decide,
    reachable_run sched321 (by decide), by decide, by decide, by decide, by decide⟩

end LCR
